import Mathlib

/-!
Verification of the Poedit catalog core (src/src/catalog.cpp): the header
metadata store (FromString/ToString/ParseDict/UpdateDict), catalog items
(translation slots, flags) and catalog-level operations (same-as-source
pruning, line lookup, sideloading), shallowly embedded over `List Char`
strings.
-/

set_option maxHeartbeats 1000000

namespace Poedit

/-- Strings are modelled as lists of characters (the contents of a wxString). -/
abbrev Str := List Char

/-- Whitespace characters removed by wxString::Strip / Trim. -/
def isWhiteChar (c : Char) : Bool :=
  c == ' ' || c == '\t' || c == '\r' || c == '\n'

/-- Characters treated as token boundaries by CatalogItem::GetFormatFlag
(the `" \t"` set passed to find_last_of). -/
def isSpaceTab (c : Char) : Bool :=
  c == ' ' || c == '\t'

/-- wxString::Strip(leading): drop leading whitespace. -/
def stripL (s : Str) : Str := s.dropWhile isWhiteChar

/-- wxString::Strip(trailing): drop trailing whitespace. -/
def stripR (s : Str) : Str := (s.reverse.dropWhile isWhiteChar).reverse

/-- wxString::Strip(both): drop surrounding whitespace. -/
def stripBoth (s : Str) : Str := stripR (stripL s)

/-- Split a string at newline characters, keeping empty pieces. -/
def splitNL : Str → List Str
  | [] => [[]]
  | c :: cs =>
    if c = '\n' then [] :: splitNL cs
    else
      match splitNL cs with
      | [] => [[c]]
      | t :: ts => (c :: t) :: ts

/-- wxStringTokenizer with the "\n" delimiter runs in strtok mode (newline is
whitespace), so empty tokens are skipped. -/
def tokenizeNL (s : Str) : List Str :=
  (splitNL s).filter (fun t => !t.isEmpty)

/-- Split at any of the given delimiter characters, keeping empty pieces. -/
def splitOnDelims (ds : List Char) : Str → List Str
  | [] => [[]]
  | c :: cs =>
    if ds.contains c then [] :: splitOnDelims ds cs
    else
      match splitOnDelims ds cs with
      | [] => [[c]]
      | t :: ts => (c :: t) :: ts

/-- wxStringTokenizer with non-whitespace delimiters runs in wxTOKEN_RET_EMPTY
mode: inner empty tokens are returned, the trailing empty token is not. -/
def tokensRE (ds : List Char) (s : Str) : List Str :=
  let ts := splitOnDelims ds s
  if ts.getLast? = some [] then ts.dropLast else ts

/-- Boolean test: the first argument is a leading segment of the second
(wxString::starts_with). -/
def hasPre : Str → Str → Bool
  | [], _ => true
  | _ :: _, [] => false
  | a :: as, b :: bs => a == b && hasPre as bs

/-- First index at which the pattern occurs as a substring (wxString::find). -/
def findSubIdx (pat : Str) : Str → Option Nat
  | [] => if pat.isEmpty then some 0 else none
  | c :: cs =>
    if hasPre pat (c :: cs) then some 0
    else (findSubIdx pat cs).map (· + 1)

/-- Last index at or below `i` whose character satisfies `p`
(wxString::find_last_of with an explicit start position). -/
def findLastOf (p : Char → Bool) (s : Str) : Nat → Option Nat
  | 0 => if 0 < s.length ∧ p (s.getD 0 ' ') = true then some 0 else none
  | i + 1 =>
    if i + 1 < s.length ∧ p (s.getD (i + 1) ' ') = true then some (i + 1)
    else findLastOf p s i

/-- Decimal digit character. -/
def digitChar (n : Nat) : Char :=
  if n = 0 then '0' else if n = 1 then '1' else if n = 2 then '2'
  else if n = 3 then '3' else if n = 4 then '4' else if n = 5 then '5'
  else if n = 6 then '6' else if n = 7 then '7' else if n = 8 then '8' else '9'

/-- Fuel-based decimal rendering; the fuel `n + 1` used by `natToStr` always
suffices since a number has at most `n + 1` decimal digits. -/
def natToStrAux : Nat → Nat → Str
  | 0, _ => []
  | fuel + 1, n =>
    if n < 10 then [digitChar n]
    else natToStrAux fuel (n / 10) ++ [digitChar (n % 10)]

/-- Decimal rendering of a natural number (wxString::Printf with %i on the
non-negative loop indices used for the header series). -/
def natToStr (n : Nat) : Str := natToStrAux (n + 1) n

/-- Numeric value of a digit list; used to show `natToStr` is injective. -/
def digitsVal : Str → Nat
  | [] => 0
  | c :: cs => (c.toNat - 48) * 10 ^ cs.length + digitsVal cs

/-- Concatenation of a list of strings. -/
def strConcat (l : List Str) : Str := l.foldr (· ++ ·) []

/-- Modelled from the spec: EscapeCString (str_helpers.h, not under src)
applies the C-string escaping convention to one character. -/
def escChar (c : Char) : Str :=
  if c = '\\' then ['\\', '\\']
  else if c = '"' then ['\\', '"']
  else if c = '\n' then ['\\', 'n']
  else if c = '\t' then ['\\', 't']
  else if c = '\r' then ['\\', 'r']
  else [c]

/-- Modelled from the spec: EscapeCString (str_helpers.h, not under src),
C-string escaping of serialized header keys and values. -/
def escapeCString (s : Str) : Str := strConcat (s.map escChar)

/-- Modelled from the spec: UnescapeCString (str_helpers.h, not under src),
the inverse C-string unescaping that the PO reader applies to the header
msgstr before its text reaches FromString. -/
def unescapeCString : Str → Str
  | [] => []
  | '\\' :: c :: rest =>
    (if c = 'n' then '\n' else if c = 't' then '\t' else if c = 'r' then '\r' else c)
      :: unescapeCString rest
  | c :: rest => c :: unescapeCString rest

/-- One `Key: Value` line of the header block (Catalog::HeaderData::Entry). -/
structure Entry where
  key : Str
  value : Str
deriving DecidableEq

/-- HeaderData::Find: first entry with the given key. -/
def findEntry (es : List Entry) (k : Str) : Option Entry :=
  es.find? (fun e => e.key == k)

/-- HeaderData::GetHeader: value of the first entry with the key, or empty. -/
def getHeaderE (es : List Entry) (k : Str) : Str :=
  match findEntry es k with
  | some e => e.value
  | none => []

/-- HeaderData::HasHeader. -/
def hasHeaderE (es : List Entry) (k : Str) : Bool :=
  (findEntry es k).isSome

/-- HeaderData::SetHeader: update the first entry with the key in place, or
append a new entry at the end. -/
def setHeaderE (es : List Entry) (k v : Str) : List Entry :=
  match es with
  | [] => [⟨k, v⟩]
  | e :: rest => if e.key = k then ⟨k, v⟩ :: rest else e :: setHeaderE rest k v

/-- HeaderData::DeleteHeader: remove every entry with the key. -/
def deleteHeaderE (es : List Entry) (k : Str) : List Entry :=
  es.filter (fun e => !(e.key == k))

/-- HeaderData::SetHeaderNotEmpty. -/
def setHeaderNotEmptyE (es : List Entry) (k v : Str) : List Entry :=
  if v = [] then deleteHeaderE es k else setHeaderE es k v

def kPIV : Str := "Project-Id-Version".toList
def kRMB : Str := "Report-Msgid-Bugs-To".toList
def kPOT : Str := "POT-Creation-Date".toList
def kPOR : Str := "PO-Revision-Date".toList
def kLTr : Str := "Last-Translator".toList
def kTeam : Str := "Language-Team".toList
def kLang : Str := "Language".toList
def kMime : Str := "MIME-Version".toList
def kCT : Str := "Content-Type".toList
def kCTE : Str := "Content-Transfer-Encoding".toList
def kPF : Str := "Plural-Forms".toList
def kGen : Str := "X-Generator".toList
def kSCC : Str := "X-Poedit-SourceCharset".toList
def kKWL : Str := "X-Poedit-KeywordsList".toList
def kKWold : Str := "X-Poedit-Keywords".toList
def kBP : Str := "X-Poedit-Basepath".toList
def kXLang : Str := "X-Language".toList
def kXPL : Str := "X-Poedit-Language".toList
def kXPC : Str := "X-Poedit-Country".toList

/-- Leading segment shared by the indexed search-path keys. -/
def spPfx : Str := "X-Poedit-SearchPath-".toList

/-- Leading segment of the excluded search-path keys. -/
def spePfx : Str := "X-Poedit-SearchPathExcluded-".toList

/-- Common leading segment of both indexed series. -/
def spRoot : Str := "X-Poedit-SearchPath".toList

/-- Indexed header key of a series (Printf("…-%i", i)). -/
def mkIdxKey (pfx : Str) (i : Nat) : Str := pfx ++ natToStr i

/-- The canonical order of standard header keys used by
HeaderData::NormalizeHeaderOrder. -/
def canonicalKeys : List Str :=
  [kPIV, kRMB, kPOT, kPOR, kLTr, kTeam, kLang, kMime, kCT, kCTE, kPF]

/-- wxArrayString::Index: linear scan for the first exact match, with the
`coalesce` of NormalizeHeaderOrder mapping not-found to 12
(1 + count of canonical keys). -/
def prioAux (k : Str) : List Str → Nat → Nat
  | [], _ => 12
  | c :: cs, i => if c = k then i else prioAux k cs (i + 1)

/-- Sort priority of a key: its canonical index, or 12 for unknown keys. -/
def prio (k : Str) : Nat := prioAux k canonicalKeys 0

/-- A key is one of the eleven canonical standard keys. -/
def isKnown (k : Str) : Bool := canonicalKeys.contains k

/-- The extension keys UpdateDict rewrites, deletes or re-emits (generator,
source charset, keyword list, base path, and both indexed search-path
series). -/
def isManaged (k : Str) : Bool :=
  k == kGen || k == kSCC || k == kKWL || k == kBP || hasPre spRoot k

/-- Stable insertion used to model std::stable_sort with the priority
comparator: a later element goes after all elements of lower or equal
priority. -/
def insertByPrio (x : Entry) : List Entry → List Entry
  | [] => [x]
  | y :: ys => if prio y.key ≤ prio x.key then y :: insertByPrio x ys else x :: y :: ys

/-- HeaderData::NormalizeHeaderOrder: stable sort by canonical priority. -/
def normalizeHeaderOrder (es : List Entry) : List Entry :=
  es.foldl (fun acc e => insertByPrio e acc) []

/-- Priority classes of a list, joined in ascending priority order; this is
the specification of a stable sort by priority. -/
def joinClasses (l : List Entry) : Nat → Nat → List Entry
  | _, 0 => []
  | p, n + 1 => l.filter (fun e => prio e.key == p) ++ joinClasses l (p + 1) n

/-- All thirteen priority classes in order. -/
def classJoin (l : List Entry) : List Entry := joinClasses l 0 13

/-- Modelled from the spec: the Language collaborator (language.h, not under
src) reduced to its code string; an empty code is the unset language. -/
structure Language where
  code : Str
deriving DecidableEq

/-- Modelled from the spec: the default-constructed, invalid language. -/
def Language.invalid : Language := ⟨[]⟩

/-- Modelled from the spec: Language::TryParse keeps the given code. -/
def Language.TryParse (s : Str) : Language := ⟨s⟩

/-- Language::Code. -/
def Language.Code (l : Language) : Str := l.code

/-- Language::IsValid. -/
def Language.IsValid (l : Language) : Bool := !l.code.isEmpty

/-- Modelled from the spec: Language::FromLegacyNames resolves the legacy
X-Poedit-Language name; the mapping itself is external, modelled as keeping
the name. -/
def Language.FromLegacyNames (lang _country : Str) : Language := ⟨lang⟩

/-- FixBrokenSearchPathValue: backslashes become slashes, one trailing slash
is removed; the empty path is kept as-is. -/
def fixBrokenSearchPathValue (p : Str) : Str :=
  if p = [] then p
  else
    let q := p.map (fun c => if c = '\\' then '/' else c)
    if q.getLast? = some '/' then q.dropLast else q

/-- Catalog::HeaderData: the raw entries plus the derived first-class
fields. -/
structure HeaderData where
  entries : List Entry
  Project : Str
  CreationDate : Str
  RevisionDate : Str
  Translator : Str
  TranslatorEmail : Str
  LanguageTeam : Str
  Charset : Str
  SourceCodeCharset : Str
  Lang : Language
  BasePath : Str
  SearchPaths : List Str
  SearchPathsExcluded : List Str
  Keywords : List Str
deriving DecidableEq

/-- A default-constructed HeaderData: no entries, empty fields. -/
def cleanHeader : HeaderData :=
  ⟨[], [], [], [], [], [], [], [], [], Language.invalid, [], [], [], []⟩

/-- The probe-and-delete loop of UpdateDict over one indexed series; it stops
at the first missing index. The fuel `|es| + 1` given by `deleteSeries`
always suffices because at most `|es|` consecutive indices can be present. -/
def deleteSeriesAux (pfx : Str) : Nat → Nat → List Entry → List Entry
  | 0, _, es => es
  | fuel + 1, i, es =>
    if hasHeaderE es (mkIdxKey pfx i) = true
    then deleteSeriesAux pfx fuel (i + 1) (deleteHeaderE es (mkIdxKey pfx i))
    else es

/-- Delete the contiguous indexed series starting at index 0. -/
def deleteSeries (es : List Entry) (pfx : Str) : List Entry :=
  deleteSeriesAux pfx (es.length + 1) 0 es

/-- The re-emission loop of UpdateDict: one SetHeader per list element,
0-based contiguous indices. -/
def emitSeries (pfx : Str) (i : Nat) (l : List Str) (es : List Entry) : List Entry :=
  match l with
  | [] => es
  | p :: ps => emitSeries pfx (i + 1) ps (setHeaderE es (mkIdxKey pfx i) p)

/-- The probe loop of ParseDict over one indexed series; stops at the first
missing index, sanitizes each value and skips values that become empty. The
fuel `|es| + 1` given by `collectSeries` always suffices. -/
def collectSeriesAux (es : List Entry) (pfx : Str) : Nat → Nat → List Str
  | 0, _ => []
  | fuel + 1, i =>
    if hasHeaderE es (mkIdxKey pfx i) = true then
      (let p := fixBrokenSearchPathValue (getHeaderE es (mkIdxKey pfx i))
       if p = [] then [] else [p]) ++ collectSeriesAux es pfx fuel (i + 1)
    else []

/-- Read back one indexed series from index 0. -/
def collectSeries (es : List Entry) (pfx : Str) : List Str :=
  collectSeriesAux es pfx (es.length + 1) 0

/-- The keyword list joined with ';' separators (UpdateDict appends ';' after
each keyword and removes the final one). -/
def joinSC : List Str → Str
  | [] => []
  | [k] => k
  | k :: ks => k ++ ';' :: joinSC ks

/-- Modelled from the spec: the generator identifier written by UpdateDict
("Poedit " + POEDIT_VERSION; version.h is not under src). -/
def generatorValue : Str := "Poedit 3.5".toList

def mimeValue : Str := "1.0".toList
def cteValue : Str := "8bit".toList
def ctPre : Str := "text/plain; charset=".toList
def charsetPat : Str := "; charset=".toList
def utf8Value : Str := "UTF-8".toList
def ltOpen : Str := " <".toList
def ltClose : Str := ">".toList

/-- The Last-Translator merge rules of UpdateDict: empty email keeps or
writes the bare name (not touching a pre-existing header when both parts are
empty), bare email when the name is empty, "Name <email>" otherwise. -/
def updateTranslatorHeader (l : List Entry) (tr em : Str) : List Entry :=
  if em = [] then
    if tr ≠ [] ∨ hasHeaderE l kLTr = false then setHeaderE l kLTr tr else l
  else
    if tr = [] then setHeaderE l kLTr em
    else setHeaderE l kLTr (tr ++ ltOpen ++ em ++ ltClose)

/-- The keyword-list step of UpdateDict: written only when non-empty. -/
def updateKeywordsHeader (l : List Entry) (kws : List Str) : List Entry :=
  if kws ≠ [] then setHeaderE l kKWL (joinSC kws) else l

/-- The plain-header part of UpdateDict, before the indexed series are
regenerated. -/
def updateDictChain (h : HeaderData) : List Entry :=
  let es := h.entries
  let es := setHeaderE es kPIV h.Project
  let es := setHeaderE es kPOT h.CreationDate
  let es := setHeaderE es kPOR h.RevisionDate
  let es := updateTranslatorHeader es h.Translator h.TranslatorEmail
  let es := setHeaderE es kTeam h.LanguageTeam
  let es := setHeaderE es kMime mimeValue
  let es := setHeaderE es kCT (ctPre ++ h.Charset)
  let es := setHeaderE es kCTE cteValue
  let es := setHeaderNotEmptyE es kLang h.Lang.Code
  let es := setHeaderE es kGen generatorValue
  let es := setHeaderNotEmptyE es kSCC h.SourceCodeCharset
  let es := updateKeywordsHeader es h.Keywords
  setHeaderNotEmptyE es kBP h.BasePath

/-- The entry list UpdateDict builds before normalizing the order: the plain
chain, both delete loops, then both re-emission loops. -/
def updateDictPre (h : HeaderData) : List Entry :=
  emitSeries spePfx 0 h.SearchPathsExcluded
    (emitSeries spPfx 0 h.SearchPaths
      (deleteSeries (deleteSeries (updateDictChain h) spPfx) spePfx))

/-- Catalog::HeaderData::UpdateDict: re-derive the raw entries from the
first-class fields, then normalize the order. -/
def HeaderData.UpdateDict (h : HeaderData) : HeaderData :=
  { h with entries := normalizeHeaderOrder (updateDictPre h) }

/-- Catalog::HeaderData::ParseDict: derive the first-class fields from the
raw entries (removing legacy entries along the way). -/
def HeaderData.ParseDict (h : HeaderData) : HeaderData :=
  let es := h.entries
  let project := getHeaderE es kPIV
  let creation := getHeaderE es kPOT
  let revision := getHeaderE es kPOR
  let dummy := getHeaderE es kLTr
  let trPair :=
    if dummy = [] then (h.Translator, h.TranslatorEmail)
    else
      match tokensRE ['<', '>'] dummy with
      | [a, b] => (stripR a, b)
      | _ => (dummy, ([] : Str))
  let team := getHeaderE es kTeam
  let ctype := getHeaderE es kCT
  let charset :=
    match findSubIdx charsetPat ctype with
    | some pos => stripBoth (ctype.drop (pos + 10))
    | none => utf8Value
  let lang := Language.invalid
  let langCode := getHeaderE es kLang
  let lang := if langCode ≠ [] then Language.TryParse langCode else lang
  let lang :=
    if lang.IsValid = false then
      if getHeaderE es kXLang ≠ [] then Language.TryParse (getHeaderE es kXLang) else lang
    else lang
  let lang :=
    if lang.IsValid = false then
      if getHeaderE es kXPL ≠ []
      then Language.FromLegacyNames (getHeaderE es kXPL) (getHeaderE es kXPC)
      else lang
    else lang
  let es := deleteHeaderE (deleteHeaderE es kXPL) kXPC
  let scc := getHeaderE es kSCC
  let basePath := fixBrokenSearchPathValue (getHeaderE es kBP)
  let kwlist := getHeaderE es kKWL
  let kwPair :=
    if kwlist ≠ [] then (tokensRE [';'] kwlist, es)
    else
      if getHeaderE es kKWold ≠ []
      then (tokensRE [','] (getHeaderE es kKWold), deleteHeaderE es kKWold)
      else (([] : List Str), es)
  let es := kwPair.2
  { entries := es, Project := project, CreationDate := creation,
    RevisionDate := revision, Translator := trPair.1, TranslatorEmail := trPair.2,
    LanguageTeam := team, Charset := charset, SourceCodeCharset := scc,
    Lang := lang, BasePath := basePath,
    SearchPaths := collectSeries es spPfx,
    SearchPathsExcluded := collectSeries es spePfx,
    Keywords := kwPair.1 }

/-- One line of the FromString parse: the text before the first colon and the
text after it, both stripped; a line with no colon yields nothing. -/
def parseHeaderLine (ln : Str) : Option Entry :=
  let k := ln.takeWhile (fun c => !(c == ':'))
  if k.length = ln.length then none
  else some ⟨stripBoth k, stripBoth (ln.drop (k.length + 1))⟩

/-- One iteration of the FromString parse loop: push the parsed entry, or
skip (and log) the malformed line. -/
def pushParsed (acc : List Entry) (ln : Str) : List Entry :=
  match parseHeaderLine ln with
  | none => acc
  | some e => acc ++ [e]

/-- The tokenize-and-parse loop of FromString, before ParseDict runs. -/
def fromStringRaw (str : Str) : List Entry :=
  (tokenizeNL str).foldl pushParsed []

/-- Catalog::HeaderData::FromString: rebuild the entry list from wire text,
then run ParseDict. -/
def HeaderData.FromString (h : HeaderData) (str : Str) : HeaderData :=
  HeaderData.ParseDict { h with entries := fromStringRaw str }

/-- The serialized form of one header entry: escaped key, ": ", escaped
value, a literal backslash-n pair, then the caller-supplied delimiter. -/
def headerLineText (delim : Str) (e : Entry) : Str :=
  escapeCString e.key ++ ": ".toList ++ escapeCString e.value ++ "\\n".toList ++ delim

/-- Catalog::HeaderData::ToString: runs UpdateDict, then serializes every
entry. -/
def HeaderData.ToString (h : HeaderData) (delim : Str) : Str :=
  strConcat ((HeaderData.UpdateDict h).entries.map (headerLineText delim))

/-- The overlay attached to one item by sideloading. -/
structure SideloadedItemData where
  source_string : Str
  source_plural_string : Option Str
  extracted_comments : Option (List Str)
deriving DecidableEq

/-- CatalogItem: one translation unit, restricted to the fields the verified
operations touch. -/
structure CatalogItem where
  string : Str
  plural : Str
  hasPlural : Bool
  translations : List Str
  isFuzzy : Bool
  isTranslated : Bool
  isPreTranslated : Bool
  isModified : Bool
  hasIssue : Bool
  moreFlags : Str
  lineNumber : Int
  extractedComments : List Str
  sideloaded : Option SideloadedItemData
deriving DecidableEq

def CatalogItem.GetNumberOfTranslations (it : CatalogItem) : Nat :=
  it.translations.length

/-- CatalogItem::GetTranslation: empty for an out-of-range index. -/
def CatalogItem.GetTranslation (it : CatalogItem) (idx : Nat) : Str :=
  if it.GetNumberOfTranslations ≤ idx then [] else it.translations.getD idx []

/-- The recomputation of m_isTranslated done by SetTranslation and
SetTranslations: start from true, turn false on any empty slot. -/
def allSlotsFilled (ts : List Str) : Bool := ts.all (fun t => !t.isEmpty)

/-- CatalogItem::SetTranslation: pad with empty slots up to the index, set
the slot, clear the issue, recompute m_isTranslated. -/
def CatalogItem.SetTranslation (it : CatalogItem) (t : Str) (idx : Nat) : CatalogItem :=
  let ts := it.translations ++ List.replicate (idx + 1 - it.translations.length) []
  let ts2 := ts.set idx t
  { it with
    translations := ts2, hasIssue := false, isTranslated := allSlotsFilled ts2 }

/-- CatalogItem::SetTranslations. -/
def CatalogItem.SetTranslations (it : CatalogItem) (ts : List Str) : CatalogItem :=
  { it with
    translations := ts, hasIssue := false, isTranslated := allSlotsFilled ts }

/-- CatalogItem::SetTranslationFromSource: copy the source into slot 0 and,
for plural items, the plural source into the remaining slots; m_isTranslated
is set to true unconditionally. (On an item with no slots the C++ code
dereferences the begin iterator of an empty array; the embedding leaves the
empty slot array unchanged in that case.) -/
def CatalogItem.SetTranslationFromSource (it : CatalogItem) : CatalogItem :=
  match it.translations with
  | [] =>
    { it with
      hasIssue := false, isFuzzy := false, isPreTranslated := false,
      isTranslated := true }
  | t0 :: rest =>
    let m1 := it.isModified || !(t0 == it.string)
    let rest2 := if it.hasPlural then rest.map (fun _ => it.plural) else rest
    let m2 := m1 || (it.hasPlural && rest.any (fun t => !(t == it.plural)))
    { it with
      hasIssue := false, isFuzzy := false, isPreTranslated := false,
      isTranslated := true, translations := it.string :: rest2, isModified := m2 }

/-- CatalogItem::ClearTranslation: blank every slot, clear the status flags,
mark modified if any slot held text. -/
def CatalogItem.ClearTranslation (it : CatalogItem) : CatalogItem :=
  { it with
    isFuzzy := false, isPreTranslated := false, isTranslated := false,
    isModified := it.isModified || it.translations.any (fun t => !t.isEmpty),
    translations := it.translations.map (fun _ => []) }

/-- CatalogItem::GetPluralFormsCount. -/
def CatalogItem.GetPluralFormsCount (it : CatalogItem) : Nat :=
  if it.hasPlural = false ∨ it.translations.length = 0 then 0
  else it.translations.length - 1

def dashFormatStr : Str := "-format".toList
def noDashStr : Str := "no-".toList

/-- CatalogItem::GetFormatFlag: first occurrence of "-format", token bounded
by the last space or tab at or before it; a token with the "no-" negation
marker yields the empty result. -/
def CatalogItem.GetFormatFlag (it : CatalogItem) : Str :=
  if it.moreFlags = [] then []
  else
    match findSubIdx dashFormatStr it.moreFlags with
    | none => []
    | some pos =>
      let format :=
        match findLastOf isSpaceTab it.moreFlags pos with
        | none => it.moreFlags.take pos
        | some sp => (it.moreFlags.drop (sp + 1)).take (pos - sp - 1)
      if hasPre noDashStr format then [] else format

/-- The catalog-level sideload context. -/
structure SideloadedCatalogData where
  source_language : Language
deriving DecidableEq

/-- Catalog: header plus ordered items (restricted to the verified
operations). -/
structure Catalog where
  items : List CatalogItem
  header : HeaderData
  sideloaded : Option SideloadedCatalogData
deriving DecidableEq

/-- Catalog::GetPluralFormsCount: maximum over the items. -/
def Catalog.GetPluralFormsCount (cat : Catalog) : Nat :=
  cat.items.foldl (fun acc it => max acc it.GetPluralFormsCount) 0

/-- The scanning loop of Catalog::FindItemIndexByLine. -/
def findItemIndexByLineAux (lineno : Int) : List CatalogItem → Int → Int
  | [], last => last
  | it :: rest, last =>
    if it.lineNumber > lineno then last
    else findItemIndexByLineAux lineno rest (last + 1)

/-- Catalog::FindItemIndexByLine. -/
def Catalog.FindItemIndexByLine (cat : Catalog) (lineno : Int) : Int :=
  findItemIndexByLineAux lineno cat.items (-1)

/-- Catalog::FindItemByLine: the found item, or a null pointer modelled as
none. -/
def Catalog.FindItemByLine (cat : Catalog) (lineno : Int) : Option CatalogItem :=
  let i := cat.FindItemIndexByLine lineno
  if i = -1 then none else cat.items.get? i.toNat

/-- The condition under which RemoveSameAsSourceTranslations clears an item:
the primary translation equals the source and, for plural items, the
catalog-wide plural count is 2 with the second slot equal to the plural
source. -/
def clearEligible (pfc : Nat) (it : CatalogItem) : Bool :=
  (it.string == it.GetTranslation 0) &&
    (!it.hasPlural || ((pfc == 2) && (it.plural == it.GetTranslation 1)))

def Catalog.setItemAt (cat : Catalog) (i : Nat) (it : CatalogItem) : Catalog :=
  { cat with items := cat.items.set i it }

/-- The item loop of Catalog::RemoveSameAsSourceTranslations, evaluating the
plural-forms count on the current catalog state at each step. -/
def rsastAux : Nat → Nat → Catalog → Bool → Bool × Catalog
  | 0, _, cat, changed => (changed, cat)
  | fuel + 1, i, cat, changed =>
    match cat.items.get? i with
    | none => (changed, cat)
    | some it =>
      if clearEligible cat.GetPluralFormsCount it = true then
        rsastAux fuel (i + 1) (cat.setItemAt i it.ClearTranslation) true
      else rsastAux fuel (i + 1) cat changed

/-- Catalog::RemoveSameAsSourceTranslations: returns the changed flag and the
resulting catalog. -/
def Catalog.RemoveSameAsSourceTranslations (cat : Catalog) : Bool × Catalog :=
  rsastAux cat.items.length 0 cat false

/-- std::map insertion by assignment: overwrite the first matching key or
append. -/
def insertAssoc (m : List (Str × CatalogItem)) (k : Str) (v : CatalogItem) :
    List (Str × CatalogItem) :=
  match m with
  | [] => [(k, v)]
  | p :: rest => if p.1 = k then (k, v) :: rest else p :: insertAssoc rest k v

/-- Lookup in the modelled std::map. -/
def lookupAssoc (m : List (Str × CatalogItem)) (k : Str) : Option CatalogItem :=
  match m.find? (fun p => p.1 == k) with
  | some p => some p.2
  | none => none

/-- The raw-source-to-item map built over the reference items; later items
with the same raw source overwrite earlier ones. -/
def buildRefMap (refs : List CatalogItem) : List (Str × CatalogItem) :=
  refs.foldl (fun m r => insertAssoc m r.string r) []

/-- The overlay recorded for one matched reference item. -/
def mkOverlay (r : CatalogItem) : SideloadedItemData :=
  { source_string := r.GetTranslation 0
    source_plural_string := if r.hasPlural = true then some (r.GetTranslation 1) else none
    extracted_comments := if r.extractedComments ≠ [] then some r.extractedComments else none }

/-- The per-item step of SideloadSourceDataFromReferenceFile. -/
def sideloadItem (m : List (Str × CatalogItem)) (it : CatalogItem) : CatalogItem :=
  match lookupAssoc m it.string with
  | none => it
  | some r =>
    if r.GetTranslation 0 = [] then it
    else { it with sideloaded := some (mkOverlay r) }

/-- Catalog::SideloadSourceDataFromReferenceFile. -/
def Catalog.SideloadSourceDataFromReferenceFile (cat : Catalog) (ref : Catalog) : Catalog :=
  { cat with
    items := cat.items.map (sideloadItem (buildRefMap ref.items)),
    sideloaded := some ⟨ref.header.Lang⟩ }

/-- The last reference item with the given raw source string; this is what
the overwrite-on-insert map lookup yields. -/
def lastMatchRef (refs : List CatalogItem) (s : Str) : Option CatalogItem :=
  (refs.filter (fun r => r.string == s)).getLast?

/-- Last index at which the pattern occurs as a substring; used to state the
claimed (last-occurrence) reading of GetFormatFlag. -/
def lastSubIdx (pat s : Str) : Option Nat :=
  (List.range s.length).foldl
    (fun acc p => if hasPre pat (s.drop p) = true then some p else acc) none

/-- The token immediately preceding position `pos`, bounded by whitespace:
the longest non-whitespace suffix of the text before `pos`. -/
def lastTokenEnd (s : Str) (pos : Nat) : Str :=
  ((s.take pos).reverse.takeWhile (fun c => !isSpaceTab c)).reverse

/-- The claimed format-flag extraction: token before the LAST occurrence of
"-format", absent if negated or if no occurrence exists. -/
def getFormatFlagLastSpec (flags : Str) : Str :=
  match lastSubIdx dashFormatStr flags with
  | none => []
  | some pos =>
    if hasPre noDashStr (lastTokenEnd flags pos) then [] else lastTokenEnd flags pos

/-- Format-flag extraction stated against the FIRST occurrence of "-format";
this is what the code implements. -/
def getFormatFlagFirstSpec (flags : Str) : Str :=
  match findSubIdx dashFormatStr flags with
  | none => []
  | some pos =>
    if hasPre noDashStr (lastTokenEnd flags pos) then [] else lastTokenEnd flags pos


/-- A default catalog item used as a concrete base for witnesses. -/
def baseItem : CatalogItem :=
  ⟨[], [], false, [], false, false, false, false, false, [], 0, [], none⟩

/-- An item with an empty source string and one empty translation slot. -/
def itEmptySource : CatalogItem := { baseItem with translations := [[]] }

/-- Items sorted by ascending line number (the loader's precondition for the
line lookup). -/
def sortedByLine (items : List CatalogItem) : Prop :=
  items.Pairwise (fun a b => a.lineNumber ≤ b.lineNumber)

/-- A concrete line-sorted catalog used by the C7 witness. -/
def catW7 : Catalog :=
  ⟨[{ baseItem with lineNumber := 3 }, { baseItem with lineNumber := 5 },
    { baseItem with lineNumber := 9 }], cleanHeader, none⟩

/-- The per-item effect of RemoveSameAsSourceTranslations. -/
def rsastStep (pfc : Nat) (it : CatalogItem) : CatalogItem :=
  if clearEligible pfc it = true then it.ClearTranslation else it

/-- Concrete sideload data: a reference item translating "Hello", a second
reference item with the same source but no translation, and a target item
with that source. -/
def refItemA : CatalogItem := { baseItem with string := "Hello".toList, translations := ["Bonjour".toList] }
def refItemB : CatalogItem := { baseItem with string := "Hello".toList }
def tgtItem8 : CatalogItem := { baseItem with string := "Hello".toList }
def refCat8 : Catalog := ⟨[refItemA, refItemB], cleanHeader, none⟩
def tgtCat8 : Catalog := ⟨[tgtItem8], cleanHeader, none⟩
def refCat8W : Catalog := ⟨[refItemA], cleanHeader, none⟩

/-- A header line holding only the legacy language key. -/
def str9 : Str := "X-Poedit-Language: Czech".toList

/-- Wire text exercising the malformed-line tolerance. -/
def str9W : Str := "A: b\nnocolon\nC : d".toList

/-- Last index strictly below `pos` whose character satisfies `p`; auxiliary
reformulation of find_last_of used to relate the code to the token reading. -/
def findLastBelow (p : Char → Bool) (s : Str) : Nat → Option Nat
  | 0 => none
  | q + 1 =>
    if q < s.length ∧ p (s.getD q ' ') = true then some q else findLastBelow p s q

/-- A flags string carrying two format flags. -/
def flags2 : Str := " c-format qt-format".toList

/-- An item whose extra flags carry two format flags. -/
def itFlags2 : CatalogItem := { baseItem with moreFlags := flags2 }

/-- An unknown extension key used in the C6 counterexample. -/
def kCustom : Str := "X-Custom".toList

/-- A header whose raw entries hold a search-path entry before a custom
extension entry. -/
def hC6 : HeaderData :=
  { cleanHeader with
    entries := [⟨mkIdxKey spPfx 0, "a".toList⟩, ⟨kCustom, "v".toList⟩],
    SearchPaths := ["a".toList] }

/-- The thirteen non-indexed keys touched by the UpdateDict chain. -/
def chainKeys : List Str :=
  [kPIV, kPOT, kPOR, kLTr, kTeam, kMime, kCT, kCTE, kLang, kGen, kSCC, kKWL, kBP]

/-- A header with a non-contiguous pre-existing search-path series (indices
0 and 2) and no current search paths. -/
def hC3 : HeaderData :=
  { cleanHeader with
    entries := [⟨mkIdxKey spPfx 0, "a".toList⟩, ⟨mkIdxKey spPfx 2, "b".toList⟩] }

/-- A header with no pre-existing indexed entries and one search path. -/
def hC3W : HeaderData :=
  { cleanHeader with
    entries := [⟨kCustom, "v".toList⟩], SearchPaths := ["a".toList] }

/-- The comparison predicate of the line-number scan. -/
def lineLE (n : Int) : CatalogItem → Bool := fun it => decide (it.lineNumber ≤ n)

/-- An entry whose key is neither canonical nor touched by UpdateDict. -/
def unmanagedUnknown (e : Entry) : Bool := !isKnown e.key && !isManaged e.key

/-- A header value that survives the wire format unchanged: no embedded
newline (the line separator) and no surrounding whitespace (the line parse
strips both ends). -/
def valOK (v : Str) : Prop := '\n' ∉ v ∧ stripL v = v ∧ stripR v = v

instance (v : Str) : Decidable (valOK v) := by
  unfold valOK
  infer_instance

/-- An entry whose serialized `Key: Value` line parses back to itself: the
key is non-empty, colon-free, newline-free and stripped; the value is
newline-free and stripped. -/
def entryWire (e : Entry) : Prop :=
  e.key ≠ [] ∧ ':' ∉ e.key ∧ '\n' ∉ e.key ∧ stripL e.key = e.key ∧
  stripR e.key = e.key ∧ '\n' ∉ e.value ∧ stripL e.value = e.value ∧
  stripR e.value = e.value

/-- A HeaderData carrying the given first-class field values over an empty
raw entry store. -/
def mkHeader (P CD RD T TE LT CS SCC L BP : Str)
    (SPs SPEs KWs : List Str) : HeaderData :=
  ⟨[], P, CD, RD, T, TE, LT, CS, SCC, ⟨L⟩, BP, SPs, SPEs, KWs⟩

/-- The Last-Translator value UpdateDict writes for a name/email pair. -/
def ltValue (tr em : Str) : Str :=
  if em = [] then tr else if tr = [] then em else tr ++ ltOpen ++ em ++ ltClose

/-- C1 counterexample data: a header with the plain project id "X". -/
def hRound : HeaderData := { cleanHeader with Project := "X".toList }

/-- C1 witness data: a small header with every first-class field set. -/
def hW1 : HeaderData :=
  mkHeader "p".toList "cd".toList "rd".toList "t q".toList "e@x".toList
    "lt".toList "cs".toList "scc".toList "cz".toList "b".toList
    ["a".toList] ["x".toList] ["k".toList]

/- ===================== theorems ===================== -/


/-- C10: for every item and every index at or beyond the number of
translation slots, GetTranslation returns the empty string (and, being a
const accessor on a pure value, leaves the item unchanged). -/
theorem C10_out_of_range_translation (it : CatalogItem) (idx : Nat)
    (h : it.GetNumberOfTranslations ≤ idx) : it.GetTranslation idx = [] := by
  unfold CatalogItem.GetTranslation
  rw [if_pos h]

/-- Witness for C10 at a concrete item and index. -/
theorem C10_witness :
    baseItem.GetNumberOfTranslations ≤ 5 ∧ baseItem.GetTranslation 5 = [] :=
  ⟨by decide, C10_out_of_range_translation baseItem 5 (by decide)⟩

/-- C4 counterexample: SetTranslationFromSource on an item whose source
string is empty leaves IsTranslated() true although its only slot is empty,
so the claimed iff fails. -/
theorem C4_counterexample :
    (itEmptySource.SetTranslationFromSource).isTranslated = true ∧
    allSlotsFilled (itEmptySource.SetTranslationFromSource).translations = false := by
  decide

/-- C4 (amended): after SetTranslation, SetTranslations, or (on an item with
at least one slot) ClearTranslation, IsTranslated() is true iff every slot is
non-empty; SetTranslationFromSource instead sets IsTranslated() to true
unconditionally, and the iff holds after it provided the copied sources are
non-empty (source non-empty; plural source non-empty for plural items; a
single slot for non-plural items). -/
theorem C4_translated_invariant_amended :
    (∀ (it : CatalogItem) (t : Str) (idx : Nat),
      (it.SetTranslation t idx).isTranslated
        = allSlotsFilled (it.SetTranslation t idx).translations) ∧
    (∀ (it : CatalogItem) (ts : List Str),
      (it.SetTranslations ts).isTranslated
        = allSlotsFilled (it.SetTranslations ts).translations) ∧
    (∀ it : CatalogItem, it.translations ≠ [] →
      (it.ClearTranslation).isTranslated
        = allSlotsFilled (it.ClearTranslation).translations) ∧
    (∀ it : CatalogItem,
      (it.SetTranslationFromSource).isTranslated = true ∧
      (it.translations ≠ [] → it.string ≠ [] →
        (it.hasPlural = true → it.plural ≠ []) →
        (it.hasPlural = false → it.translations.length = 1) →
        allSlotsFilled (it.SetTranslationFromSource).translations = true)) := by
  refine ⟨fun it t idx => rfl, fun it ts => rfl, fun it h => ?_, fun it => ?_⟩
  · cases hts : it.translations with
    | nil => exact absurd hts h
    | cons a rest =>
      simp [CatalogItem.ClearTranslation, allSlotsFilled, hts]
  · cases hts : it.translations with
    | nil =>
      constructor
      · simp [CatalogItem.SetTranslationFromSource, hts]
      · intro hne
        exact absurd rfl hne
    | cons t0 rest =>
      constructor
      · simp [CatalogItem.SetTranslationFromSource, hts]
      · intro _ hsrc hplu hsing
        cases hp : it.hasPlural with
        | true =>
          have hplu2 := hplu hp
          simp only [CatalogItem.SetTranslationFromSource, hts, hp, if_true,
            allSlotsFilled, List.all_cons, List.all_map, Bool.and_eq_true,
            List.all_eq_true, Function.comp]
          constructor
          · simpa using hsrc
          · intro t _
            simpa using hplu2
        | false =>
          have hrest : rest = [] := by
            simpa using hsing hp
          simp only [CatalogItem.SetTranslationFromSource, hts, hp, hrest,
            Bool.false_eq_true, if_false, allSlotsFilled, List.all_cons,
            List.all_nil, Bool.and_true, List.all_eq_true]
          simpa using hsrc

/-- Witness for C4 at a concrete item: the iff after ClearTranslation and the
filled-slot conclusion after SetTranslationFromSource. -/
theorem C4_witness :
    (({ baseItem with string := ['a'], translations := [['b']] }
        : CatalogItem).ClearTranslation).isTranslated
      = allSlotsFilled (({ baseItem with string := ['a'], translations := [['b']] }
        : CatalogItem).ClearTranslation).translations ∧
    allSlotsFilled (({ baseItem with string := ['a'], translations := [['b']] }
        : CatalogItem).SetTranslationFromSource).translations = true :=
  ⟨C4_translated_invariant_amended.2.2.1 _ (by decide),
   (C4_translated_invariant_amended.2.2.2 _).2 (by decide) (by decide)
     (by decide) (by decide)⟩


theorem takeWhileLen_le {α : Type} (p : α → Bool) :
    ∀ l : List α, (l.takeWhile p).length ≤ l.length := by
  intro l
  induction l with
  | nil => simp
  | cons a rest ih =>
    rw [List.takeWhile_cons]
    by_cases h : p a = true
    · simp only [if_pos h, List.length_cons]
      omega
    · simp only [if_neg h, List.length_nil, List.length_cons]
      omega

theorem getD_takeWhile_true {α : Type} (p : α → Bool) (d : α) :
    ∀ (l : List α) (i : Nat), i < (l.takeWhile p).length → p (l.getD i d) = true := by
  intro l
  induction l with
  | nil => simp
  | cons a rest ih =>
    intro i hi
    rw [List.takeWhile_cons] at hi
    by_cases h : p a = true
    · rw [if_pos h] at hi
      cases i with
      | zero => simpa using h
      | succ j =>
        simp only [List.length_cons, Nat.succ_lt_succ_iff] at hi
        simpa using ih j hi
    · rw [if_neg h] at hi
      simp at hi

theorem getD_takeWhile_stop {α : Type} (p : α → Bool) (d : α) :
    ∀ l : List α, (l.takeWhile p).length < l.length →
      p (l.getD (l.takeWhile p).length d) = false := by
  intro l
  induction l with
  | nil => simp
  | cons a rest ih =>
    intro hlt
    rw [List.takeWhile_cons]
    by_cases h : p a = true
    · rw [List.takeWhile_cons, if_pos h] at hlt
      simp only [if_pos h, List.length_cons, List.getD_cons_succ]
      exact ih (by simpa using hlt)
    · simp only [if_neg h, List.length_nil, List.getD_cons_zero]
      simpa using h

theorem pairwise_getD {α : Type} {r : α → α → Prop} {l : List α} (d : α)
    (hp : l.Pairwise r) {i j : Nat} (hij : i < j) (hj : j < l.length) :
    r (l.getD i d) (l.getD j d) := by
  have hi : i < l.length := lt_trans hij hj
  rw [List.getD_eq_get l d hi, List.getD_eq_get l d hj]
  exact List.pairwise_iff_get.mp hp ⟨i, hi⟩ ⟨j, hj⟩ hij

theorem findAux_takeWhile (n : Int) :
    ∀ (l : List CatalogItem) (acc : Int),
      findItemIndexByLineAux n l acc = acc + ((l.takeWhile (lineLE n)).length : Int) := by
  intro l
  induction l with
  | nil => intro acc; simp [findItemIndexByLineAux]
  | cons it rest ih =>
    intro acc
    rw [findItemIndexByLineAux, List.takeWhile_cons]
    by_cases h : it.lineNumber > n
    · rw [if_pos h]
      have : lineLE n it = false := by simp [lineLE]; omega
      rw [if_neg (by simp [this])]
      simp
    · rw [if_neg h]
      have : lineLE n it = true := by simp [lineLE]; omega
      rw [if_pos this]
      rw [ih (acc + 1)]
      simp only [List.length_cons]
      push_cast
      ring

/-- C7: on a catalog whose items are sorted by ascending line number,
FindItemIndexByLine(n) is at least -1, below the item count, and is exactly
the last index whose item's line number is at most n (an index is at most the
result iff its line number is at most n); FindItemByLine(n) yields the null
item exactly when every item lies beyond line n. -/
theorem C7_find_item_by_line (cat : Catalog) (n : Int) (hs : sortedByLine cat.items) :
    -1 ≤ cat.FindItemIndexByLine n ∧
    cat.FindItemIndexByLine n < (cat.items.length : Int) ∧
    (∀ i : Nat, i < cat.items.length →
      (((cat.items.getD i baseItem).lineNumber ≤ n) ↔
        ((i : Int) ≤ cat.FindItemIndexByLine n))) ∧
    (cat.FindItemByLine n = none ↔ ∀ it ∈ cat.items, n < it.lineNumber) := by
  have hr : cat.FindItemIndexByLine n
      = -1 + ((cat.items.takeWhile (lineLE n)).length : Int) :=
    findAux_takeWhile n cat.items (-1)
  have htwle : (cat.items.takeWhile (lineLE n)).length ≤ cat.items.length :=
    takeWhileLen_le _ _
  have hiff : ∀ i : Nat, i < cat.items.length →
      (((cat.items.getD i baseItem).lineNumber ≤ n) ↔
        ((i : Int) ≤ cat.FindItemIndexByLine n)) := by
    intro i hi
    rw [hr]
    constructor
    · intro hle
      by_contra hgt
      push_neg at hgt
      have htwi : (cat.items.takeWhile (lineLE n)).length ≤ i := by omega
      have htwlt : (cat.items.takeWhile (lineLE n)).length < cat.items.length := by omega
      have hstop := getD_takeWhile_stop (lineLE n) baseItem cat.items htwlt
      simp only [lineLE, decide_eq_false_iff_not, not_le] at hstop
      rcases Nat.eq_or_lt_of_le htwi with heq | hlt
      · rw [heq] at hstop
        omega
      · have hrel := pairwise_getD baseItem hs hlt hi
        omega
    · intro hle
      have hilt : i < (cat.items.takeWhile (lineLE n)).length := by omega
      have := getD_takeWhile_true (lineLE n) baseItem cat.items i hilt
      simpa [lineLE] using this
  refine ⟨by omega, by omega, hiff, ?_⟩
  have hnone : cat.FindItemByLine n = none ↔ cat.FindItemIndexByLine n = -1 := by
    unfold Catalog.FindItemByLine
    by_cases hneg : cat.FindItemIndexByLine n = -1
    · simp [hneg]
    · simp only [if_neg hneg]
      have h0 : 0 ≤ cat.FindItemIndexByLine n := by omega
      have hlen : (cat.FindItemIndexByLine n).toNat < cat.items.length := by omega
      rw [List.get?_eq_get hlen]
      simp [hneg]
  rw [hnone, hr]
  constructor
  · intro h0 it hmem
    rcases List.mem_iff_get.mp hmem with ⟨⟨i, hi⟩, rfl⟩
    have := hiff i hi
    rw [hr] at this
    rw [List.getD_eq_get cat.items baseItem hi] at this
    by_contra hle
    push_neg at hle
    have := this.mp hle
    omega
  · intro hall
    by_contra htw
    have htwpos : 0 < (cat.items.takeWhile (lineLE n)).length := by omega
    have h0len : 0 < cat.items.length := by omega
    have := getD_takeWhile_true (lineLE n) baseItem cat.items 0 htwpos
    have hmem : cat.items.getD 0 baseItem ∈ cat.items := by
      rw [List.getD_eq_get cat.items baseItem h0len]
      exact List.get_mem _ 0 h0len
    have hgt := hall _ hmem
    simp only [lineLE, decide_eq_true_eq] at this
    omega


/-- Witness for C7 at a concrete sorted catalog and query line 6. -/
theorem C7_witness :
    sortedByLine catW7.items ∧
    (((catW7.items.getD 1 baseItem).lineNumber ≤ 6) ↔
      ((1 : Int) ≤ catW7.FindItemIndexByLine 6)) :=
  ⟨by unfold sortedByLine; decide,
   (C7_find_item_by_line catW7 6 (by unfold sortedByLine; decide)).2.2.1 1 (by decide)⟩


theorem set_get_self {α : Type} :
    ∀ (l : List α) (i : Nat) (a : α), l.get? i = some a → l.set i a = l := by
  intro l
  induction l with
  | nil => intro i a h; simp at h
  | cons x rest ih =>
    intro i a h
    cases i with
    | zero => simp at h; simp [h]
    | succ j =>
      simp only [List.get?_cons_succ] at h
      simp only [List.set_cons_succ, List.cons.injEq, true_and]
      exact ih j a h

theorem clearTranslation_pfc (it : CatalogItem) :
    (it.ClearTranslation).GetPluralFormsCount = it.GetPluralFormsCount := by
  simp [CatalogItem.ClearTranslation, CatalogItem.GetPluralFormsCount]

theorem pfc_set_clear (cat : Catalog) (i : Nat) (it : CatalogItem)
    (h : cat.items.get? i = some it) :
    (cat.setItemAt i it.ClearTranslation).GetPluralFormsCount
      = cat.GetPluralFormsCount := by
  unfold Catalog.GetPluralFormsCount Catalog.setItemAt
  simp only
  rw [← List.foldl_map CatalogItem.GetPluralFormsCount (fun a b => max a b),
    ← List.foldl_map CatalogItem.GetPluralFormsCount (fun a b => max a b)]
  congr 1
  rw [List.map_set, clearTranslation_pfc]
  apply set_get_self
  rw [List.get?_map, h]
  rfl

theorem rsastAux_spec :
    ∀ (fuel i : Nat) (cat : Catalog) (ch : Bool), cat.items.length ≤ i + fuel →
      (rsastAux fuel i cat ch).2.items
          = cat.items.take i
            ++ (cat.items.drop i).map (rsastStep cat.GetPluralFormsCount) ∧
      (rsastAux fuel i cat ch).1
          = (ch || (cat.items.drop i).any (clearEligible cat.GetPluralFormsCount)) := by
  intro fuel
  induction fuel with
  | zero =>
    intro i cat ch h
    simp only [Nat.add_zero] at h
    simp only [rsastAux]
    rw [List.drop_of_length_le h, List.take_of_length_le h]
    simp
  | succ fl ih =>
    intro i cat ch h
    cases hget : cat.items.get? i with
    | none =>
      have hle : cat.items.length ≤ i := List.get?_eq_none.mp hget
      simp only [rsastAux, hget]
      rw [List.drop_of_length_le hle, List.take_of_length_le hle]
      simp
    | some it =>
      have hlt : i < cat.items.length := by
        by_contra hcon
        push_neg at hcon
        rw [List.get?_eq_none.mpr hcon] at hget
        exact Option.noConfusion hget
      have hdrop : cat.items.drop i = it :: cat.items.drop (i + 1) := by
        rw [List.drop_eq_get_cons hlt]
        congr 1
        have h2 := List.get?_eq_get hlt
        rw [hget] at h2
        exact (Option.some.injEq _ _).mp h2.symm
      have htake : cat.items.take (i + 1) = cat.items.take i ++ [it] := by
        rw [List.take_succ, ← List.get?_eq_getElem?, hget]
        rfl
      have htklen : (cat.items.take i).length = i := by
        rw [List.length_take]
        omega
      simp only [rsastAux, hget]
      by_cases hc : clearEligible cat.GetPluralFormsCount it = true
      · rw [if_pos hc]
        have hitems2 : (cat.setItemAt i it.ClearTranslation).items
            = cat.items.take i ++ it.ClearTranslation :: cat.items.drop (i + 1) := by
          unfold Catalog.setItemAt
          simp only
          rw [List.set_eq_take_append_cons_drop, if_pos hlt]
        have hpfc2 : (cat.setItemAt i it.ClearTranslation).GetPluralFormsCount
            = cat.GetPluralFormsCount :=
          pfc_set_clear cat i it hget
        have hlen2 : (cat.setItemAt i it.ClearTranslation).items.length
            = cat.items.length := by
          unfold Catalog.setItemAt
          simp
        have hih := ih (i + 1) (cat.setItemAt i it.ClearTranslation) true (by omega)
        have hsplit : (cat.setItemAt i it.ClearTranslation).items
            = (cat.items.take i ++ [it.ClearTranslation]) ++ cat.items.drop (i + 1) := by
          rw [hitems2, List.append_assoc]
          rfl
        have htk2 : (cat.setItemAt i it.ClearTranslation).items.take (i + 1)
            = cat.items.take i ++ [it.ClearTranslation] := by
          rw [hsplit]
          exact List.take_left' (by simp [htklen])
        have hdp2 : (cat.setItemAt i it.ClearTranslation).items.drop (i + 1)
            = cat.items.drop (i + 1) := by
          rw [hsplit]
          exact List.drop_left' (by simp [htklen])
        refine ⟨?_, ?_⟩
        · rw [hih.1, htk2, hdp2, hpfc2, hdrop]
          simp only [List.map_cons, List.append_assoc, List.cons_append,
            List.nil_append, List.singleton_append]
          congr 2
          rw [rsastStep, if_pos hc]
        · rw [hih.2, hdrop]
          simp [hc]
      · rw [if_neg hc]
        have hih := ih (i + 1) cat ch (by omega)
        rw [Bool.not_eq_true] at hc
        refine ⟨?_, ?_⟩
        · rw [hih.1, htake, hdrop]
          simp only [List.map_cons, List.append_assoc, List.cons_append,
            List.nil_append, List.singleton_append]
          congr 2
          rw [rsastStep, hc]
          simp
        · rw [hih.2, hdrop]
          simp [hc]

/-- C5: RemoveSameAsSourceTranslations clears exactly the items whose primary
translation equals the source (with plural items eligible only when the
catalog's plural-forms count is 2 and the second slot equals the plural
source), leaves every other item unchanged, and returns true iff at least one
item had its translation cleared. -/
theorem C5_remove_same_as_source (cat : Catalog) :
    (cat.RemoveSameAsSourceTranslations).2.items
      = cat.items.map (rsastStep cat.GetPluralFormsCount) ∧
    (cat.RemoveSameAsSourceTranslations).1
      = cat.items.any (clearEligible cat.GetPluralFormsCount) := by
  have h := rsastAux_spec cat.items.length 0 cat false (by omega)
  unfold Catalog.RemoveSameAsSourceTranslations
  rcases h with ⟨h1, h2⟩
  constructor
  · rw [h1]
    simp
  · rw [h2]
    simp


theorem lookupAssoc_insert (k : Str) (v : CatalogItem) :
    ∀ (m : List (Str × CatalogItem)) (s : Str),
      lookupAssoc (insertAssoc m k v) s
        = if k = s then some v else lookupAssoc m s := by
  intro m
  induction m with
  | nil =>
    intro s
    by_cases h : k = s <;> simp [insertAssoc, lookupAssoc, h]
  | cons p rest ih =>
    intro s
    rw [insertAssoc]
    by_cases hpk : p.1 = k
    · rw [if_pos hpk]
      by_cases hks : k = s
      · simp [lookupAssoc, hks]
      · simp only [lookupAssoc, List.find?_cons]
        have h1 : (k == s) = false := by simp [hks]
        have h2 : (p.1 == s) = false := by simp [hpk ▸ hks]
        simp [h1, h2, hks]
    · rw [if_neg hpk]
      by_cases hps : p.1 = s
      · have hks : ¬ k = s := fun hc => hpk (hps.trans hc.symm)
        simp only [lookupAssoc, List.find?_cons]
        simp [hps, hks]
      · simp only [lookupAssoc, List.find?_cons] at ih ⊢
        have h2 : (p.1 == s) = false := by simp [hps]
        simp only [h2, cond_false]
        exact ih s

theorem lookupAssoc_foldl :
    ∀ (refs : List CatalogItem) (m : List (Str × CatalogItem)) (s : Str),
      lookupAssoc (refs.foldl (fun acc r => insertAssoc acc r.string r) m) s
        = match lastMatchRef refs s with
          | some r => some r
          | none => lookupAssoc m s := by
  intro refs
  induction refs with
  | nil => intro m s; simp [lastMatchRef]
  | cons r rest ih =>
    intro m s
    rw [List.foldl_cons, ih]
    unfold lastMatchRef
    rw [List.filter_cons]
    by_cases hrs : r.string = s
    · have hb : (r.string == s) = true := by simp [hrs]
      rw [hb]
      simp only [if_true]
      cases hrest : rest.filter (fun x => x.string == s) with
      | nil =>
        simp only [List.getLast?_nil, List.getLast?_singleton]
        rw [lookupAssoc_insert, if_pos hrs]
      | cons y ys =>
        rw [List.getLast?_cons_cons]
        cases hy : (y :: ys).getLast? with
        | none =>
          have : (y :: ys).getLast?.isSome = true := by
            rw [List.getLast?_isSome]
            exact List.cons_ne_nil y ys
          rw [hy] at this
          simp at this
        | some z => rfl
    · have hb : (r.string == s) = false := by simp [hrs]
      rw [hb]
      simp only [Bool.false_eq_true, if_false]
      cases hrest : rest.filter (fun x => x.string == s) with
      | nil =>
        simp only [List.getLast?_nil]
        rw [lookupAssoc_insert, if_neg hrs]
      | cons y ys => rfl

theorem lookupAssoc_buildRefMap (refs : List CatalogItem) (s : Str) :
    lookupAssoc (buildRefMap refs) s = lastMatchRef refs s := by
  unfold buildRefMap
  rw [lookupAssoc_foldl]
  cases h : lastMatchRef refs s with
  | none => simp [lookupAssoc]
  | some r => rfl

/-- C8 counterexample: the reference catalog holds two items with raw source
"Hello", the later one untranslated; the target item with source "Hello"
matches a reference item with a non-empty primary translation, yet gains no
overlay, because the raw-source map keeps only the last reference item. -/
theorem C8_counterexample :
    refItemA ∈ refCat8.items ∧ refItemA.string = tgtItem8.string ∧
    refItemA.GetTranslation 0 ≠ [] ∧
    ((tgtCat8.SideloadSourceDataFromReferenceFile refCat8).items.getD 0
        baseItem).sideloaded = none := by
  decide

/-- C8 (amended): after sideloading, a target item whose raw source matches
the LAST reference item with that raw source gains the overlay built from
that item when its primary translation is non-empty (translation, plural
translation when the reference item is plural, extracted comments when
present), with no other field modified; a target item with no match, or
whose last match has an empty primary translation, is returned unchanged
(keeping whatever overlay state it already had). -/
theorem C8_sideload_amended (cat ref : Catalog) (i : Nat) (it : CatalogItem)
    (h : cat.items.get? i = some it) :
    (∀ r : CatalogItem, lastMatchRef ref.items it.string = some r →
      r.GetTranslation 0 ≠ [] →
      (cat.SideloadSourceDataFromReferenceFile ref).items.get? i
        = some { it with sideloaded := some (mkOverlay r) }) ∧
    (lastMatchRef ref.items it.string = none →
      (cat.SideloadSourceDataFromReferenceFile ref).items.get? i = some it) ∧
    (∀ r : CatalogItem, lastMatchRef ref.items it.string = some r →
      r.GetTranslation 0 = [] →
      (cat.SideloadSourceDataFromReferenceFile ref).items.get? i = some it) := by
  have hbase : (cat.SideloadSourceDataFromReferenceFile ref).items.get? i
      = some (sideloadItem (buildRefMap ref.items) it) := by
    unfold Catalog.SideloadSourceDataFromReferenceFile
    simp only
    rw [List.get?_map, h]
    rfl
  refine ⟨?_, ?_, ?_⟩
  · intro r hlast htr
    rw [hbase]
    unfold sideloadItem
    rw [lookupAssoc_buildRefMap, hlast]
    simp only [if_neg htr]
  · intro hlast
    rw [hbase]
    unfold sideloadItem
    rw [lookupAssoc_buildRefMap, hlast]
  · intro r hlast htr
    rw [hbase]
    unfold sideloadItem
    rw [lookupAssoc_buildRefMap, hlast]
    simp only [if_pos htr]

/-- Witness for C8: a single reference item translating "Hello" attaches its
overlay to the matching target item. -/
theorem C8_witness :
    tgtCat8.items.get? 0 = some tgtItem8 ∧
    lastMatchRef refCat8W.items tgtItem8.string = some refItemA ∧
    refItemA.GetTranslation 0 ≠ [] ∧
    (tgtCat8.SideloadSourceDataFromReferenceFile refCat8W).items.get? 0
      = some { tgtItem8 with sideloaded := some (mkOverlay refItemA) } :=
  ⟨by decide, by decide, by decide,
   (C8_sideload_amended tgtCat8 refCat8W 0 tgtItem8 (by decide)).1 refItemA
     (by decide) (by decide)⟩


theorem pushParsed_none (acc : List Entry) (ln : Str)
    (h : parseHeaderLine ln = none) : pushParsed acc ln = acc := by
  unfold pushParsed
  rw [h]

theorem pushParsed_some (acc : List Entry) (ln : Str) (e : Entry)
    (h : parseHeaderLine ln = some e) : pushParsed acc ln = acc ++ [e] := by
  unfold pushParsed
  rw [h]

theorem foldl_pushParsed :
    ∀ (l : List Str) (acc : List Entry),
      l.foldl pushParsed acc = acc ++ l.filterMap parseHeaderLine := by
  intro l
  induction l with
  | nil => intro acc; simp
  | cons a rest ih =>
    intro acc
    cases hf : parseHeaderLine a with
    | none =>
      rw [List.foldl_cons, pushParsed_none acc a hf, ih, List.filterMap_cons, hf]
    | some e =>
      rw [List.foldl_cons, pushParsed_some acc a e hf, ih, List.filterMap_cons, hf,
        List.append_assoc, List.singleton_append]

theorem takeWhile_all {α : Type} (p : α → Bool) :
    ∀ l : List α, (∀ x ∈ l, p x = true) → l.takeWhile p = l := by
  intro l
  induction l with
  | nil => intro _; rfl
  | cons a rest ih =>
    intro h
    rw [List.takeWhile_cons, if_pos (h a (List.mem_cons_self a rest))]
    rw [ih (fun x hx => h x (List.mem_cons_of_mem a hx))]

theorem takeWhile_append_stop {α : Type} (p : α → Bool) (c : α) (v : List α)
    (hc : p c = false) :
    ∀ k : List α, (∀ x ∈ k, p x = true) →
      (k ++ c :: v).takeWhile p = k := by
  intro k
  induction k with
  | nil => intro _; simp [List.takeWhile_cons, hc]
  | cons a rest ih =>
    intro h
    rw [List.cons_append, List.takeWhile_cons,
      if_pos (h a (List.mem_cons_self a rest))]
    rw [ih (fun x hx => h x (List.mem_cons_of_mem a hx))]

/-- C9 counterexample: the single line "X-Poedit-Language: Czech" contains a
colon, yet after FromString the entry store is empty — ParseDict removes the
legacy language entry — so the line did not yield an entry in the final
store. -/
theorem C9_counterexample :
    ':' ∈ str9 ∧ (cleanHeader.FromString str9).entries = [] := by
  constructor
  · decide
  · decide

/-- C9 (amended): FromString is total; each parsed line that contains no
colon yields no entry, and each line of the form k ++ ":" ++ v with k
colon-free yields exactly the entry (strip k, strip v) in the raw parsed
store — the store FromString builds before ParseDict runs, which may then
remove legacy X-Poedit-Language / X-Poedit-Country / X-Poedit-Keywords
entries. -/
theorem C9_malformed_header_amended (str : Str) :
    (fromStringRaw str = (tokenizeNL str).filterMap parseHeaderLine) ∧
    (∀ ln : Str, ':' ∉ ln → parseHeaderLine ln = none) ∧
    (∀ (ln k v : Str), ln = k ++ ':' :: v → ':' ∉ k →
      parseHeaderLine ln = some ⟨stripBoth k, stripBoth v⟩) := by
  refine ⟨?_, ?_, ?_⟩
  · unfold fromStringRaw
    have h := foldl_pushParsed (tokenizeNL str) []
    rw [List.nil_append] at h
    exact h
  · intro ln hln
    unfold parseHeaderLine
    have hall : ∀ x ∈ ln, (!(x == ':')) = true := by
      intro x hx
      simp only [Bool.not_eq_eq_eq_not, Bool.not_true, beq_eq_false_iff_ne]
      exact fun hc => hln (hc ▸ hx)
    rw [takeWhile_all _ ln hall]
    simp
  · intro ln k v hdec hk
    subst hdec
    unfold parseHeaderLine
    have hall : ∀ x ∈ k, (!(x == ':')) = true := by
      intro x hx
      simp only [Bool.not_eq_eq_eq_not, Bool.not_true, beq_eq_false_iff_ne]
      exact fun hc => hk (hc ▸ hx)
    rw [takeWhile_append_stop _ ':' v (by simp) k hall]
    have hlen : k.length ≠ (k ++ ':' :: v).length := by
      simp only [List.length_append, List.length_cons]
      omega
    rw [if_neg hlen]
    have hdrop : (k ++ ':' :: v).drop (k.length + 1) = v := by
      have : k ++ ':' :: v = (k ++ [':']) ++ v := by simp
      rw [this]
      exact List.drop_left' (by simp)
    rw [hdrop]

/-- Witness for C9 on concrete wire text: the raw store, a skipped colon-free
line, and a parsed line. -/
theorem C9_witness :
    (fromStringRaw str9W = (tokenizeNL str9W).filterMap parseHeaderLine) ∧
    parseHeaderLine ("nocolon".toList) = none ∧
    parseHeaderLine ("A: b".toList)
      = some ⟨stripBoth ("A".toList), stripBoth (" b".toList)⟩ :=
  ⟨(C9_malformed_header_amended str9W).1,
   (C9_malformed_header_amended str9W).2.1 ("nocolon".toList) (by decide),
   (C9_malformed_header_amended str9W).2.2 ("A: b".toList) ("A".toList) (" b".toList)
     (by decide) (by decide)⟩


theorem getD_take_succ {α : Type} (l : List α) (d : α) (m : Nat) (hm : m < l.length) :
    l.take (m + 1) = l.take m ++ [l.getD m d] := by
  rw [List.take_succ, List.getElem?_eq_getElem hm]
  rw [List.getD_eq_getElem l d hm]
  rfl

theorem getD_drop_add {α : Type} (l : List α) (d : α) (n m : Nat) :
    (l.drop n).getD m d = l.getD (n + m) d := by
  rw [List.getD_eq_getElem?_getD, List.getD_eq_getElem?_getD, List.getElem?_drop]

theorem findLastBelow_lt (p : Char → Bool) (s : Str) :
    ∀ (pos sp : Nat), findLastBelow p s pos = some sp → sp < pos := by
  intro pos
  induction pos with
  | zero => intro sp h; simp [findLastBelow] at h
  | succ q ih =>
    intro sp h
    rw [findLastBelow] at h
    by_cases hc : q < s.length ∧ p (s.getD q ' ') = true
    · rw [if_pos hc] at h
      have : sp = q := by
        have := (Option.some.injEq _ _).mp h
        omega
      omega
    · rw [if_neg hc] at h
      have := ih sp h
      omega

theorem findLastOf_eq_below (p : Char → Bool) (s : Str) :
    ∀ pos : Nat, pos < s.length → p (s.getD pos ' ') = false →
      findLastOf p s pos = findLastBelow p s pos := by
  intro pos
  induction pos with
  | zero =>
    intro hlt hp
    rw [findLastOf, findLastBelow, if_neg]
    intro hc
    rw [hp] at hc
    exact Bool.noConfusion hc.2
  | succ q ih =>
    intro hlt hp
    rw [findLastOf, findLastBelow, if_neg (by
      intro hc
      rw [hp] at hc
      exact Bool.noConfusion hc.2)]
    by_cases hc : q < s.length ∧ p (s.getD q ' ') = true
    · rw [if_pos hc]
      cases q with
      | zero => rw [findLastOf, if_pos hc]
      | succ r => rw [findLastOf, if_pos hc]
    · rw [if_neg hc]
      have hqlen : q < s.length := by omega
      have hq : p (s.getD q ' ') = false := by
        by_cases h2 : p (s.getD q ' ') = true
        · exact absurd ⟨hqlen, h2⟩ hc
        · exact Bool.not_eq_true _ ▸ (Bool.eq_false_iff.mpr h2)
      exact ih hqlen hq

theorem below_extract_eq_token (p : Char → Bool) (s : Str) :
    ∀ pos : Nat, pos ≤ s.length →
      (match findLastBelow p s pos with
        | none => s.take pos
        | some sp => (s.drop (sp + 1)).take (pos - sp - 1))
      = ((s.take pos).reverse.takeWhile (fun c => !p c)).reverse := by
  intro pos
  induction pos with
  | zero => simp [findLastBelow]
  | succ q ih =>
    intro hle
    have hq : q < s.length := by omega
    rw [findLastBelow, getD_take_succ s ' ' q hq, List.reverse_append]
    simp only [List.reverse_cons, List.reverse_nil, List.nil_append,
      List.singleton_append, List.takeWhile_cons]
    by_cases hp : p (s.getD q ' ') = true
    · rw [if_pos ⟨hq, hp⟩, hp]
      simp
    · have hp2 : (!p (s.getD q ' ')) = true := by
        rw [Bool.not_eq_true] at hp
        rw [hp]
        rfl
      rw [if_neg (by intro hc; exact hp hc.2), hp2]
      simp only [if_true, List.reverse_cons]
      cases hfb : findLastBelow p s q with
      | none =>
        have hih := ih (by omega)
        rw [hfb] at hih
        have hih2 : s.take q
            = ((s.take q).reverse.takeWhile (fun c => !p c)).reverse := hih
        show s.take q ++ [s.getD q ' ']
            = ((s.take q).reverse.takeWhile (fun c => !p c)).reverse ++ [s.getD q ' ']
        rw [← hih2]
      | some sp =>
        have hsp : sp < q := findLastBelow_lt p s q sp hfb
        have hih := ih (by omega)
        rw [hfb] at hih
        have hih2 : (s.drop (sp + 1)).take (q - sp - 1)
            = ((s.take q).reverse.takeWhile (fun c => !p c)).reverse := hih
        show (s.drop (sp + 1)).take (q + 1 - sp - 1)
            = ((s.take q).reverse.takeWhile (fun c => !p c)).reverse ++ [s.getD q ' ']
        have harith : q + 1 - sp - 1 = (q - sp - 1) + 1 := by omega
        rw [harith, getD_take_succ (s.drop (sp + 1)) ' ' (q - sp - 1)
          (by rw [List.length_drop]; omega)]
        rw [getD_drop_add, ← hih2]
        have hidx : sp + 1 + (q - sp - 1) = q := by omega
        rw [hidx]

theorem hasPre_head (a : Char) (pr : Str) :
    ∀ t : Str, hasPre (a :: pr) t = true → ∃ rest, t = a :: rest := by
  intro t h
  cases t with
  | nil => exact Bool.noConfusion h
  | cons b bs =>
    rw [hasPre, Bool.and_eq_true, beq_iff_eq] at h
    exact ⟨bs, by rw [h.1]⟩

theorem findSubIdx_hasPre (pat : Str) :
    ∀ (s : Str) (pos : Nat), findSubIdx pat s = some pos →
      hasPre pat (s.drop pos) = true := by
  intro s
  induction s with
  | nil =>
    intro pos h
    rw [findSubIdx] at h
    by_cases hp : pat.isEmpty = true
    · rw [if_pos hp] at h
      have : pos = 0 := by
        have := (Option.some.injEq _ _).mp h
        omega
      subst this
      cases pat with
      | nil => rfl
      | cons a as => simp at hp
    · rw [if_neg hp] at h
      exact Option.noConfusion h
  | cons c cs ih =>
    intro pos h
    rw [findSubIdx] at h
    by_cases hp : hasPre pat (c :: cs) = true
    · rw [if_pos hp] at h
      have : pos = 0 := by
        have := (Option.some.injEq _ _).mp h
        omega
      subst this
      exact hp
    · rw [if_neg hp] at h
      cases hfs : findSubIdx pat cs with
      | none => rw [hfs] at h; exact Option.noConfusion h
      | some q =>
        rw [hfs, Option.map_some'] at h
        have hq : q + 1 = pos := (Option.some.injEq _ _).mp h
        have hpos : pos = q + 1 := hq.symm
        subst hpos
        rw [List.drop_succ_cons]
        exact ih q hfs

theorem drop_cons_facts {α : Type} (d : α) :
    ∀ (s : List α) (pos : Nat) (x : α) (rest : List α),
      s.drop pos = x :: rest → pos < s.length ∧ s.getD pos d = x := by
  intro s
  induction s with
  | nil =>
    intro pos x rest h
    rw [List.drop_nil] at h
    exact List.noConfusion h
  | cons a s2 ih =>
    intro pos x rest h
    cases pos with
    | zero =>
      rw [List.drop_zero] at h
      obtain ⟨h1, _⟩ := List.cons.inj h
      exact ⟨by simp, by rw [h1]; rfl⟩
    | succ q =>
      rw [List.drop_succ_cons] at h
      obtain ⟨h1, h2⟩ := ih q x rest h
      exact ⟨by simp; omega, by rw [List.getD_cons_succ]; exact h2⟩

/-- C2 counterexample: for the flags string " c-format qt-format",
GetFormatFlag extracts "c" (first occurrence of "-format"), while the claimed
last-occurrence reading extracts "qt". -/
theorem C2_counterexample :
    itFlags2.GetFormatFlag = "c".toList ∧
    getFormatFlagLastSpec flags2 = "qt".toList := by
  constructor
  · decide
  · decide

/-- C2 (amended): GetFormatFlag locates the FIRST occurrence of the substring
"-format", takes as flag name the token immediately preceding it (the longest
non-whitespace run before that position), and returns the empty result when
that token starts with "no-" or when no "-format" occurs. -/
theorem C2_format_flag_amended (it : CatalogItem) :
    it.GetFormatFlag = getFormatFlagFirstSpec it.moreFlags := by
  unfold CatalogItem.GetFormatFlag getFormatFlagFirstSpec
  by_cases hmt : it.moreFlags = []
  · rw [if_pos hmt, hmt]
    rfl
  · rw [if_neg hmt]
    cases hfs : findSubIdx dashFormatStr it.moreFlags with
    | none => rfl
    | some pos =>
      have hpre := findSubIdx_hasPre dashFormatStr it.moreFlags pos hfs
      obtain ⟨rest, hdrop⟩ := hasPre_head '-' ("format".toList) (it.moreFlags.drop pos)
        (by exact hpre)
      obtain ⟨hlt, hget⟩ := drop_cons_facts ' ' it.moreFlags pos '-' rest hdrop
      have hdash : isSpaceTab (it.moreFlags.getD pos ' ') = false := by
        rw [hget]
        rfl
      have hbelow := findLastOf_eq_below isSpaceTab it.moreFlags pos hlt hdash
      have hext := below_extract_eq_token isSpaceTab it.moreFlags pos (le_of_lt hlt)
      have hformat : (match findLastOf isSpaceTab it.moreFlags pos with
            | none => it.moreFlags.take pos
            | some sp => (it.moreFlags.drop (sp + 1)).take (pos - sp - 1))
          = lastTokenEnd it.moreFlags pos := by
        rw [hbelow]
        exact hext
      show (if hasPre noDashStr (match findLastOf isSpaceTab it.moreFlags pos with
              | none => it.moreFlags.take pos
              | some sp => (it.moreFlags.drop (sp + 1)).take (pos - sp - 1)) = true
            then []
            else (match findLastOf isSpaceTab it.moreFlags pos with
              | none => it.moreFlags.take pos
              | some sp => (it.moreFlags.drop (sp + 1)).take (pos - sp - 1)))
          = if hasPre noDashStr (lastTokenEnd it.moreFlags pos) = true then []
            else lastTokenEnd it.moreFlags pos
      rw [hformat]

/-- Witness for C2 at a concrete item. -/
theorem C2_witness :
    itFlags2.GetFormatFlag = getFormatFlagFirstSpec itFlags2.moreFlags :=
  C2_format_flag_amended itFlags2


theorem prioAux_le (k : Str) :
    ∀ (ks : List Str) (i : Nat), i + ks.length ≤ 12 → prioAux k ks i ≤ 12 := by
  intro ks
  induction ks with
  | nil => intro i _; rfl
  | cons c cs ih =>
    intro i h
    rw [prioAux]
    by_cases hc : c = k
    · rw [if_pos hc]
      simp only [List.length_cons] at h
      omega
    · rw [if_neg hc]
      apply ih
      simp only [List.length_cons] at h
      omega

theorem prio_le12 (k : Str) : prio k ≤ 12 :=
  prioAux_le k canonicalKeys 0 (by rw [canonicalKeys]; decide)

theorem prioAux_lt_iff_mem (k : Str) :
    ∀ (ks : List Str) (i : Nat), i + ks.length ≤ 12 →
      (prioAux k ks i < 12 ↔ k ∈ ks) := by
  intro ks
  induction ks with
  | nil =>
    intro i _
    rw [prioAux]
    simp
  | cons c cs ih =>
    intro i h
    simp only [List.length_cons] at h
    rw [prioAux]
    by_cases hc : c = k
    · rw [if_pos hc, hc]
      simp only [List.mem_cons, true_or, iff_true]
      omega
    · rw [if_neg hc]
      rw [ih (i + 1) (by omega)]
      simp only [List.mem_cons]
      constructor
      · exact fun hm => Or.inr hm
      · intro hm
        rcases hm with hm | hm
        · exact absurd hm.symm hc
        · exact hm

theorem isKnown_iff_prio (k : Str) : isKnown k = true ↔ prio k < 12 := by
  rw [isKnown, prio, prioAux_lt_iff_mem k canonicalKeys 0 (by rw [canonicalKeys]; decide)]
  rw [List.contains]
  exact List.elem_iff

theorem prioAux_eq12_of_notmem (k : Str) :
    ∀ (ks : List Str) (i : Nat), (∀ c ∈ ks, c ≠ k) → prioAux k ks i = 12 := by
  intro ks
  induction ks with
  | nil => intro i _; rfl
  | cons c cs ih =>
    intro i h
    rw [prioAux, if_neg (h c (List.mem_cons_self c cs))]
    exact ih (i + 1) (fun x hx => h x (List.mem_cons_of_mem c hx))

theorem prio_not_canon (k : Str) (h : ∀ c ∈ canonicalKeys, c ≠ k) : prio k = 12 :=
  prioAux_eq12_of_notmem k canonicalKeys 0 h

theorem ne_spRoot_append (k t : Str) (h : k.head? ≠ some 'X') : k ≠ spRoot ++ t := by
  intro hc
  apply h
  rw [hc]
  rfl

theorem prio_spRoot (t : Str) : prio (spRoot ++ t) = 12 := by
  apply prio_not_canon
  intro c hc
  simp only [canonicalKeys, List.mem_cons, List.not_mem_nil, or_false] at hc
  rcases hc with rfl | rfl | rfl | rfl | rfl | rfl | rfl | rfl | rfl | rfl | rfl
  all_goals exact ne_spRoot_append _ t (by decide)

theorem joinClasses_nil : ∀ (n p : Nat), joinClasses [] p n = [] := by
  intro n
  induction n with
  | zero => intro p; rfl
  | succ m ih =>
    intro p
    rw [joinClasses, List.filter_nil, List.nil_append]
    exact ih (p + 1)

theorem mem_joinClasses_ge :
    ∀ (n p : Nat) (l : List Entry) (e : Entry), e ∈ joinClasses l p n → p ≤ prio e.key := by
  intro n
  induction n with
  | zero =>
    intro p l e h
    rw [joinClasses] at h
    exact absurd h (List.not_mem_nil e)
  | succ m ih =>
    intro p l e h
    rw [joinClasses] at h
    rcases List.mem_append.mp h with h1 | h2
    · have := (List.mem_filter.mp h1).2
      rw [beq_iff_eq] at this
      omega
    · have := ih (p + 1) l e h2
      omega

theorem joinClasses_append_hi :
    ∀ (n p : Nat) (l : List Entry) (x : Entry), prio x.key < p →
      joinClasses (l ++ [x]) p n = joinClasses l p n := by
  intro n
  induction n with
  | zero => intro p l x _; rfl
  | succ m ih =>
    intro p l x hx
    rw [joinClasses, joinClasses, List.filter_append]
    have hb : (prio x.key == p) = false := by
      simp only [beq_eq_false_iff_ne]
      omega
    have hfx : [x].filter (fun e => prio e.key == p) = [] := by
      rw [List.filter_singleton, hb]
      rfl
    rw [hfx, List.append_nil, ih (p + 1) l x (by omega)]

theorem insert_skip :
    ∀ (A B : List Entry) (x : Entry), (∀ y ∈ A, prio y.key ≤ prio x.key) →
      insertByPrio x (A ++ B) = A ++ insertByPrio x B := by
  intro A
  induction A with
  | nil => intro B x _; rfl
  | cons a A2 ih =>
    intro B x h
    rw [List.cons_append, insertByPrio,
      if_pos (h a (List.mem_cons_self a A2)), ih B x
        (fun y hy => h y (List.mem_cons_of_mem a hy))]
    rfl

theorem insert_front :
    ∀ (B : List Entry) (x : Entry), (∀ y ∈ B, prio x.key < prio y.key) →
      insertByPrio x B = x :: B := by
  intro B x h
  cases B with
  | nil => rfl
  | cons b B2 =>
    rw [insertByPrio, if_neg]
    have := h b (List.mem_cons_self b B2)
    omega

theorem insert_joinClasses :
    ∀ (n p : Nat) (l : List Entry) (x : Entry), p ≤ prio x.key → prio x.key < p + n →
      insertByPrio x (joinClasses l p n) = joinClasses (l ++ [x]) p n := by
  intro n
  induction n with
  | zero => intro p l x h1 h2; omega
  | succ m ih =>
    intro p l x h1 h2
    rw [joinClasses, joinClasses]
    rw [insert_skip _ _ x (fun y hy => by
      have := (List.mem_filter.mp hy).2
      rw [beq_iff_eq] at this
      omega)]
    rw [List.filter_append]
    by_cases hpx : prio x.key = p
    · have hb : (prio x.key == p) = true := by
        simp only [beq_iff_eq]
        omega
      have hfx : [x].filter (fun e => prio e.key == p) = [x] := by
        rw [List.filter_singleton, hb]
        rfl
      rw [hfx]
      rw [insert_front _ x (fun y hy => by
        have := mem_joinClasses_ge m (p + 1) l y hy
        omega)]
      rw [joinClasses_append_hi m (p + 1) l x (by omega)]
      rw [List.append_assoc, List.singleton_append]
    · have hb : (prio x.key == p) = false := by
        simp only [beq_eq_false_iff_ne]
        omega
      have hfx : [x].filter (fun e => prio e.key == p) = [] := by
        rw [List.filter_singleton, hb]
        rfl
      rw [hfx, List.append_nil]
      rw [ih (p + 1) l x (by omega) (by omega)]

theorem sort_eq_classes (l : List Entry) : normalizeHeaderOrder l = classJoin l := by
  induction l using List.reverseRecOn with
  | nil =>
    rw [classJoin, joinClasses_nil]
    rfl
  | append_singleton l x ih =>
    have hfold : normalizeHeaderOrder (l ++ [x])
        = insertByPrio x (normalizeHeaderOrder l) := by
      rw [normalizeHeaderOrder, normalizeHeaderOrder, List.foldl_append,
        List.foldl_cons, List.foldl_nil]
    rw [hfold, ih, classJoin, classJoin]
    exact insert_joinClasses 13 0 l x (by omega) (by have := prio_le12 x.key; omega)


theorem joinClasses_split :
    ∀ (n m p : Nat) (l : List Entry),
      joinClasses l p (n + m) = joinClasses l p n ++ joinClasses l (p + n) m := by
  intro n
  induction n with
  | zero =>
    intro m p l
    rw [joinClasses, List.nil_append, Nat.zero_add, Nat.add_zero]
  | succ q ih =>
    intro m p l
    have hnm : q + 1 + m = (q + m) + 1 := by omega
    rw [hnm, joinClasses, joinClasses, ih m (p + 1) l, List.append_assoc]
    have : p + 1 + q = p + (q + 1) := by omega
    rw [this]

theorem mem_joinClasses_lt :
    ∀ (n p : Nat) (l : List Entry) (e : Entry),
      e ∈ joinClasses l p n → prio e.key < p + n := by
  intro n
  induction n with
  | zero =>
    intro p l e h
    rw [joinClasses] at h
    exact absurd h (List.not_mem_nil e)
  | succ m ih =>
    intro p l e h
    rw [joinClasses] at h
    rcases List.mem_append.mp h with h1 | h2
    · have := (List.mem_filter.mp h1).2
      rw [beq_iff_eq] at this
      omega
    · have := ih (p + 1) l e h2
      omega

theorem classJoin_known_part (l : List Entry) :
    (classJoin l).filter (fun e => isKnown e.key) = joinClasses l 0 12 := by
  rw [classJoin, show (13 : Nat) = 12 + 1 from rfl, joinClasses_split 12 1 0 l,
    List.filter_append]
  have h1 : (joinClasses l 0 12).filter (fun e => isKnown e.key)
      = joinClasses l 0 12 := by
    rw [List.filter_eq_self]
    intro e he
    rw [isKnown_iff_prio]
    have := mem_joinClasses_lt 12 0 l e he
    omega
  have h2 : (joinClasses l (0 + 12) 1).filter (fun e => isKnown e.key) = [] := by
    rw [List.filter_eq_nil]
    intro e he
    rw [isKnown_iff_prio]
    have := mem_joinClasses_ge 1 (0 + 12) l e he
    omega
  rw [h1, h2, List.append_nil]

theorem classJoin_unknown_part (l : List Entry) :
    (classJoin l).filter (fun e => !isKnown e.key) = joinClasses l 12 1 := by
  rw [classJoin, show (13 : Nat) = 12 + 1 from rfl, joinClasses_split 12 1 0 l,
    List.filter_append]
  have h1 : (joinClasses l 0 12).filter (fun e => !isKnown e.key) = [] := by
    rw [List.filter_eq_nil]
    intro e he
    simp only [Bool.not_eq_true', Bool.not_eq_false]
    rw [isKnown_iff_prio]
    have := mem_joinClasses_lt 12 0 l e he
    omega
  have h2 : (joinClasses l (0 + 12) 1).filter (fun e => !isKnown e.key)
      = joinClasses l (0 + 12) 1 := by
    rw [List.filter_eq_self]
    intro e he
    simp only [Bool.not_eq_true']
    have hge := mem_joinClasses_ge 1 (0 + 12) l e he
    by_cases hk : isKnown e.key = true
    · rw [isKnown_iff_prio] at hk
      omega
    · exact Bool.not_eq_true _ ▸ (Bool.eq_false_iff.mpr hk)
  rw [h1, h2, List.nil_append]

theorem joinClasses_pairwise :
    ∀ (n p : Nat) (l : List Entry),
      (joinClasses l p n).Pairwise (fun a b => prio a.key ≤ prio b.key) := by
  intro n
  induction n with
  | zero => intro p l; rw [joinClasses]; exact List.Pairwise.nil
  | succ m ih =>
    intro p l
    rw [joinClasses, List.pairwise_append]
    refine ⟨?_, ih (p + 1) l, ?_⟩
    · apply List.pairwise_of_forall_mem_list
      intro a ha b hb
      have h1 := (List.mem_filter.mp ha).2
      have h2 := (List.mem_filter.mp hb).2
      rw [beq_iff_eq] at h1 h2
      omega
    · intro a ha b hb
      have h1 := (List.mem_filter.mp ha).2
      rw [beq_iff_eq] at h1
      have h2 := mem_joinClasses_ge m (p + 1) l b hb
      omega

theorem filter_classJoin_prio12 (p : Entry → Bool) (l : List Entry)
    (hp : ∀ e : Entry, p e = true → prio e.key = 12) :
    (classJoin l).filter p = l.filter p := by
  rw [classJoin, show (13 : Nat) = 12 + 1 from rfl, joinClasses_split 12 1 0 l,
    List.filter_append]
  have h1 : (joinClasses l 0 12).filter p = [] := by
    rw [List.filter_eq_nil]
    intro e he hc
    have := mem_joinClasses_lt 12 0 l e he
    have := hp e hc
    omega
  have h2 : (joinClasses l (0 + 12) 1).filter p = l.filter p := by
    rw [joinClasses, joinClasses, List.append_nil, List.filter_filter]
    apply List.filter_congr
    intro e _
    by_cases hc : p e = true
    · rw [hc, hp e hc]
      rfl
    · rw [Bool.not_eq_true] at hc
      rw [hc]
      rfl
  rw [h1, h2, List.nil_append]

theorem filter_setHeaderE (p : Entry → Bool) (k v : Str)
    (hk : ∀ e : Entry, p e = true → e.key ≠ k) :
    ∀ l : List Entry, (setHeaderE l k v).filter p = l.filter p := by
  intro l
  induction l with
  | nil =>
    rw [setHeaderE, List.filter_singleton, List.filter_nil]
    have : p ⟨k, v⟩ = false := by
      cases hp : p ⟨k, v⟩
      · rfl
      · exact absurd rfl (hk ⟨k, v⟩ hp)
    rw [this]
    rfl
  | cons e rest ih =>
    rw [setHeaderE]
    by_cases he : e.key = k
    · rw [if_pos he]
      have hpe : p e = false := by
        cases hp : p e
        · rfl
        · exact absurd he (hk e hp)
      have hpkv : p ⟨k, v⟩ = false := by
        cases hp : p ⟨k, v⟩
        · rfl
        · exact absurd rfl (hk ⟨k, v⟩ hp)
      rw [List.filter_cons, List.filter_cons, hpe, hpkv]
      simp
    · rw [if_neg he, List.filter_cons, List.filter_cons, ih]

theorem filter_deleteHeaderE (p : Entry → Bool) (k : Str)
    (hk : ∀ e : Entry, p e = true → e.key ≠ k) (l : List Entry) :
    (deleteHeaderE l k).filter p = l.filter p := by
  rw [deleteHeaderE, List.filter_filter]
  apply List.filter_congr
  intro e _
  cases hp : p e
  · rfl
  · have := hk e hp
    simp [this]

theorem filter_setHeaderNotEmptyE (p : Entry → Bool) (k v : Str)
    (hk : ∀ e : Entry, p e = true → e.key ≠ k) (l : List Entry) :
    (setHeaderNotEmptyE l k v).filter p = l.filter p := by
  rw [setHeaderNotEmptyE]
  by_cases hv : v = []
  · rw [if_pos hv]
    exact filter_deleteHeaderE p k hk l
  · rw [if_neg hv]
    exact filter_setHeaderE p k v hk l

theorem filter_updateTranslatorHeader (p : Entry → Bool) (tr em : Str)
    (hk : ∀ e : Entry, p e = true → e.key ≠ kLTr) (l : List Entry) :
    (updateTranslatorHeader l tr em).filter p = l.filter p := by
  rw [updateTranslatorHeader]
  by_cases h1 : em = []
  · rw [if_pos h1]
    by_cases h2 : tr ≠ [] ∨ hasHeaderE l kLTr = false
    · rw [if_pos h2]
      exact filter_setHeaderE p kLTr tr hk l
    · rw [if_neg h2]
  · rw [if_neg h1]
    by_cases h2 : tr = []
    · rw [if_pos h2]
      exact filter_setHeaderE p kLTr em hk l
    · rw [if_neg h2]
      exact filter_setHeaderE p kLTr _ hk l

theorem filter_updateKeywordsHeader (p : Entry → Bool) (kws : List Str)
    (hk : ∀ e : Entry, p e = true → e.key ≠ kKWL) (l : List Entry) :
    (updateKeywordsHeader l kws).filter p = l.filter p := by
  rw [updateKeywordsHeader]
  by_cases h1 : kws ≠ []
  · rw [if_pos h1]
    exact filter_setHeaderE p kKWL _ hk l
  · rw [if_neg h1]

theorem hasPre_append_self : ∀ (pre t : Str), hasPre pre (pre ++ t) = true := by
  intro pre
  induction pre with
  | nil => intro t; rfl
  | cons a as ih =>
    intro t
    rw [List.cons_append, hasPre]
    simp only [beq_self_eq_true, Bool.true_and]
    exact ih t

theorem spPfx_split : spPfx = spRoot ++ "-".toList := by decide

theorem spePfx_split : spePfx = spRoot ++ "Excluded-".toList := by decide

theorem hasPre_spRoot_spKey (i : Nat) : hasPre spRoot (mkIdxKey spPfx i) = true := by
  rw [mkIdxKey, spPfx_split, List.append_assoc]
  exact hasPre_append_self spRoot _

theorem hasPre_spRoot_speKey (i : Nat) : hasPre spRoot (mkIdxKey spePfx i) = true := by
  rw [mkIdxKey, spePfx_split, List.append_assoc]
  exact hasPre_append_self spRoot _

theorem filter_deleteSeriesAux (p : Entry → Bool) (pfx : Str)
    (hk : ∀ (i : Nat) (e : Entry), p e = true → e.key ≠ mkIdxKey pfx i) :
    ∀ (fuel i : Nat) (es : List Entry),
      (deleteSeriesAux pfx fuel i es).filter p = es.filter p := by
  intro fuel
  induction fuel with
  | zero => intro i es; rfl
  | succ fl ih =>
    intro i es
    rw [deleteSeriesAux]
    by_cases hc : hasHeaderE es (mkIdxKey pfx i) = true
    · rw [if_pos hc, ih (i + 1), filter_deleteHeaderE p _ (fun e hp => hk i e hp)]
    · rw [if_neg hc]

theorem filter_emitSeries (p : Entry → Bool) (pfx : Str)
    (hk : ∀ (i : Nat) (e : Entry), p e = true → e.key ≠ mkIdxKey pfx i) :
    ∀ (l : List Str) (i : Nat) (es : List Entry),
      (emitSeries pfx i l es).filter p = es.filter p := by
  intro l
  induction l with
  | nil => intro i es; rfl
  | cons a rest ih =>
    intro i es
    rw [emitSeries, ih (i + 1), filter_setHeaderE p _ a (fun e hp => hk i e hp)]

theorem unmanagedUnknown_ne_known (e : Entry) (hp : unmanagedUnknown e = true)
    (K : Str) (hK : isKnown K = true) : e.key ≠ K := by
  intro hc
  rw [unmanagedUnknown, Bool.and_eq_true] at hp
  rw [hc] at hp
  rw [hK] at hp
  exact Bool.noConfusion hp.1

theorem unmanagedUnknown_ne_managed (e : Entry) (hp : unmanagedUnknown e = true)
    (K : Str) (hK : isManaged K = true) : e.key ≠ K := by
  intro hc
  rw [unmanagedUnknown, Bool.and_eq_true] at hp
  rw [hc] at hp
  rw [hK] at hp
  exact Bool.noConfusion hp.2

theorem unmanagedUnknown_ne_series (pfx : Str) (hpfx : ∀ j : Nat, hasPre spRoot (mkIdxKey pfx j) = true) :
    ∀ (i : Nat) (e : Entry), unmanagedUnknown e = true → e.key ≠ mkIdxKey pfx i := by
  intro i e hp
  apply unmanagedUnknown_ne_managed e hp
  rw [isManaged, hpfx i]
  simp

theorem filter_updateDictPre_unmanaged (h : HeaderData) :
    (updateDictPre h).filter unmanagedUnknown = h.entries.filter unmanagedUnknown := by
  simp only [updateDictPre, updateDictChain]
  rw [filter_emitSeries unmanagedUnknown spePfx
      (unmanagedUnknown_ne_series spePfx hasPre_spRoot_speKey),
    filter_emitSeries unmanagedUnknown spPfx
      (unmanagedUnknown_ne_series spPfx hasPre_spRoot_spKey),
    deleteSeries, deleteSeries,
    filter_deleteSeriesAux unmanagedUnknown spePfx
      (unmanagedUnknown_ne_series spePfx hasPre_spRoot_speKey),
    filter_deleteSeriesAux unmanagedUnknown spPfx
      (unmanagedUnknown_ne_series spPfx hasPre_spRoot_spKey),
    filter_setHeaderNotEmptyE unmanagedUnknown kBP _
      (fun e hp => unmanagedUnknown_ne_managed e hp kBP (by decide)),
    filter_updateKeywordsHeader unmanagedUnknown _
      (fun e hp => unmanagedUnknown_ne_managed e hp kKWL (by decide)),
    filter_setHeaderNotEmptyE unmanagedUnknown kSCC _
      (fun e hp => unmanagedUnknown_ne_managed e hp kSCC (by decide)),
    filter_setHeaderE unmanagedUnknown kGen _
      (fun e hp => unmanagedUnknown_ne_managed e hp kGen (by decide)),
    filter_setHeaderNotEmptyE unmanagedUnknown kLang _
      (fun e hp => unmanagedUnknown_ne_known e hp kLang (by decide)),
    filter_setHeaderE unmanagedUnknown kCTE _
      (fun e hp => unmanagedUnknown_ne_known e hp kCTE (by decide)),
    filter_setHeaderE unmanagedUnknown kCT _
      (fun e hp => unmanagedUnknown_ne_known e hp kCT (by decide)),
    filter_setHeaderE unmanagedUnknown kMime _
      (fun e hp => unmanagedUnknown_ne_known e hp kMime (by decide)),
    filter_setHeaderE unmanagedUnknown kTeam _
      (fun e hp => unmanagedUnknown_ne_known e hp kTeam (by decide)),
    filter_updateTranslatorHeader unmanagedUnknown _ _
      (fun e hp => unmanagedUnknown_ne_known e hp kLTr (by decide)),
    filter_setHeaderE unmanagedUnknown kPOR _
      (fun e hp => unmanagedUnknown_ne_known e hp kPOR (by decide)),
    filter_setHeaderE unmanagedUnknown kPOT _
      (fun e hp => unmanagedUnknown_ne_known e hp kPOT (by decide)),
    filter_setHeaderE unmanagedUnknown kPIV _
      (fun e hp => unmanagedUnknown_ne_known e hp kPIV (by decide))]


/-- C6 counterexample: with raw entries [X-Poedit-SearchPath-0, X-Custom] and
one search path, UpdateDict re-emits the search-path entry after X-Custom:
both unknown keys survive, but their relative input order is reversed. -/
theorem C6_counterexample :
    ((hC6.entries.map Entry.key).indexOf (mkIdxKey spPfx 0)
        < (hC6.entries.map Entry.key).indexOf kCustom) ∧
    (((hC6.UpdateDict).entries.map Entry.key).indexOf kCustom
        < ((hC6.UpdateDict).entries.map Entry.key).indexOf (mkIdxKey spPfx 0)) ∧
    hasHeaderE (hC6.UpdateDict).entries (mkIdxKey spPfx 0) = true ∧
    hasHeaderE (hC6.UpdateDict).entries kCustom = true := by
  decide

/-- C6 (amended): after UpdateDict the known canonical keys all precede the
unknown keys and appear in canonical relative order; the unknown keys other
than the extension keys UpdateDict itself manages (X-Generator,
X-Poedit-SourceCharset/KeywordsList/Basepath and the re-emitted
X-Poedit-SearchPath series) keep their relative input order and values. -/
theorem C6_canonical_order_amended (h : HeaderData) :
    ((h.UpdateDict).entries
        = (h.UpdateDict).entries.filter (fun e => isKnown e.key)
          ++ (h.UpdateDict).entries.filter (fun e => !isKnown e.key)) ∧
    (((h.UpdateDict).entries.filter (fun e => isKnown e.key)).Pairwise
      (fun a b => prio a.key ≤ prio b.key)) ∧
    ((h.UpdateDict).entries.filter unmanagedUnknown
        = h.entries.filter unmanagedUnknown) := by
  have hupd : (h.UpdateDict).entries = classJoin (updateDictPre h) := by
    rw [HeaderData.UpdateDict, sort_eq_classes]
  refine ⟨?_, ?_, ?_⟩
  · rw [hupd, classJoin_known_part, classJoin_unknown_part, classJoin,
      show (13 : Nat) = 12 + 1 from rfl, joinClasses_split]
  · rw [hupd, classJoin_known_part]
    exact joinClasses_pairwise 12 0 _
  · rw [hupd, filter_classJoin_prio12 unmanagedUnknown _ (by
      intro e he
      rw [unmanagedUnknown, Bool.and_eq_true] at he
      have h1 : isKnown e.key = false := by
        rw [← Bool.not_eq_true]
        intro hc
        rw [hc] at he
        exact Bool.noConfusion he.1
      have h2 := prio_le12 e.key
      by_contra hne
      have : prio e.key < 12 := by omega
      rw [← isKnown_iff_prio] at this
      rw [this] at h1
      exact Bool.noConfusion h1)]
    exact filter_updateDictPre_unmanaged h


theorem digitChar_val (m : Nat) (hm : m < 10) : (digitChar m).toNat - 48 = m := by
  interval_cases m <;> decide

theorem digitsVal_append (c : Char) :
    ∀ l : Str, digitsVal (l ++ [c]) = 10 * digitsVal l + (c.toNat - 48) := by
  intro l
  induction l with
  | nil => simp [digitsVal]
  | cons d l2 ih =>
    rw [List.cons_append, digitsVal, digitsVal, ih, List.length_append,
      List.length_singleton, pow_succ]
    ring

theorem digitsVal_natToStrAux :
    ∀ (fuel n : Nat), n < fuel → digitsVal (natToStrAux fuel n) = n := by
  intro fuel
  induction fuel with
  | zero => intro n h; omega
  | succ fl ih =>
    intro n h
    rw [natToStrAux]
    by_cases hn : n < 10
    · rw [if_pos hn]
      rw [digitsVal, digitsVal]
      rw [List.length_nil, pow_zero, digitChar_val n hn]
      omega
    · rw [if_neg hn, digitsVal_append]
      have hd : n / 10 < fl := by
        have h1 := Nat.div_lt_self (show 0 < n by omega) (show 1 < 10 by omega)
        omega
      rw [ih (n / 10) hd, digitChar_val (n % 10) (Nat.mod_lt n (by omega))]
      have := Nat.div_add_mod n 10
      omega

theorem digitsVal_natToStr (n : Nat) : digitsVal (natToStr n) = n :=
  digitsVal_natToStrAux (n + 1) n (by omega)

theorem natToStr_inj : Function.Injective natToStr := by
  intro a b h
  have := congrArg digitsVal h
  rw [digitsVal_natToStr, digitsVal_natToStr] at this
  exact this

theorem mkIdxKey_inj (pfx : Str) : Function.Injective (mkIdxKey pfx) := by
  intro a b h
  rw [mkIdxKey, mkIdxKey] at h
  exact natToStr_inj (List.append_cancel_left h)

theorem ne_of_not_hasPre (pre k : Str) (h : hasPre pre k = false) :
    ∀ t : Str, k ≠ pre ++ t := by
  intro t hc
  rw [hc, hasPre_append_self] at h
  exact Bool.noConfusion h

theorem spKey_as_root (i : Nat) :
    mkIdxKey spPfx i = spRoot ++ ("-".toList ++ natToStr i) := by
  rw [mkIdxKey, spPfx_split, List.append_assoc]

theorem speKey_as_root (i : Nat) :
    mkIdxKey spePfx i = spRoot ++ ("Excluded-".toList ++ natToStr i) := by
  rw [mkIdxKey, spePfx_split, List.append_assoc]

theorem spKey_ne_speKey (i j : Nat) : mkIdxKey spPfx i ≠ mkIdxKey spePfx j := by
  intro hc
  rw [spKey_as_root, speKey_as_root] at hc
  have h2 := List.append_cancel_left hc
  have h3 : (some '-' : Option Char) = some 'E' := congrArg List.head? h2
  exact absurd h3 (by decide)

theorem chainKey_ne_spKey (k2 : Str) (h2 : hasPre spRoot k2 = false) (i : Nat) :
    mkIdxKey spPfx i ≠ k2 := by
  intro hc
  exact ne_of_not_hasPre spRoot k2 h2 ("-".toList ++ natToStr i)
    (by rw [← hc, spKey_as_root])

theorem chainKey_ne_speKey (k2 : Str) (h2 : hasPre spRoot k2 = false) (i : Nat) :
    mkIdxKey spePfx i ≠ k2 := by
  intro hc
  exact ne_of_not_hasPre spRoot k2 h2 ("Excluded-".toList ++ natToStr i)
    (by rw [← hc, speKey_as_root])

theorem spKey_notin_chainKeys (i : Nat) :
    ∀ k2 ∈ chainKeys, mkIdxKey spPfx i ≠ k2 := by
  intro k2 hk2
  simp only [chainKeys, List.mem_cons, List.not_mem_nil, or_false] at hk2
  rcases hk2 with rfl | rfl | rfl | rfl | rfl | rfl | rfl | rfl | rfl | rfl | rfl | rfl | rfl
  all_goals exact chainKey_ne_spKey _ (by decide) i

theorem speKey_notin_chainKeys (i : Nat) :
    ∀ k2 ∈ chainKeys, mkIdxKey spePfx i ≠ k2 := by
  intro k2 hk2
  simp only [chainKeys, List.mem_cons, List.not_mem_nil, or_false] at hk2
  rcases hk2 with rfl | rfl | rfl | rfl | rfl | rfl | rfl | rfl | rfl | rfl | rfl | rfl | rfl
  all_goals exact chainKey_ne_speKey _ (by decide) i

theorem contig_le_length (pfx : Str) (es : List Entry) (m : Nat)
    (h : ∀ j : Nat, hasHeaderE es (mkIdxKey pfx j) = true ↔ j < m) :
    m ≤ es.length := by
  have hsub : ((List.range m).map (mkIdxKey pfx)) ⊆ es.map Entry.key := by
    intro k hk
    rcases List.mem_map.mp hk with ⟨j, hj, rfl⟩
    have hj2 : j < m := List.mem_range.mp hj
    have hhas := (h j).mpr hj2
    rw [hasHeaderE, Option.isSome_iff_exists] at hhas
    rcases hhas with ⟨e, he⟩
    rw [findEntry] at he
    have hmem := List.mem_of_find?_eq_some he
    have hkey := List.find?_some he
    rw [beq_iff_eq] at hkey
    rw [← hkey]
    exact List.mem_map_of_mem Entry.key hmem
  have hnd : ((List.range m).map (mkIdxKey pfx)).Nodup :=
    List.Nodup.map (mkIdxKey_inj pfx) (List.nodup_range m)
  have hlen := (List.subperm_of_subset hnd hsub).length_le
  rw [List.length_map, List.length_range, List.length_map] at hlen
  exact hlen


theorem findEntry_cons (e : Entry) (l : List Entry) (K : Str) :
    findEntry (e :: l) K = if e.key = K then some e else findEntry l K := by
  rw [findEntry]
  by_cases h : e.key = K
  · rw [if_pos h, List.find?_cons_of_pos _ (by simp [h])]
  · rw [if_neg h, List.find?_cons_of_neg _ (by simp [h])]
    rfl

theorem findEntry_setHeaderE_ne (K k v : Str) (hne : K ≠ k) :
    ∀ l : List Entry, findEntry (setHeaderE l k v) K = findEntry l K := by
  intro l
  induction l with
  | nil =>
    rw [setHeaderE, findEntry_cons, if_neg (fun hc => hne hc.symm)]
  | cons e rest ih =>
    rw [setHeaderE]
    by_cases he : e.key = k
    · rw [if_pos he, findEntry_cons, findEntry_cons, if_neg (fun hc => hne hc.symm),
        if_neg (fun hc => hne (he ▸ hc).symm)]
    · rw [if_neg he, findEntry_cons, findEntry_cons, ih]

theorem findEntry_deleteHeaderE_ne (K k : Str) (hne : K ≠ k) :
    ∀ l : List Entry, findEntry (deleteHeaderE l k) K = findEntry l K := by
  intro l
  induction l with
  | nil => rfl
  | cons e rest ih =>
    rw [deleteHeaderE, List.filter_cons]
    by_cases he : e.key = k
    · have hb : (!(e.key == k)) = false := by simp [he]
      rw [hb, if_neg (by simp)]
      rw [findEntry_cons, if_neg (fun hc => hne (he ▸ hc).symm)]
      rw [← deleteHeaderE, ih]
    · have hb : (!(e.key == k)) = true := by simp [he]
      rw [hb, if_pos rfl, findEntry_cons, findEntry_cons, ← deleteHeaderE, ih]

theorem findEntry_setHeaderNotEmptyE_ne (K k v : Str) (hne : K ≠ k)
    (l : List Entry) : findEntry (setHeaderNotEmptyE l k v) K = findEntry l K := by
  rw [setHeaderNotEmptyE]
  by_cases hv : v = []
  · rw [if_pos hv, findEntry_deleteHeaderE_ne K k hne]
  · rw [if_neg hv, findEntry_setHeaderE_ne K k v hne]

theorem findEntry_updateTranslatorHeader_ne (K : Str) (hne : K ≠ kLTr)
    (tr em : Str) (l : List Entry) :
    findEntry (updateTranslatorHeader l tr em) K = findEntry l K := by
  rw [updateTranslatorHeader]
  by_cases h1 : em = []
  · rw [if_pos h1]
    by_cases h2 : tr ≠ [] ∨ hasHeaderE l kLTr = false
    · rw [if_pos h2, findEntry_setHeaderE_ne K kLTr tr hne]
    · rw [if_neg h2]
  · rw [if_neg h1]
    by_cases h2 : tr = []
    · rw [if_pos h2, findEntry_setHeaderE_ne K kLTr em hne]
    · rw [if_neg h2, findEntry_setHeaderE_ne K kLTr _ hne]

theorem findEntry_updateKeywordsHeader_ne (K : Str) (hne : K ≠ kKWL)
    (kws : List Str) (l : List Entry) :
    findEntry (updateKeywordsHeader l kws) K = findEntry l K := by
  rw [updateKeywordsHeader]
  by_cases h1 : kws ≠ []
  · rw [if_pos h1, findEntry_setHeaderE_ne K kKWL _ hne]
  · rw [if_neg h1]

theorem findEntry_deleteSeriesAux_ne (K : Str) (pfx : Str)
    (hK : ∀ j : Nat, K ≠ mkIdxKey pfx j) :
    ∀ (fuel i : Nat) (es : List Entry),
      findEntry (deleteSeriesAux pfx fuel i es) K = findEntry es K := by
  intro fuel
  induction fuel with
  | zero => intro i es; rfl
  | succ fl ih =>
    intro i es
    rw [deleteSeriesAux]
    by_cases hc : hasHeaderE es (mkIdxKey pfx i) = true
    · rw [if_pos hc, ih (i + 1), findEntry_deleteHeaderE_ne K _ (hK i)]
    · rw [if_neg hc]

theorem findEntry_emitSeries_ne (K : Str) (pfx : Str)
    (hK : ∀ j : Nat, K ≠ mkIdxKey pfx j) :
    ∀ (l : List Str) (i : Nat) (es : List Entry),
      findEntry (emitSeries pfx i l es) K = findEntry es K := by
  intro l
  induction l with
  | nil => intro i es; rfl
  | cons a rest ih =>
    intro i es
    rw [emitSeries, ih (i + 1), findEntry_setHeaderE_ne K _ a (hK i)]

theorem findEntry_updateDictChain (h : HeaderData) (K : Str)
    (hK : ∀ k2 ∈ chainKeys, K ≠ k2) :
    findEntry (updateDictChain h) K = findEntry h.entries K := by
  simp only [updateDictChain]
  rw [findEntry_setHeaderNotEmptyE_ne K kBP _ (hK kBP (by decide)),
    findEntry_updateKeywordsHeader_ne K (hK kKWL (by decide)),
    findEntry_setHeaderNotEmptyE_ne K kSCC _ (hK kSCC (by decide)),
    findEntry_setHeaderE_ne K kGen _ (hK kGen (by decide)),
    findEntry_setHeaderNotEmptyE_ne K kLang _ (hK kLang (by decide)),
    findEntry_setHeaderE_ne K kCTE _ (hK kCTE (by decide)),
    findEntry_setHeaderE_ne K kCT _ (hK kCT (by decide)),
    findEntry_setHeaderE_ne K kMime _ (hK kMime (by decide)),
    findEntry_setHeaderE_ne K kTeam _ (hK kTeam (by decide)),
    findEntry_updateTranslatorHeader_ne K (hK kLTr (by decide)),
    findEntry_setHeaderE_ne K kPOR _ (hK kPOR (by decide)),
    findEntry_setHeaderE_ne K kPOT _ (hK kPOT (by decide)),
    findEntry_setHeaderE_ne K kPIV _ (hK kPIV (by decide))]


theorem hasHeaderE_false_iff_filter_nil (es : List Entry) (K : Str) :
    hasHeaderE es K = false ↔ es.filter (fun e => e.key == K) = [] := by
  constructor
  · intro h
    have hn : findEntry es K = none := by
      cases hf : findEntry es K
      · rfl
      · rw [hasHeaderE, hf] at h
        exact Bool.noConfusion h
    rw [findEntry, List.find?_eq_none] at hn
    rw [List.filter_eq_nil]
    exact hn
  · intro h
    have hn : findEntry es K = none := by
      rw [findEntry, List.find?_eq_none]
      rw [List.filter_eq_nil] at h
      exact h
    rw [hasHeaderE, hn]
    rfl

theorem setHeaderE_append (k v : Str) :
    ∀ l : List Entry, (∀ e ∈ l, e.key ≠ k) → setHeaderE l k v = l ++ [⟨k, v⟩] := by
  intro l
  induction l with
  | nil => intro _; rfl
  | cons e rest ih =>
    intro h
    rw [setHeaderE, if_neg (h e (List.mem_cons_self e rest)), List.cons_append,
      ih (fun x hx => h x (List.mem_cons_of_mem e hx))]

theorem filter_key_deleteHeaderE_self (es : List Entry) (K : Str) :
    (deleteHeaderE es K).filter (fun e => e.key == K) = [] := by
  rw [deleteHeaderE, List.filter_filter, List.filter_eq_nil]
  intro e _
  cases h : (e.key == K)
  · simp
  · simp [h]

theorem filter_deleteSeriesAux_from (p : Entry → Bool) (pfx : Str) :
    ∀ (fuel i : Nat) (es : List Entry),
      (∀ j : Nat, i ≤ j → ∀ e : Entry, p e = true → e.key ≠ mkIdxKey pfx j) →
      (deleteSeriesAux pfx fuel i es).filter p = es.filter p := by
  intro fuel
  induction fuel with
  | zero => intro i es _; rfl
  | succ fl ih =>
    intro i es h
    rw [deleteSeriesAux]
    by_cases hc : hasHeaderE es (mkIdxKey pfx i) = true
    · rw [if_pos hc, ih (i + 1) _ (fun j hj e hp => h j (by omega) e hp),
        filter_deleteHeaderE p _ (fun e hp => h i (by omega) e hp)]
    · rw [if_neg hc]

theorem deleteSeriesAux_contig (pfx : Str) :
    ∀ (m fuel i : Nat) (es : List Entry),
      (∀ j : Nat, hasHeaderE es (mkIdxKey pfx (i + j)) = true ↔ j < m) →
      m < fuel →
      ∀ q : Nat, i ≤ q →
        (deleteSeriesAux pfx fuel i es).filter (fun e => e.key == mkIdxKey pfx q)
          = [] := by
  intro m
  induction m with
  | zero =>
    intro fuel i es hcontig hfuel q hq
    cases fuel with
    | zero => omega
    | succ fl =>
      rw [deleteSeriesAux]
      have h0 : hasHeaderE es (mkIdxKey pfx i) = false := by
        have := hcontig 0
        rw [Nat.add_zero] at this
        cases hh : hasHeaderE es (mkIdxKey pfx i)
        · rfl
        · exact absurd (this.mp hh) (by omega)
      rw [if_neg (by rw [h0]; exact Bool.noConfusion)]
      rw [← hasHeaderE_false_iff_filter_nil]
      have := hcontig (q - i)
      rw [show i + (q - i) = q by omega] at this
      cases hh : hasHeaderE es (mkIdxKey pfx q)
      · rfl
      · exact absurd (this.mp hh) (by omega)
  | succ m2 ih =>
    intro fuel i es hcontig hfuel q hq
    cases fuel with
    | zero => omega
    | succ fl =>
      rw [deleteSeriesAux]
      have h0 : hasHeaderE es (mkIdxKey pfx i) = true := by
        have := hcontig 0
        rw [Nat.add_zero] at this
        exact this.mpr (by omega)
      rw [if_pos h0]
      have hcontig2 : ∀ j : Nat,
          hasHeaderE (deleteHeaderE es (mkIdxKey pfx i)) (mkIdxKey pfx (i + 1 + j))
            = true ↔ j < m2 := by
        intro j
        have hne : mkIdxKey pfx (i + 1 + j) ≠ mkIdxKey pfx i := by
          intro hc
          have := mkIdxKey_inj pfx hc
          omega
        rw [hasHeaderE, findEntry_deleteHeaderE_ne _ _ hne, ← hasHeaderE]
        have := hcontig (j + 1)
        rw [show i + (j + 1) = i + 1 + j by omega] at this
        rw [this]
        omega
      rcases Nat.eq_or_lt_of_le hq with heq | hlt
      · rw [filter_deleteSeriesAux_from _ pfx fl (i + 1) _ (fun j hj e hp => by
          rw [beq_iff_eq] at hp
          rw [hp, ← heq]
          intro hc
          have := mkIdxKey_inj pfx hc
          omega)]
        rw [← heq, filter_key_deleteHeaderE_self]
      · exact ih fl (i + 1) _ hcontig2 (by omega) q (by omega)

theorem emitSeries_filter_key (pfx : Str) :
    ∀ (l : List Str) (i : Nat) (es : List Entry),
      (∀ q : Nat, i ≤ q → es.filter (fun e => e.key == mkIdxKey pfx q) = []) →
      ∀ q : Nat,
        (emitSeries pfx i l es).filter (fun e => e.key == mkIdxKey pfx q)
          = if i ≤ q ∧ q < i + l.length
            then [⟨mkIdxKey pfx q, l.getD (q - i) []⟩]
            else es.filter (fun e => e.key == mkIdxKey pfx q) := by
  intro l
  induction l with
  | nil =>
    intro i es _ q
    rw [if_neg (by simp only [List.length_nil]; omega)]
    rfl
  | cons a rest ih =>
    intro i es hnil q
    have hfresh : ∀ e ∈ es, e.key ≠ mkIdxKey pfx i := by
      intro e he hc
      have := hnil i (by omega)
      rw [List.filter_eq_nil] at this
      exact this e he (by rw [hc]; simp)
    have hset : setHeaderE es (mkIdxKey pfx i) a = es ++ [⟨mkIdxKey pfx i, a⟩] :=
      setHeaderE_append _ a es hfresh
    have hnil2 : ∀ q2 : Nat, i + 1 ≤ q2 →
        (setHeaderE es (mkIdxKey pfx i) a).filter
          (fun e => e.key == mkIdxKey pfx q2) = [] := by
      intro q2 hq2
      rw [hset, List.filter_append, hnil q2 (by omega), List.nil_append,
        List.filter_singleton]
      have : ((⟨mkIdxKey pfx i, a⟩ : Entry).key == mkIdxKey pfx q2) = false := by
        simp only [beq_eq_false_iff_ne]
        intro hc
        have := mkIdxKey_inj pfx hc
        omega
      rw [this]
      rfl
    rw [emitSeries, ih (i + 1) _ hnil2 q]
    by_cases h1 : i + 1 ≤ q ∧ q < i + 1 + rest.length
    · rw [if_pos h1, if_pos (by simp only [List.length_cons]; omega)]
      have harith : q - i = (q - (i + 1)) + 1 := by omega
      rw [harith, List.getD_cons_succ]
    · rw [if_neg h1]
      by_cases h2 : q = i
      · subst h2
        rw [if_pos (by simp only [List.length_cons]; omega)]
        rw [hset, List.filter_append, hnil q (by omega), List.nil_append,
          List.filter_singleton, Nat.sub_self, List.getD_cons_zero]
        have hb : ((⟨mkIdxKey pfx q, a⟩ : Entry).key == mkIdxKey pfx q) = true := by
          simp
        rw [hb]
        rfl
      · rw [if_neg (by simp only [List.length_cons]; omega)]
        rw [hset, List.filter_append, List.filter_singleton]
        have : ((⟨mkIdxKey pfx i, a⟩ : Entry).key == mkIdxKey pfx q) = false := by
          simp only [beq_eq_false_iff_ne]
          intro hc
          have := mkIdxKey_inj pfx hc
          omega
        rw [this]
        simp


theorem regen_series_spec (C : List Entry) (SPs SPEs : List Str) (m m2 : Nat)
    (hm : ∀ i : Nat, hasHeaderE C (mkIdxKey spPfx i) = true ↔ i < m)
    (hm2 : ∀ i : Nat, hasHeaderE C (mkIdxKey spePfx i) = true ↔ i < m2) :
    (∀ q : Nat,
      (emitSeries spePfx 0 SPEs (emitSeries spPfx 0 SPs
          (deleteSeries (deleteSeries C spPfx) spePfx))).filter
          (fun e => e.key == mkIdxKey spPfx q)
        = if q < SPs.length then [⟨mkIdxKey spPfx q, SPs.getD q []⟩] else []) ∧
    (∀ q : Nat,
      (emitSeries spePfx 0 SPEs (emitSeries spPfx 0 SPs
          (deleteSeries (deleteSeries C spPfx) spePfx))).filter
          (fun e => e.key == mkIdxKey spePfx q)
        = if q < SPEs.length then [⟨mkIdxKey spePfx q, SPEs.getD q []⟩] else []) := by
  have hD1sp : ∀ q : Nat,
      (deleteSeries C spPfx).filter (fun e => e.key == mkIdxKey spPfx q) = [] := by
    intro q
    rw [deleteSeries]
    exact deleteSeriesAux_contig spPfx m (C.length + 1) 0 C
      (fun j => by rw [Nat.zero_add]; exact hm j)
      (by have := contig_le_length spPfx C m hm; omega) q (by omega)
  have hD1spe : ∀ i : Nat,
      hasHeaderE (deleteSeries C spPfx) (mkIdxKey spePfx i) = true ↔ i < m2 := by
    intro i
    rw [deleteSeries, hasHeaderE,
      findEntry_deleteSeriesAux_ne _ spPfx (fun j => (spKey_ne_speKey j i).symm),
      ← hasHeaderE]
    exact hm2 i
  have hD2spe : ∀ q : Nat,
      (deleteSeries (deleteSeries C spPfx) spePfx).filter
        (fun e => e.key == mkIdxKey spePfx q) = [] := by
    intro q
    rw [deleteSeries]
    exact deleteSeriesAux_contig spePfx m2 ((deleteSeries C spPfx).length + 1) 0 _
      (fun j => by rw [Nat.zero_add]; exact hD1spe j)
      (by have := contig_le_length spePfx _ m2 hD1spe; omega) q (by omega)
  have hD2sp : ∀ q : Nat,
      (deleteSeries (deleteSeries C spPfx) spePfx).filter
        (fun e => e.key == mkIdxKey spPfx q) = [] := by
    intro q
    rw [deleteSeries]
    rw [filter_deleteSeriesAux _ spePfx (fun i e hp => by
      rw [beq_iff_eq] at hp
      rw [hp]
      exact spKey_ne_speKey q i)]
    exact hD1sp q
  have hE1sp := emitSeries_filter_key spPfx SPs 0
    (deleteSeries (deleteSeries C spPfx) spePfx) (fun q _ => hD2sp q)
  have hE1spe : ∀ q : Nat,
      (emitSeries spPfx 0 SPs
          (deleteSeries (deleteSeries C spPfx) spePfx)).filter
        (fun e => e.key == mkIdxKey spePfx q) = [] := by
    intro q
    rw [filter_emitSeries _ spPfx (fun i e hp => by
      rw [beq_iff_eq] at hp
      rw [hp]
      exact (spKey_ne_speKey i q).symm)]
    exact hD2spe q
  have hE2spe := emitSeries_filter_key spePfx SPEs 0
    (emitSeries spPfx 0 SPs (deleteSeries (deleteSeries C spPfx) spePfx))
    (fun q _ => hE1spe q)
  have hE2sp : ∀ q : Nat,
      (emitSeries spePfx 0 SPEs (emitSeries spPfx 0 SPs
          (deleteSeries (deleteSeries C spPfx) spePfx))).filter
        (fun e => e.key == mkIdxKey spPfx q)
      = (emitSeries spPfx 0 SPs
          (deleteSeries (deleteSeries C spPfx) spePfx)).filter
          (fun e => e.key == mkIdxKey spPfx q) := by
    intro q
    rw [filter_emitSeries _ spePfx (fun i e hp => by
      rw [beq_iff_eq] at hp
      rw [hp]
      exact spKey_ne_speKey q i)]
  constructor
  · intro q
    rw [hE2sp q, hE1sp q]
    by_cases hq : q < SPs.length
    · rw [if_pos (by omega), if_pos hq, Nat.sub_zero]
    · rw [if_neg (by omega), if_neg hq]
      exact hD2sp q
  · intro q
    rw [hE2spe q]
    by_cases hq : q < SPEs.length
    · rw [if_pos (by omega), if_pos hq, Nat.sub_zero]
    · rw [if_neg (by omega), if_neg hq]
      exact hE1spe q

/-- C3 counterexample: a header holding stale entries X-Poedit-SearchPath-0
and X-Poedit-SearchPath-2 (a gap at index 1) and an empty SearchPaths list:
after UpdateDict the stale X-Poedit-SearchPath-2 entry is still present,
although the claim demands that no stale indexed entry remain. -/
theorem C3_counterexample :
    hC3.SearchPaths = [] ∧
    hasHeaderE (hC3.UpdateDict).entries (mkIdxKey spPfx 2) = true := by
  decide

/-- C3 (amended): UpdateDict deletes only the contiguous 0-based prefix of
each pre-existing indexed series; when the pre-existing series are gap-free
(presence exactly at indices below some bound), the resulting entries hold
exactly one X-Poedit-SearchPath-i / X-Poedit-SearchPathExcluded-i entry per
element of the current lists, 0-based and contiguous, and no stale indexed
entry remains. -/
theorem C3_search_path_regeneration_amended (h : HeaderData)
    (hsp : ∃ m : Nat, ∀ i : Nat,
      hasHeaderE h.entries (mkIdxKey spPfx i) = true ↔ i < m)
    (hspe : ∃ m : Nat, ∀ i : Nat,
      hasHeaderE h.entries (mkIdxKey spePfx i) = true ↔ i < m) :
    (∀ i : Nat,
      (h.UpdateDict).entries.filter (fun e => e.key == mkIdxKey spPfx i)
        = if i < h.SearchPaths.length
          then [⟨mkIdxKey spPfx i, h.SearchPaths.getD i []⟩] else []) ∧
    (∀ i : Nat,
      (h.UpdateDict).entries.filter (fun e => e.key == mkIdxKey spePfx i)
        = if i < h.SearchPathsExcluded.length
          then [⟨mkIdxKey spePfx i, h.SearchPathsExcluded.getD i []⟩] else []) := by
  obtain ⟨m, hm⟩ := hsp
  obtain ⟨m2, hm2⟩ := hspe
  have hmC : ∀ i : Nat,
      hasHeaderE (updateDictChain h) (mkIdxKey spPfx i) = true ↔ i < m := by
    intro i
    rw [hasHeaderE, findEntry_updateDictChain h _ (spKey_notin_chainKeys i),
      ← hasHeaderE]
    exact hm i
  have hm2C : ∀ i : Nat,
      hasHeaderE (updateDictChain h) (mkIdxKey spePfx i) = true ↔ i < m2 := by
    intro i
    rw [hasHeaderE, findEntry_updateDictChain h _ (speKey_notin_chainKeys i),
      ← hasHeaderE]
    exact hm2 i
  have hspec := regen_series_spec (updateDictChain h) h.SearchPaths
    h.SearchPathsExcluded m m2 hmC hm2C
  have hupd : (h.UpdateDict).entries = classJoin (updateDictPre h) := by
    rw [HeaderData.UpdateDict, sort_eq_classes]
  have hpre : updateDictPre h
      = emitSeries spePfx 0 h.SearchPathsExcluded
          (emitSeries spPfx 0 h.SearchPaths
            (deleteSeries (deleteSeries (updateDictChain h) spPfx) spePfx)) := rfl
  constructor
  · intro i
    rw [hupd, filter_classJoin_prio12 _ _ (fun e hp => by
      rw [beq_iff_eq] at hp
      rw [hp, spKey_as_root]
      exact prio_spRoot _), hpre]
    exact hspec.1 i
  · intro i
    rw [hupd, filter_classJoin_prio12 _ _ (fun e hp => by
      rw [beq_iff_eq] at hp
      rw [hp, speKey_as_root]
      exact prio_spRoot _), hpre]
    exact hspec.2 i


/-- Witness for C3 at a concrete header with a gap-free (empty) pre-existing
series and one current search path. -/
theorem C3_witness :
    ((hC3W.UpdateDict).entries.filter (fun e => e.key == mkIdxKey spPfx 0)
        = [⟨mkIdxKey spPfx 0, "a".toList⟩]) ∧
    ((hC3W.UpdateDict).entries.filter (fun e => e.key == mkIdxKey spPfx 1)
        = []) := by
  have h := C3_search_path_regeneration_amended hC3W
    ⟨0, fun i => by
      rw [hasHeaderE, show hC3W.entries = [⟨kCustom, "v".toList⟩] from rfl,
        findEntry_cons,
        if_neg (fun hc => chainKey_ne_spKey kCustom (by decide) i hc.symm)]
      simp [findEntry]⟩
    ⟨0, fun i => by
      rw [hasHeaderE, show hC3W.entries = [⟨kCustom, "v".toList⟩] from rfl,
        findEntry_cons,
        if_neg (fun hc => chainKey_ne_speKey kCustom (by decide) i hc.symm)]
      simp [findEntry]⟩
  constructor
  · have h0 := h.1 0
    rw [if_pos (by decide)] at h0
    exact h0
  · have h1 := h.1 1
    rwa [if_neg (by decide)] at h1


theorem dropWhile_cons_neg {α : Type} (p : α → Bool) (a : α) (l : List α)
    (h : p a = false) : (a :: l).dropWhile p = a :: l := by
  rw [List.dropWhile_cons, h]
  rfl

theorem dropWhile_cons_pos {α : Type} (p : α → Bool) (a : α) (l : List α)
    (h : p a = true) : (a :: l).dropWhile p = l.dropWhile p := by
  rw [List.dropWhile_cons, h]
  rfl

theorem stripL_cons_nonwhite (c : Char) (t : Str) (h : isWhiteChar c = false) :
    stripL (c :: t) = c :: t := by
  rw [stripL, dropWhile_cons_neg _ _ _ h]

theorem stripR_append_last (a b : Str) (c : Char) (hb : b.getLast? = some c)
    (hw : isWhiteChar c = false) : stripR (a ++ b) = a ++ b := by
  have hrev : b.reverse.head? = some c := by rw [List.head?_reverse, hb]
  rcases hr : b.reverse with _ | ⟨d, r⟩
  · rw [hr] at hrev
    exact absurd hrev (by simp)
  · have hd : isWhiteChar d = false := by
      rw [hr] at hrev
      have : d = c := by simpa using hrev
      rw [this]
      exact hw
    rw [stripR, List.reverse_append, hr, List.cons_append,
      dropWhile_cons_neg _ _ _ hd]
    rw [show d :: (r ++ a.reverse) = (d :: r) ++ a.reverse from rfl, ← hr,
      ← List.reverse_append, List.reverse_reverse]

theorem lastNonwhite_of_stripR (b : Str) (h : stripR b = b) (hne : b ≠ []) :
    ∃ c, b.getLast? = some c ∧ isWhiteChar c = false := by
  rcases hr : b.reverse with _ | ⟨d, r⟩
  · rw [List.reverse_eq_nil_iff] at hr
    exact absurd hr hne
  · refine ⟨d, ?_, ?_⟩
    · rw [← List.head?_reverse, hr]
      rfl
    · by_contra hw
      rw [Bool.not_eq_false] at hw
      have hlen : (stripR b).length ≤ r.length := by
        rw [stripR, hr, dropWhile_cons_pos _ _ _ hw, List.length_reverse]
        exact (List.dropWhile_sublist isWhiteChar).length_le
      have hbl : b.length = r.length + 1 := by
        have h2 := congrArg List.length hr
        rw [List.length_reverse, List.length_cons] at h2
        omega
      rw [h] at hlen
      omega

theorem headNonwhite_of_stripL (b : Str) (h : stripL b = b) (hne : b ≠ []) :
    ∃ c r, b = c :: r ∧ isWhiteChar c = false := by
  rcases b with _ | ⟨c, r⟩
  · exact absurd rfl hne
  · refine ⟨c, r, rfl, ?_⟩
    by_contra hw
    rw [Bool.not_eq_false] at hw
    have hlen : (stripL (c :: r)).length ≤ r.length := by
      rw [stripL, dropWhile_cons_pos _ _ _ hw]
      exact (List.dropWhile_sublist isWhiteChar).length_le
    rw [h, List.length_cons] at hlen
    omega

theorem stripBoth_id (v : Str) (h1 : stripL v = v) (h2 : stripR v = v) :
    stripBoth v = v := by
  rw [stripBoth, h1, h2]

theorem stripBoth_space (v : Str) (h1 : stripL v = v) (h2 : stripR v = v) :
    stripBoth (' ' :: v) = v := by
  rw [stripBoth, stripL, dropWhile_cons_pos _ _ _ (by decide), ← stripL, h1, h2]

theorem stripR_append_space (x : Str) : stripR (x ++ [' ']) = stripR x := by
  rw [stripR, stripR, List.reverse_append]
  rfl

theorem unescape_cons (c : Char) (hc : c ≠ '\\') (t : Str) :
    unescapeCString (c :: t) = c :: unescapeCString t := by
  rcases t with _ | ⟨d, r⟩
  · rw [unescapeCString.eq_def]
    split <;> simp_all
  · rw [unescapeCString.eq_def]
    split <;> simp_all

theorem escapeCString_cons (c : Char) (s : Str) :
    escapeCString (c :: s) = escChar c ++ escapeCString s := rfl

theorem unescape_escape_append : ∀ (s t : Str),
    unescapeCString (escapeCString s ++ t) = s ++ unescapeCString t := by
  intro s
  induction s with
  | nil => intro t; rfl
  | cons c s ih =>
    intro t
    rw [escapeCString_cons, List.append_assoc]
    by_cases h1 : c = '\\'
    · subst h1
      have hstep : unescapeCString (escChar '\\' ++ (escapeCString s ++ t))
          = '\\' :: unescapeCString (escapeCString s ++ t) := rfl
      rw [hstep, ih]
      rfl
    · by_cases h2 : c = '"'
      · subst h2
        have hstep : unescapeCString (escChar '"' ++ (escapeCString s ++ t))
            = '"' :: unescapeCString (escapeCString s ++ t) := rfl
        rw [hstep, ih]
        rfl
      · by_cases h3 : c = '\n'
        · subst h3
          have hstep : unescapeCString (escChar '\n' ++ (escapeCString s ++ t))
              = '\n' :: unescapeCString (escapeCString s ++ t) := rfl
          rw [hstep, ih]
          rfl
        · by_cases h4 : c = '\t'
          · subst h4
            have hstep : unescapeCString (escChar '\t' ++ (escapeCString s ++ t))
                = '\t' :: unescapeCString (escapeCString s ++ t) := rfl
            rw [hstep, ih]
            rfl
          · by_cases h5 : c = '\r'
            · subst h5
              have hstep :
                  unescapeCString (escChar '\r' ++ (escapeCString s ++ t))
                  = '\r' :: unescapeCString (escapeCString s ++ t) := rfl
              rw [hstep, ih]
              rfl
            · have he : escChar c = [c] := by
                rw [escChar, if_neg h1, if_neg h2, if_neg h3, if_neg h4, if_neg h5]
              rw [he, List.singleton_append, unescape_cons c h1, ih]
              rfl

theorem splitNL_append (line rest : Str) :
    '\n' ∉ line → splitNL (line ++ '\n' :: rest) = line :: splitNL rest := by
  induction line with
  | nil =>
    intro _
    rw [List.nil_append, splitNL, if_pos rfl]
  | cons c cs ih =>
    intro h
    have hc : ¬(c = '\n') := fun hcc => h (hcc ▸ List.mem_cons_self c cs)
    have hcs : '\n' ∉ cs := fun hm => h (List.mem_cons_of_mem c hm)
    rw [List.cons_append, splitNL, if_neg hc, ih hcs]

theorem strConcat_cons (x : Str) (l : List Str) :
    strConcat (x :: l) = x ++ strConcat l := rfl

theorem parseHeaderLine_kv (k v : Str) (hk : ':' ∉ k) :
    parseHeaderLine (k ++ ':' :: v) = some ⟨stripBoth k, stripBoth v⟩ := by
  unfold parseHeaderLine
  have hall : ∀ x ∈ k, (!(x == ':')) = true := by
    intro x hx
    simp only [Bool.not_eq_eq_eq_not, Bool.not_true, beq_eq_false_iff_ne]
    exact fun hc => hk (hc ▸ hx)
  rw [takeWhile_append_stop _ ':' v (by simp) k hall]
  have hlen : k.length ≠ (k ++ ':' :: v).length := by
    simp only [List.length_append, List.length_cons]
    omega
  rw [if_neg hlen]
  have hdrop : (k ++ ':' :: v).drop (k.length + 1) = v := by
    have hsplit : k ++ ':' :: v = (k ++ [':']) ++ v := by simp
    rw [hsplit]
    exact List.drop_left' (by simp)
  rw [hdrop]

theorem fromStringRaw_filterMap (str : Str) :
    fromStringRaw str = (tokenizeNL str).filterMap parseHeaderLine := by
  unfold fromStringRaw
  have h := foldl_pushParsed (tokenizeNL str) []
  rwa [List.nil_append] at h

theorem tokenizeNL_cons_line (line rest : Str) (hnl : '\n' ∉ line)
    (hne : line ≠ []) :
    tokenizeNL (line ++ '\n' :: rest) = line :: tokenizeNL rest := by
  have hb : (!line.isEmpty) = true := by
    cases line
    · exact absurd rfl hne
    · rfl
  rw [tokenizeNL, splitNL_append line rest hnl, List.filter_cons, hb, if_pos rfl]
  rfl

theorem fromString_roundtrip : ∀ E : List Entry, (∀ e ∈ E, entryWire e) →
    fromStringRaw (unescapeCString (strConcat (E.map (headerLineText [])))) = E := by
  intro E
  induction E with
  | nil => intro _; rfl
  | cons e E ih =>
    intro h
    obtain ⟨hk1, hk2, hk3, hk4, hk5, hv1, hv2, hv3⟩ := h e (List.mem_cons_self e E)
    have hrest : ∀ x ∈ E, entryWire x := fun x hx => h x (List.mem_cons_of_mem e hx)
    have htext : strConcat ((e :: E).map (headerLineText []))
        = escapeCString e.key ++ (": ".toList ++ (escapeCString e.value
            ++ ("\\n".toList ++ strConcat (E.map (headerLineText []))))) := by
      rw [List.map_cons, strConcat_cons, headerLineText]
      simp only [List.append_assoc, List.append_nil]
    have hun : unescapeCString (strConcat ((e :: E).map (headerLineText [])))
        = (e.key ++ ':' :: ' ' :: e.value)
            ++ '\n' :: unescapeCString (strConcat (E.map (headerLineText []))) := by
      rw [htext, unescape_escape_append]
      rw [show (": ".toList ++ (escapeCString e.value
            ++ ("\\n".toList ++ strConcat (E.map (headerLineText [])))))
          = ':' :: (' ' :: (escapeCString e.value
            ++ ("\\n".toList ++ strConcat (E.map (headerLineText []))))) from rfl]
      rw [unescape_cons ':' (by decide), unescape_cons ' ' (by decide),
        unescape_escape_append]
      have hnl2 : unescapeCString ("\\n".toList
            ++ strConcat (E.map (headerLineText [])))
          = '\n' :: unescapeCString (strConcat (E.map (headerLineText []))) := rfl
      rw [hnl2]
      simp only [List.append_assoc, List.cons_append]
    have hlinenl : '\n' ∉ e.key ++ ':' :: ' ' :: e.value := by
      intro hm
      simp only [List.mem_append, List.mem_cons] at hm
      rcases hm with hm | hm | hm | hm
      · exact hk3 hm
      · exact absurd hm (by decide)
      · exact absurd hm (by decide)
      · exact hv1 hm
    have hlinene : e.key ++ ':' :: ' ' :: e.value ≠ [] := by
      intro hc
      have hlen := congrArg List.length hc
      simp at hlen
    rw [hun, fromStringRaw_filterMap,
      tokenizeNL_cons_line _ _ hlinenl hlinene, List.filterMap_cons]
    rw [show e.key ++ ':' :: ' ' :: e.value
        = e.key ++ ':' :: (' ' :: e.value) from rfl,
      parseHeaderLine_kv e.key (' ' :: e.value) hk2]
    rw [stripBoth_id e.key hk4 hk5, stripBoth_space e.value hv2 hv3]
    rw [← fromStringRaw_filterMap, ih hrest]

theorem mem_setHeaderE (k v : Str) (e : Entry) :
    ∀ l : List Entry, e ∈ setHeaderE l k v → e ∈ l ∨ e = ⟨k, v⟩ := by
  intro l
  induction l with
  | nil =>
    intro h
    exact Or.inr (List.mem_singleton.mp h)
  | cons x rest ih =>
    intro h
    rw [setHeaderE] at h
    by_cases hx : x.key = k
    · rw [if_pos hx] at h
      rcases List.mem_cons.mp h with rfl | hm
      · exact Or.inr rfl
      · exact Or.inl (List.mem_cons_of_mem x hm)
    · rw [if_neg hx] at h
      rcases List.mem_cons.mp h with rfl | hm
      · exact Or.inl (List.mem_cons_self _ _)
      · rcases ih hm with hm2 | hm2
        · exact Or.inl (List.mem_cons_of_mem x hm2)
        · exact Or.inr hm2

theorem mem_setHeaderNotEmptyE (k v : Str) (e : Entry) (l : List Entry)
    (h : e ∈ setHeaderNotEmptyE l k v) : e ∈ l ∨ e = ⟨k, v⟩ := by
  rw [setHeaderNotEmptyE] at h
  by_cases hv : v = []
  · rw [if_pos hv] at h
    exact Or.inl (List.mem_of_mem_filter h)
  · rw [if_neg hv] at h
    exact mem_setHeaderE k v e l h

theorem mem_updateTranslatorHeader (tr em : Str) (e : Entry) (l : List Entry)
    (h : e ∈ updateTranslatorHeader l tr em) :
    e ∈ l ∨ e = ⟨kLTr, ltValue tr em⟩ := by
  rw [updateTranslatorHeader] at h
  by_cases h1 : em = []
  · rw [if_pos h1] at h
    by_cases h2 : tr ≠ [] ∨ hasHeaderE l kLTr = false
    · rw [if_pos h2] at h
      rcases mem_setHeaderE kLTr tr e l h with hm | hm
      · exact Or.inl hm
      · refine Or.inr ?_
        rw [ltValue, if_pos h1]
        exact hm
    · rw [if_neg h2] at h
      exact Or.inl h
  · rw [if_neg h1] at h
    by_cases h2 : tr = []
    · rw [if_pos h2] at h
      rcases mem_setHeaderE kLTr em e l h with hm | hm
      · exact Or.inl hm
      · refine Or.inr ?_
        rw [ltValue, if_neg h1, if_pos h2]
        exact hm
    · rw [if_neg h2] at h
      rcases mem_setHeaderE kLTr _ e l h with hm | hm
      · exact Or.inl hm
      · refine Or.inr ?_
        rw [ltValue, if_neg h1, if_neg h2]
        exact hm

theorem mem_updateKeywordsHeader (kws : List Str) (e : Entry) (l : List Entry)
    (h : e ∈ updateKeywordsHeader l kws) :
    e ∈ l ∨ e = ⟨kKWL, joinSC kws⟩ := by
  rw [updateKeywordsHeader] at h
  by_cases h1 : kws ≠ []
  · rw [if_pos h1] at h
    exact mem_setHeaderE kKWL _ e l h
  · rw [if_neg h1] at h
    exact Or.inl h

theorem mem_deleteSeriesAux (pfx : Str) (e : Entry) :
    ∀ (fuel i : Nat) (es : List Entry),
      e ∈ deleteSeriesAux pfx fuel i es → e ∈ es := by
  intro fuel
  induction fuel with
  | zero => intro i es h; exact h
  | succ fl ih =>
    intro i es h
    rw [deleteSeriesAux] at h
    by_cases hc : hasHeaderE es (mkIdxKey pfx i) = true
    · rw [if_pos hc] at h
      exact List.mem_of_mem_filter (ih (i + 1) _ h)
    · rwa [if_neg hc] at h

theorem mem_emitSeries (pfx : Str) (e : Entry) :
    ∀ (l : List Str) (i : Nat) (es : List Entry), e ∈ emitSeries pfx i l es →
      e ∈ es ∨ ∃ j v, v ∈ l ∧ e = ⟨mkIdxKey pfx j, v⟩ := by
  intro l
  induction l with
  | nil => intro i es h; exact Or.inl h
  | cons a rest ih =>
    intro i es h
    rw [emitSeries] at h
    rcases ih (i + 1) _ h with hm | ⟨j, v, hv, rfl⟩
    · rcases mem_setHeaderE _ a e es hm with hm2 | rfl
      · exact Or.inl hm2
      · exact Or.inr ⟨i, a, List.mem_cons_self a rest, rfl⟩
    · exact Or.inr ⟨j, v, List.mem_cons_of_mem a hv, rfl⟩

theorem mem_joinClasses_sub (l : List Entry) :
    ∀ (n p : Nat) (e : Entry), e ∈ joinClasses l p n → e ∈ l := by
  intro n
  induction n with
  | zero => intro p e h; exact absurd h (List.not_mem_nil e)
  | succ m ih =>
    intro p e h
    rw [joinClasses] at h
    rcases List.mem_append.mp h with hm | hm
    · exact List.mem_of_mem_filter hm
    · exact ih (p + 1) e hm

theorem findEntry_eq_filter_head (es : List Entry) (K : Str) :
    findEntry es K = (es.filter (fun e => e.key == K)).head? := by
  induction es with
  | nil => rfl
  | cons e rest ih =>
    rw [findEntry_cons, List.filter_cons]
    by_cases he : e.key = K
    · rw [if_pos he, show (e.key == K) = true by simp [he], if_pos rfl]
      rfl
    · rw [if_neg he, show (e.key == K) = false by simp [he],
        if_neg (by simp), ih]

theorem findEntry_setHeaderE_self (k v : Str) :
    ∀ l : List Entry, findEntry (setHeaderE l k v) k = some ⟨k, v⟩ := by
  intro l
  induction l with
  | nil =>
    rw [setHeaderE, findEntry_cons, if_pos rfl]
  | cons e rest ih =>
    rw [setHeaderE]
    by_cases he : e.key = k
    · rw [if_pos he, findEntry_cons, if_pos rfl]
    · rw [if_neg he, findEntry_cons, if_neg he, ih]

theorem findEntry_deleteHeaderE_self (k : Str) (l : List Entry) :
    findEntry (deleteHeaderE l k) k = none := by
  rw [findEntry_eq_filter_head, filter_key_deleteHeaderE_self]
  rfl

theorem filter_key_joinClasses (l : List Entry) (K : Str) :
    ∀ (n p : Nat),
      (joinClasses l p n).filter (fun e => e.key == K)
        = if p ≤ prio K ∧ prio K < p + n
          then l.filter (fun e => e.key == K) else [] := by
  intro n
  induction n with
  | zero =>
    intro p
    rw [joinClasses, if_neg (by omega), List.filter_nil]
  | succ m ih =>
    intro p
    rw [joinClasses, List.filter_append, ih (p + 1)]
    by_cases hp : prio K = p
    · rw [if_neg (by omega), if_pos (by omega), List.append_nil,
        List.filter_filter]
      apply List.filter_congr
      intro e _
      cases hk : (e.key == K)
      · simp
      · have hpe : prio e.key = p := by
          rw [beq_iff_eq] at hk
          rw [hk, hp]
        simp [hpe]
    · have hnil : (l.filter (fun e => prio e.key == p)).filter
          (fun e => e.key == K) = [] := by
        rw [List.filter_eq_nil]
        intro e he hc
        rw [beq_iff_eq] at hc
        have hpe := List.of_mem_filter he
        rw [beq_iff_eq] at hpe
        exact hp (by rw [← hc]; exact hpe)
      rw [hnil, List.nil_append]
      by_cases h2 : p + 1 ≤ prio K ∧ prio K < p + 1 + m
      · rw [if_pos h2, if_pos (by omega)]
      · rw [if_neg h2, if_neg (by omega)]

theorem findEntry_classJoin (l : List Entry) (K : Str) :
    findEntry (classJoin l) K = findEntry l K := by
  rw [findEntry_eq_filter_head, findEntry_eq_filter_head, classJoin,
    filter_key_joinClasses l K 13 0,
    if_pos ⟨Nat.zero_le _, by have := prio_le12 K; omega⟩]

theorem findEntry_chain_kPIV (h : HeaderData) :
    findEntry (updateDictChain h) kPIV = some ⟨kPIV, h.Project⟩ := by
  simp only [updateDictChain]
  rw [findEntry_setHeaderNotEmptyE_ne kPIV kBP _ (by decide),
    findEntry_updateKeywordsHeader_ne kPIV (by decide),
    findEntry_setHeaderNotEmptyE_ne kPIV kSCC _ (by decide),
    findEntry_setHeaderE_ne kPIV kGen _ (by decide),
    findEntry_setHeaderNotEmptyE_ne kPIV kLang _ (by decide),
    findEntry_setHeaderE_ne kPIV kCTE _ (by decide),
    findEntry_setHeaderE_ne kPIV kCT _ (by decide),
    findEntry_setHeaderE_ne kPIV kMime _ (by decide),
    findEntry_setHeaderE_ne kPIV kTeam _ (by decide),
    findEntry_updateTranslatorHeader_ne kPIV (by decide),
    findEntry_setHeaderE_ne kPIV kPOR _ (by decide),
    findEntry_setHeaderE_ne kPIV kPOT _ (by decide),
    findEntry_setHeaderE_self kPIV h.Project]

theorem findEntry_chain_kPOT (h : HeaderData) :
    findEntry (updateDictChain h) kPOT = some ⟨kPOT, h.CreationDate⟩ := by
  simp only [updateDictChain]
  rw [findEntry_setHeaderNotEmptyE_ne kPOT kBP _ (by decide),
    findEntry_updateKeywordsHeader_ne kPOT (by decide),
    findEntry_setHeaderNotEmptyE_ne kPOT kSCC _ (by decide),
    findEntry_setHeaderE_ne kPOT kGen _ (by decide),
    findEntry_setHeaderNotEmptyE_ne kPOT kLang _ (by decide),
    findEntry_setHeaderE_ne kPOT kCTE _ (by decide),
    findEntry_setHeaderE_ne kPOT kCT _ (by decide),
    findEntry_setHeaderE_ne kPOT kMime _ (by decide),
    findEntry_setHeaderE_ne kPOT kTeam _ (by decide),
    findEntry_updateTranslatorHeader_ne kPOT (by decide),
    findEntry_setHeaderE_ne kPOT kPOR _ (by decide),
    findEntry_setHeaderE_self kPOT h.CreationDate]

theorem findEntry_chain_kPOR (h : HeaderData) :
    findEntry (updateDictChain h) kPOR = some ⟨kPOR, h.RevisionDate⟩ := by
  simp only [updateDictChain]
  rw [findEntry_setHeaderNotEmptyE_ne kPOR kBP _ (by decide),
    findEntry_updateKeywordsHeader_ne kPOR (by decide),
    findEntry_setHeaderNotEmptyE_ne kPOR kSCC _ (by decide),
    findEntry_setHeaderE_ne kPOR kGen _ (by decide),
    findEntry_setHeaderNotEmptyE_ne kPOR kLang _ (by decide),
    findEntry_setHeaderE_ne kPOR kCTE _ (by decide),
    findEntry_setHeaderE_ne kPOR kCT _ (by decide),
    findEntry_setHeaderE_ne kPOR kMime _ (by decide),
    findEntry_setHeaderE_ne kPOR kTeam _ (by decide),
    findEntry_updateTranslatorHeader_ne kPOR (by decide),
    findEntry_setHeaderE_self kPOR h.RevisionDate]

theorem findEntry_chain_kTeam (h : HeaderData) :
    findEntry (updateDictChain h) kTeam = some ⟨kTeam, h.LanguageTeam⟩ := by
  simp only [updateDictChain]
  rw [findEntry_setHeaderNotEmptyE_ne kTeam kBP _ (by decide),
    findEntry_updateKeywordsHeader_ne kTeam (by decide),
    findEntry_setHeaderNotEmptyE_ne kTeam kSCC _ (by decide),
    findEntry_setHeaderE_ne kTeam kGen _ (by decide),
    findEntry_setHeaderNotEmptyE_ne kTeam kLang _ (by decide),
    findEntry_setHeaderE_ne kTeam kCTE _ (by decide),
    findEntry_setHeaderE_ne kTeam kCT _ (by decide),
    findEntry_setHeaderE_ne kTeam kMime _ (by decide),
    findEntry_setHeaderE_self kTeam h.LanguageTeam]

theorem findEntry_chain_kCT (h : HeaderData) :
    findEntry (updateDictChain h) kCT = some ⟨kCT, ctPre ++ h.Charset⟩ := by
  simp only [updateDictChain]
  rw [findEntry_setHeaderNotEmptyE_ne kCT kBP _ (by decide),
    findEntry_updateKeywordsHeader_ne kCT (by decide),
    findEntry_setHeaderNotEmptyE_ne kCT kSCC _ (by decide),
    findEntry_setHeaderE_ne kCT kGen _ (by decide),
    findEntry_setHeaderNotEmptyE_ne kCT kLang _ (by decide),
    findEntry_setHeaderE_ne kCT kCTE _ (by decide),
    findEntry_setHeaderE_self kCT _]

theorem findEntry_chain_kLTr (h : HeaderData) (he : h.entries = []) :
    findEntry (updateDictChain h) kLTr
      = some ⟨kLTr, ltValue h.Translator h.TranslatorEmail⟩ := by
  simp only [updateDictChain]
  rw [findEntry_setHeaderNotEmptyE_ne kLTr kBP _ (by decide),
    findEntry_updateKeywordsHeader_ne kLTr (by decide),
    findEntry_setHeaderNotEmptyE_ne kLTr kSCC _ (by decide),
    findEntry_setHeaderE_ne kLTr kGen _ (by decide),
    findEntry_setHeaderNotEmptyE_ne kLTr kLang _ (by decide),
    findEntry_setHeaderE_ne kLTr kCTE _ (by decide),
    findEntry_setHeaderE_ne kLTr kCT _ (by decide),
    findEntry_setHeaderE_ne kLTr kMime _ (by decide),
    findEntry_setHeaderE_ne kLTr kTeam _ (by decide)]
  have hno : hasHeaderE (setHeaderE (setHeaderE (setHeaderE h.entries kPIV
      h.Project) kPOT h.CreationDate) kPOR h.RevisionDate) kLTr = false := by
    rw [hasHeaderE, findEntry_setHeaderE_ne kLTr kPOR _ (by decide),
      findEntry_setHeaderE_ne kLTr kPOT _ (by decide),
      findEntry_setHeaderE_ne kLTr kPIV _ (by decide), he]
    rfl
  rw [updateTranslatorHeader, ltValue]
  by_cases h1 : h.TranslatorEmail = []
  · rw [if_pos h1, if_pos h1, if_pos (Or.inr hno), findEntry_setHeaderE_self]
  · rw [if_neg h1, if_neg h1]
    by_cases h2 : h.Translator = []
    · rw [if_pos h2, if_pos h2, findEntry_setHeaderE_self]
    · rw [if_neg h2, if_neg h2, findEntry_setHeaderE_self]

theorem findEntry_chain_kMime (h : HeaderData) :
    findEntry (updateDictChain h) kMime = some ⟨kMime, mimeValue⟩ := by
  simp only [updateDictChain]
  rw [findEntry_setHeaderNotEmptyE_ne kMime kBP _ (by decide),
    findEntry_updateKeywordsHeader_ne kMime (by decide),
    findEntry_setHeaderNotEmptyE_ne kMime kSCC _ (by decide),
    findEntry_setHeaderE_ne kMime kGen _ (by decide),
    findEntry_setHeaderNotEmptyE_ne kMime kLang _ (by decide),
    findEntry_setHeaderE_ne kMime kCTE _ (by decide),
    findEntry_setHeaderE_ne kMime kCT _ (by decide),
    findEntry_setHeaderE_self kMime mimeValue]

theorem findEntry_chain_kCTE (h : HeaderData) :
    findEntry (updateDictChain h) kCTE = some ⟨kCTE, cteValue⟩ := by
  simp only [updateDictChain]
  rw [findEntry_setHeaderNotEmptyE_ne kCTE kBP _ (by decide),
    findEntry_updateKeywordsHeader_ne kCTE (by decide),
    findEntry_setHeaderNotEmptyE_ne kCTE kSCC _ (by decide),
    findEntry_setHeaderE_ne kCTE kGen _ (by decide),
    findEntry_setHeaderNotEmptyE_ne kCTE kLang _ (by decide),
    findEntry_setHeaderE_self kCTE cteValue]

theorem findEntry_chain_kGen (h : HeaderData) :
    findEntry (updateDictChain h) kGen = some ⟨kGen, generatorValue⟩ := by
  simp only [updateDictChain]
  rw [findEntry_setHeaderNotEmptyE_ne kGen kBP _ (by decide),
    findEntry_updateKeywordsHeader_ne kGen (by decide),
    findEntry_setHeaderNotEmptyE_ne kGen kSCC _ (by decide),
    findEntry_setHeaderE_self kGen generatorValue]

theorem findEntry_chain_kLang (h : HeaderData) :
    findEntry (updateDictChain h) kLang
      = if h.Lang.Code = [] then none else some ⟨kLang, h.Lang.Code⟩ := by
  simp only [updateDictChain]
  rw [findEntry_setHeaderNotEmptyE_ne kLang kBP _ (by decide),
    findEntry_updateKeywordsHeader_ne kLang (by decide),
    findEntry_setHeaderNotEmptyE_ne kLang kSCC _ (by decide),
    findEntry_setHeaderE_ne kLang kGen _ (by decide), setHeaderNotEmptyE]
  by_cases hc : h.Lang.Code = []
  · rw [if_pos hc, if_pos hc, findEntry_deleteHeaderE_self]
  · rw [if_neg hc, if_neg hc, findEntry_setHeaderE_self]

theorem findEntry_chain_kSCC (h : HeaderData) :
    findEntry (updateDictChain h) kSCC
      = if h.SourceCodeCharset = [] then none
        else some ⟨kSCC, h.SourceCodeCharset⟩ := by
  simp only [updateDictChain]
  rw [findEntry_setHeaderNotEmptyE_ne kSCC kBP _ (by decide),
    findEntry_updateKeywordsHeader_ne kSCC (by decide), setHeaderNotEmptyE]
  by_cases hc : h.SourceCodeCharset = []
  · rw [if_pos hc, if_pos hc, findEntry_deleteHeaderE_self]
  · rw [if_neg hc, if_neg hc, findEntry_setHeaderE_self]

theorem findEntry_chain_kKWL (h : HeaderData) (he : h.entries = []) :
    findEntry (updateDictChain h) kKWL
      = if h.Keywords = [] then none else some ⟨kKWL, joinSC h.Keywords⟩ := by
  simp only [updateDictChain]
  rw [findEntry_setHeaderNotEmptyE_ne kKWL kBP _ (by decide),
    updateKeywordsHeader]
  by_cases hc : h.Keywords = []
  · rw [if_neg (not_not_intro hc), if_pos hc]
    rw [findEntry_setHeaderNotEmptyE_ne kKWL kSCC _ (by decide),
      findEntry_setHeaderE_ne kKWL kGen _ (by decide),
      findEntry_setHeaderNotEmptyE_ne kKWL kLang _ (by decide),
      findEntry_setHeaderE_ne kKWL kCTE _ (by decide),
      findEntry_setHeaderE_ne kKWL kCT _ (by decide),
      findEntry_setHeaderE_ne kKWL kMime _ (by decide),
      findEntry_setHeaderE_ne kKWL kTeam _ (by decide),
      findEntry_updateTranslatorHeader_ne kKWL (by decide),
      findEntry_setHeaderE_ne kKWL kPOR _ (by decide),
      findEntry_setHeaderE_ne kKWL kPOT _ (by decide),
      findEntry_setHeaderE_ne kKWL kPIV _ (by decide), he]
    rfl
  · rw [if_pos hc, if_neg hc, findEntry_setHeaderE_self]

theorem findEntry_chain_kBP (h : HeaderData) :
    findEntry (updateDictChain h) kBP
      = if h.BasePath = [] then none else some ⟨kBP, h.BasePath⟩ := by
  simp only [updateDictChain]
  rw [setHeaderNotEmptyE]
  by_cases hc : h.BasePath = []
  · rw [if_pos hc, if_pos hc, findEntry_deleteHeaderE_self]
  · rw [if_neg hc, if_neg hc, findEntry_setHeaderE_self]

theorem findEntry_chain_other (h : HeaderData) (he : h.entries = []) (K : Str)
    (hK : ∀ k2 ∈ chainKeys, K ≠ k2) :
    findEntry (updateDictChain h) K = none := by
  rw [findEntry_updateDictChain h K hK, he]
  rfl

theorem findEntry_pre_nonseries (h : HeaderData) (K : Str)
    (hKsp : hasPre spRoot K = false) :
    findEntry (updateDictPre h) K = findEntry (updateDictChain h) K := by
  rw [updateDictPre]
  rw [findEntry_emitSeries_ne K spePfx
    (fun j => (chainKey_ne_speKey K hKsp j).symm)]
  rw [findEntry_emitSeries_ne K spPfx
    (fun j => (chainKey_ne_spKey K hKsp j).symm)]
  rw [deleteSeries, findEntry_deleteSeriesAux_ne K spePfx
    (fun j => (chainKey_ne_speKey K hKsp j).symm)]
  rw [deleteSeries, findEntry_deleteSeriesAux_ne K spPfx
    (fun j => (chainKey_ne_spKey K hKsp j).symm)]

theorem chain_no_spKey (h : HeaderData) (he : h.entries = []) (i : Nat) :
    hasHeaderE (updateDictChain h) (mkIdxKey spPfx i) = false := by
  rw [hasHeaderE, findEntry_updateDictChain h _ (spKey_notin_chainKeys i), he]
  rfl

theorem chain_no_speKey (h : HeaderData) (he : h.entries = []) (i : Nat) :
    hasHeaderE (updateDictChain h) (mkIdxKey spePfx i) = false := by
  rw [hasHeaderE, findEntry_updateDictChain h _ (speKey_notin_chainKeys i), he]
  rfl

theorem findEntry_pre_spKey (h : HeaderData) (he : h.entries = []) (q : Nat) :
    findEntry (updateDictPre h) (mkIdxKey spPfx q)
      = if q < h.SearchPaths.length
        then some ⟨mkIdxKey spPfx q, h.SearchPaths.getD q []⟩ else none := by
  have hr := (regen_series_spec (updateDictChain h) h.SearchPaths
    h.SearchPathsExcluded 0 0
    (fun i => by rw [chain_no_spKey h he i]; simp)
    (fun i => by rw [chain_no_speKey h he i]; simp)).1 q
  rw [updateDictPre, findEntry_eq_filter_head, hr]
  by_cases hq : q < h.SearchPaths.length
  · rw [if_pos hq, if_pos hq]
    rfl
  · rw [if_neg hq, if_neg hq]
    rfl

theorem findEntry_pre_speKey (h : HeaderData) (he : h.entries = []) (q : Nat) :
    findEntry (updateDictPre h) (mkIdxKey spePfx q)
      = if q < h.SearchPathsExcluded.length
        then some ⟨mkIdxKey spePfx q, h.SearchPathsExcluded.getD q []⟩
        else none := by
  have hr := (regen_series_spec (updateDictChain h) h.SearchPaths
    h.SearchPathsExcluded 0 0
    (fun i => by rw [chain_no_spKey h he i]; simp)
    (fun i => by rw [chain_no_speKey h he i]; simp)).2 q
  rw [updateDictPre, findEntry_eq_filter_head, hr]
  by_cases hq : q < h.SearchPathsExcluded.length
  · rw [if_pos hq, if_pos hq]
    rfl
  · rw [if_neg hq, if_neg hq]
    rfl

theorem digitChar_props (m : Nat) :
    isWhiteChar (digitChar m) = false ∧ digitChar m ≠ ':'
      ∧ digitChar m ≠ '\n' := by
  unfold digitChar
  iterate 9 (all_goals (try split))
  all_goals decide

theorem natToStrAux_props (c : Char) :
    ∀ (fuel n : Nat), c ∈ natToStrAux fuel n →
      isWhiteChar c = false ∧ c ≠ ':' ∧ c ≠ '\n' := by
  intro fuel
  induction fuel with
  | zero => intro n h; exact absurd h (List.not_mem_nil c)
  | succ fl ih =>
    intro n h
    rw [natToStrAux] at h
    by_cases hn : n < 10
    · rw [if_pos hn] at h
      rw [List.mem_singleton.mp h]
      exact digitChar_props n
    · rw [if_neg hn] at h
      rcases List.mem_append.mp h with hm | hm
      · exact ih (n / 10) hm
      · rw [List.mem_singleton.mp hm]
        exact digitChar_props (n % 10)

theorem natToStr_ne_nil (n : Nat) : natToStr n ≠ [] := by
  rw [natToStr, natToStrAux]
  by_cases hn : n < 10
  · rw [if_pos hn]
    simp
  · rw [if_neg hn]
    simp

theorem idxKey_wire (pfx : Str) (i : Nat)
    (hcolon : ':' ∉ pfx) (hnl : '\n' ∉ pfx)
    (hhead : ∃ c r, pfx = c :: r ∧ isWhiteChar c = false) :
    mkIdxKey pfx i ≠ [] ∧ ':' ∉ mkIdxKey pfx i ∧ '\n' ∉ mkIdxKey pfx i ∧
    stripL (mkIdxKey pfx i) = mkIdxKey pfx i ∧
    stripR (mkIdxKey pfx i) = mkIdxKey pfx i := by
  obtain ⟨c, r, hp, hcw⟩ := hhead
  refine ⟨?_, ?_, ?_, ?_, ?_⟩
  · rw [mkIdxKey, hp]
    simp
  · rw [mkIdxKey]
    intro hm
    rcases List.mem_append.mp hm with hm | hm
    · exact hcolon hm
    · rw [natToStr] at hm
      exact (natToStrAux_props ':' _ _ hm).2.1 rfl
  · rw [mkIdxKey]
    intro hm
    rcases List.mem_append.mp hm with hm | hm
    · exact hnl hm
    · rw [natToStr] at hm
      exact (natToStrAux_props '\n' _ _ hm).2.2 rfl
  · rw [mkIdxKey, hp, List.cons_append]
    exact stripL_cons_nonwhite c _ hcw
  · obtain ⟨d, hd, hdw⟩ :
        ∃ d, (natToStr i).getLast? = some d ∧ isWhiteChar d = false := by
      rcases hlast : (natToStr i).getLast? with _ | d
      · rw [List.getLast?_eq_none] at hlast
        exact absurd hlast (natToStr_ne_nil i)
      · refine ⟨d, rfl, ?_⟩
        have hm : d ∈ natToStr i := List.mem_of_mem_getLast? hlast
        rw [natToStr] at hm
        exact (natToStrAux_props d _ _ hm).1
    rw [mkIdxKey]
    exact stripR_append_last pfx (natToStr i) d hd hdw

theorem contains_false_of_notmem (ds : List Char) (c : Char) (h : c ∉ ds) :
    ds.contains c = false := by
  cases hb : ds.contains c
  · rfl
  · exact absurd (List.elem_iff.mp hb) h

theorem splitOnDelims_nodelim (ds : List Char) :
    ∀ s : Str, (∀ c ∈ s, ds.contains c = false) → splitOnDelims ds s = [s] := by
  intro s
  induction s with
  | nil => intro _; rfl
  | cons c cs ih =>
    intro h
    rw [splitOnDelims,
      if_neg (by rw [h c (List.mem_cons_self c cs)]; simp),
      ih (fun x hx => h x (List.mem_cons_of_mem c hx))]

theorem splitOnDelims_sep (ds : List Char) (d : Char) (hd : ds.contains d = true) :
    ∀ (a rest : Str), (∀ c ∈ a, ds.contains c = false) →
      splitOnDelims ds (a ++ d :: rest) = a :: splitOnDelims ds rest := by
  intro a
  induction a with
  | nil =>
    intro rest _
    rw [List.nil_append, splitOnDelims, if_pos hd]
  | cons c cs ih =>
    intro rest h
    rw [List.cons_append, splitOnDelims,
      if_neg (by rw [h c (List.mem_cons_self c cs)]; simp),
      ih rest (fun x hx => h x (List.mem_cons_of_mem c hx))]

theorem tokensRE_single (ds : List Char) (s : Str) (hne : s ≠ [])
    (h : ∀ c ∈ s, ds.contains c = false) : tokensRE ds s = [s] := by
  rw [tokensRE, splitOnDelims_nodelim ds s h]
  rw [if_neg (by simp [hne])]

theorem splitOnDelims_joinSC :
    ∀ KWs : List Str, KWs ≠ [] → (∀ k ∈ KWs, ';' ∉ k) →
      splitOnDelims [';'] (joinSC KWs) = KWs := by
  intro KWs
  induction KWs with
  | nil => intro h _; exact absurd rfl h
  | cons k ks ih =>
    intro _ h
    rcases ks with _ | ⟨k2, ks2⟩
    · rw [joinSC]
      exact splitOnDelims_nodelim [';'] k (fun c hc =>
        contains_false_of_notmem [';'] c (by
          simp only [List.mem_singleton]
          exact fun hcd => h k (List.mem_cons_self _ _) (hcd ▸ hc)))
    · rw [joinSC, splitOnDelims_sep [';'] ';' (by decide) k
        (joinSC (k2 :: ks2))
        (fun c hc => contains_false_of_notmem [';'] c (by
          simp only [List.mem_singleton]
          exact fun hcd => h k (List.mem_cons_self _ _) (hcd ▸ hc))),
        ih (by simp) (fun x hx => h x (List.mem_cons_of_mem k hx))]
      exact fun hc => List.noConfusion hc

theorem tokensRE_joinSC (KWs : List Str) (hne : KWs ≠ [])
    (hnempty : ∀ k ∈ KWs, k ≠ []) (hsc : ∀ k ∈ KWs, ';' ∉ k) :
    tokensRE [';'] (joinSC KWs) = KWs := by
  rw [tokensRE, splitOnDelims_joinSC KWs hne hsc]
  rw [if_neg (fun hc : KWs.getLast? = some [] =>
    hnempty [] (List.mem_of_mem_getLast? hc) rfl)]

theorem joinSC_ne_nil (KWs : List Str) (hne : KWs ≠ [])
    (h : ∀ k ∈ KWs, k ≠ []) : joinSC KWs ≠ [] := by
  rcases KWs with _ | ⟨k, ks⟩
  · exact absurd rfl hne
  · rcases ks with _ | ⟨k2, ks2⟩
    · rw [joinSC]
      exact h k (List.mem_cons_self _ _)
    · rw [joinSC]
      · intro hc
        have hlen := congrArg List.length hc
        rw [List.length_append, List.length_cons, List.length_nil] at hlen
        omega
      · exact fun hc => List.noConfusion hc

theorem collectSeriesAux_drop (es : List Entry) (pfx : Str) (l : List Str)
    (hfind : ∀ q : Nat, findEntry es (mkIdxKey pfx q)
      = if q < l.length then some ⟨mkIdxKey pfx q, l.getD q []⟩ else none)
    (hvals : ∀ p ∈ l, fixBrokenSearchPathValue p = p ∧ p ≠ []) :
    ∀ (fuel i : Nat), l.length ≤ i + fuel →
      collectSeriesAux es pfx fuel i = l.drop i := by
  intro fuel
  induction fuel with
  | zero =>
    intro i hfuel
    rw [collectSeriesAux, List.drop_eq_nil_of_le (by omega)]
  | succ fl ih =>
    intro i hfuel
    rw [collectSeriesAux]
    by_cases hi : i < l.length
    · rw [if_pos (by rw [hasHeaderE, hfind i, if_pos hi]; rfl)]
      have hget : getHeaderE es (mkIdxKey pfx i) = l.getD i [] := by
        rw [getHeaderE, hfind i, if_pos hi]
      have hmem : l.getD i [] ∈ l := by
        rw [List.getD_eq_get l [] hi]
        exact List.get_mem l i hi
      obtain ⟨hfixed, hnz⟩ := hvals _ hmem
      rw [hget, hfixed, if_neg hnz, ih (i + 1) (by omega),
        List.singleton_append, List.drop_eq_get_cons hi,
        List.getD_eq_get l [] hi]
    · rw [if_neg (by rw [hasHeaderE, hfind i, if_neg hi]; simp),
        List.drop_eq_nil_of_le (by omega)]

theorem collectSeries_eq (es : List Entry) (pfx : Str) (l : List Str)
    (hfind : ∀ q : Nat, findEntry es (mkIdxKey pfx q)
      = if q < l.length then some ⟨mkIdxKey pfx q, l.getD q []⟩ else none)
    (hvals : ∀ p ∈ l, fixBrokenSearchPathValue p = p ∧ p ≠ []) :
    collectSeries es pfx = l := by
  have hlen : l.length ≤ es.length := by
    apply contig_le_length pfx es
    intro j
    rw [hasHeaderE, hfind j]
    by_cases hj : j < l.length
    · rw [if_pos hj]
      simp [hj]
    · rw [if_neg hj]
      simp [hj]
  rw [collectSeries,
    collectSeriesAux_drop es pfx l hfind hvals (es.length + 1) 0 (by omega),
    List.drop_zero]

theorem findSubIdx_cons_neg (pat : Str) (c : Char) (cs : Str)
    (h : hasPre pat (c :: cs) = false) :
    findSubIdx pat (c :: cs) = (findSubIdx pat cs).map (· + 1) := by
  rw [findSubIdx, if_neg (by simp [h])]

theorem findSubIdx_shift (p0 : Char) (pr : Str) :
    ∀ (a b : Str), p0 ∉ a →
      findSubIdx (p0 :: pr) (a ++ b)
        = (findSubIdx (p0 :: pr) b).map (· + a.length) := by
  intro a
  induction a with
  | nil =>
    intro b _
    rw [List.nil_append]
    cases h : findSubIdx (p0 :: pr) b
    · rfl
    · simp
  | cons c cs ih =>
    intro b hp
    have hc : p0 ≠ c := fun hcc => hp (hcc ▸ List.mem_cons_self c cs)
    have hpre : hasPre (p0 :: pr) (c :: (cs ++ b)) = false := by
      rw [hasPre, show (p0 == c) = false by simp [hc]]
      rfl
    rw [List.cons_append, findSubIdx_cons_neg _ _ _ hpre,
      ih b (fun hm => hp (List.mem_cons_of_mem c hm))]
    cases h : findSubIdx (p0 :: pr) b
    · rfl
    · simp only [Option.map_some', Option.some.injEq, List.length_cons]
      omega

theorem findSubIdx_charset (CS : Str) :
    findSubIdx charsetPat (ctPre ++ CS) = some 10 := by
  rw [show ctPre ++ CS = "text/plain".toList ++ (charsetPat ++ CS) from rfl,
    show charsetPat = ';' :: " charset=".toList from rfl,
    findSubIdx_shift ';' _ _ _ (by decide),
    show (';' :: " charset=".toList) ++ CS
      = ';' :: (" charset=".toList ++ CS) from rfl,
    findSubIdx, if_pos (show hasPre (';' :: " charset=".toList)
      (';' :: (" charset=".toList ++ CS)) = true from
      hasPre_append_self (';' :: " charset=".toList) CS)]
  rfl

theorem mem_chain_shapes (h : HeaderData) (he : h.entries = []) (e : Entry)
    (hm : e ∈ updateDictChain h) :
    e = ⟨kPIV, h.Project⟩ ∨ e = ⟨kPOT, h.CreationDate⟩ ∨
    e = ⟨kPOR, h.RevisionDate⟩ ∨
    e = ⟨kLTr, ltValue h.Translator h.TranslatorEmail⟩ ∨
    e = ⟨kTeam, h.LanguageTeam⟩ ∨ e = ⟨kMime, mimeValue⟩ ∨
    e = ⟨kCT, ctPre ++ h.Charset⟩ ∨ e = ⟨kCTE, cteValue⟩ ∨
    e = ⟨kLang, h.Lang.Code⟩ ∨ e = ⟨kGen, generatorValue⟩ ∨
    e = ⟨kSCC, h.SourceCodeCharset⟩ ∨ e = ⟨kKWL, joinSC h.Keywords⟩ ∨
    e = ⟨kBP, h.BasePath⟩ := by
  simp only [updateDictChain] at hm
  rcases mem_setHeaderNotEmptyE _ _ _ _ hm with hm | hm
  · rcases mem_updateKeywordsHeader _ _ _ hm with hm | hm
    · rcases mem_setHeaderNotEmptyE _ _ _ _ hm with hm | hm
      · rcases mem_setHeaderE _ _ _ _ hm with hm | hm
        · rcases mem_setHeaderNotEmptyE _ _ _ _ hm with hm | hm
          · rcases mem_setHeaderE _ _ _ _ hm with hm | hm
            · rcases mem_setHeaderE _ _ _ _ hm with hm | hm
              · rcases mem_setHeaderE _ _ _ _ hm with hm | hm
                · rcases mem_setHeaderE _ _ _ _ hm with hm | hm
                  · rcases mem_updateTranslatorHeader _ _ _ _ hm with hm | hm
                    · rcases mem_setHeaderE _ _ _ _ hm with hm | hm
                      · rcases mem_setHeaderE _ _ _ _ hm with hm | hm
                        · rcases mem_setHeaderE _ _ _ _ hm with hm | hm
                          · rw [he] at hm
                            exact absurd hm (List.not_mem_nil e)
                          · tauto
                        · tauto
                      · tauto
                    · tauto
                  · tauto
                · tauto
              · tauto
            · tauto
          · tauto
        · tauto
      · tauto
    · tauto
  · tauto

theorem mem_pre_shapes (h : HeaderData) (he : h.entries = []) (e : Entry)
    (hm : e ∈ updateDictPre h) :
    e = ⟨kPIV, h.Project⟩ ∨ e = ⟨kPOT, h.CreationDate⟩ ∨
    e = ⟨kPOR, h.RevisionDate⟩ ∨
    e = ⟨kLTr, ltValue h.Translator h.TranslatorEmail⟩ ∨
    e = ⟨kTeam, h.LanguageTeam⟩ ∨ e = ⟨kMime, mimeValue⟩ ∨
    e = ⟨kCT, ctPre ++ h.Charset⟩ ∨ e = ⟨kCTE, cteValue⟩ ∨
    e = ⟨kLang, h.Lang.Code⟩ ∨ e = ⟨kGen, generatorValue⟩ ∨
    e = ⟨kSCC, h.SourceCodeCharset⟩ ∨ e = ⟨kKWL, joinSC h.Keywords⟩ ∨
    e = ⟨kBP, h.BasePath⟩ ∨
    (∃ j v, v ∈ h.SearchPaths ∧ e = ⟨mkIdxKey spPfx j, v⟩) ∨
    (∃ j v, v ∈ h.SearchPathsExcluded ∧ e = ⟨mkIdxKey spePfx j, v⟩) := by
  rw [updateDictPre] at hm
  rcases mem_emitSeries spePfx e _ _ _ hm with hm | hse
  · rcases mem_emitSeries spPfx e _ _ _ hm with hm | hsp
    · rw [deleteSeries] at hm
      have hm2 := mem_deleteSeriesAux spePfx e _ _ _ hm
      rw [deleteSeries] at hm2
      have hm3 := mem_deleteSeriesAux spPfx e _ _ _ hm2
      have hc := mem_chain_shapes h he e hm3
      tauto
    · exact Or.inr (Or.inr (Or.inr (Or.inr (Or.inr (Or.inr (Or.inr (Or.inr
        (Or.inr (Or.inr (Or.inr (Or.inr (Or.inr (Or.inl hsp)))))))))))))
  · exact Or.inr (Or.inr (Or.inr (Or.inr (Or.inr (Or.inr (Or.inr (Or.inr
      (Or.inr (Or.inr (Or.inr (Or.inr (Or.inr (Or.inr hse)))))))))))))

theorem entryWire_of_const_key (k v : Str) (hk1 : k ≠ []) (hk2 : ':' ∉ k)
    (hk3 : '\n' ∉ k) (hk4 : stripL k = k) (hk5 : stripR k = k)
    (hv : valOK v) : entryWire ⟨k, v⟩ := by
  obtain ⟨hv1, hv2, hv3⟩ := hv
  exact ⟨hk1, hk2, hk3, hk4, hk5, hv1, hv2, hv3⟩

theorem entryWire_idx (pfx : Str) (j : Nat) (v : Str)
    (hcolon : ':' ∉ pfx) (hnl : '\n' ∉ pfx)
    (hhead : ∃ c r, pfx = c :: r ∧ isWhiteChar c = false)
    (hv : valOK v) : entryWire ⟨mkIdxKey pfx j, v⟩ := by
  obtain ⟨h1, h2, h3, h4, h5⟩ := idxKey_wire pfx j hcolon hnl hhead
  obtain ⟨hv1, hv2, hv3⟩ := hv
  exact ⟨h1, h2, h3, h4, h5, hv1, hv2, hv3⟩

theorem valOK_ct (CS : Str) (h : valOK CS) : valOK (ctPre ++ CS) := by
  obtain ⟨h1, h2, h3⟩ := h
  refine ⟨?_, ?_, ?_⟩
  · intro hm
    rcases List.mem_append.mp hm with hm | hm
    · exact absurd hm (by decide)
    · exact h1 hm
  · rw [show ctPre ++ CS = 't' :: ("ext/plain; charset=".toList ++ CS) from rfl]
    exact stripL_cons_nonwhite _ _ (by decide)
  · by_cases hcs : CS = []
    · subst hcs
      decide
    · obtain ⟨c, hc, hcw⟩ := lastNonwhite_of_stripR CS h3 hcs
      exact stripR_append_last ctPre CS c hc hcw

theorem valOK_ltValue (T TE : Str) (hT : valOK T) (hTE : valOK TE)
    (hTne : TE ≠ [] → T ≠ []) : valOK (ltValue T TE) := by
  rw [ltValue]
  by_cases h1 : TE = []
  · rw [if_pos h1]
    exact hT
  · rw [if_neg h1]
    by_cases h2 : T = []
    · rw [if_pos h2]
      exact hTE
    · rw [if_neg h2]
      refine ⟨?_, ?_, ?_⟩
      · intro hm
        simp only [List.mem_append] at hm
        rcases hm with ((hm | hm) | hm) | hm
        · exact hT.1 hm
        · exact absurd hm (by decide)
        · exact hTE.1 hm
        · exact absurd hm (by decide)
      · obtain ⟨c, r, hTc, hcw⟩ := headNonwhite_of_stripL T hT.2.1 h2
        rw [hTc]
        exact stripL_cons_nonwhite c _ hcw
      · have hlast : (ltOpen ++ (TE ++ ltClose)).getLast? = some '>' := by
          rw [List.getLast?_append_of_ne_nil ltOpen (by simp [ltClose]),
            List.getLast?_append_of_ne_nil TE (by decide)]
          rfl
        rw [List.append_assoc, List.append_assoc]
        exact stripR_append_last T _ '>' hlast (by decide)

theorem valOK_joinSC (KWs : List Str)
    (h : ∀ k ∈ KWs, valOK k ∧ k ≠ []) : valOK (joinSC KWs) := by
  induction KWs with
  | nil => exact ⟨by decide, rfl, rfl⟩
  | cons k ks ih =>
    rcases ks with _ | ⟨k2, ks2⟩
    · rw [joinSC]
      exact (h k (List.mem_cons_self _ _)).1
    · obtain ⟨⟨h1, h2, h3⟩, hne⟩ := h k (List.mem_cons_self _ _)
      have hih := ih (fun x hx => h x (List.mem_cons_of_mem k hx))
      have hjne : joinSC (k2 :: ks2) ≠ [] :=
        joinSC_ne_nil _ (by simp)
          (fun x hx => (h x (List.mem_cons_of_mem k hx)).2)
      rw [joinSC]
      · refine ⟨?_, ?_, ?_⟩
        · intro hm
          rcases List.mem_append.mp hm with hm | hm
          · exact h1 hm
          · rcases List.mem_cons.mp hm with hm | hm
            · exact absurd hm (by decide)
            · exact hih.1 hm
        · obtain ⟨c, r, hkc, hcw⟩ := headNonwhite_of_stripL k h2 hne
          rw [hkc]
          exact stripL_cons_nonwhite c _ hcw
        · obtain ⟨c, hc, hcw⟩ := lastNonwhite_of_stripR _ hih.2.2 hjne
          have hlast : (';' :: joinSC (k2 :: ks2)).getLast? = some c := by
            rw [show ';' :: joinSC (k2 :: ks2)
                = [';'] ++ joinSC (k2 :: ks2) from rfl,
              List.getLast?_append_of_ne_nil [';'] hjne]
            exact hc
          exact stripR_append_last k _ c hlast hcw
      · exact fun hc => List.noConfusion hc

theorem getHeaderE_some (es : List Entry) (k v : Str)
    (h : findEntry es k = some ⟨k, v⟩) : getHeaderE es k = v := by
  rw [getHeaderE, h]

theorem getHeaderE_none (es : List Entry) (k : Str)
    (h : findEntry es k = none) : getHeaderE es k = [] := by
  rw [getHeaderE, h]

theorem contains_pair_false (a b : Char) (s : Str) (h1 : a ∉ s) (h2 : b ∉ s) :
    ∀ c ∈ s, ([a, b] : List Char).contains c = false := by
  intro c hc
  apply contains_false_of_notmem
  simp only [List.mem_cons, List.not_mem_nil, or_false]
  rintro (rfl | rfl)
  · exact h1 hc
  · exact h2 hc

theorem tokensRE_ltFull (T TE : Str) (hTlt : '<' ∉ T) (hTgt : '>' ∉ T)
    (hTElt : '<' ∉ TE) (hTEgt : '>' ∉ TE) :
    tokensRE ['<', '>'] (T ++ ltOpen ++ TE ++ ltClose)
      = [T ++ [' '], TE] := by
  have hTfree : ∀ c ∈ T ++ [' '], (['<', '>'] : List Char).contains c = false := by
    intro c hc
    rcases List.mem_append.mp hc with hc | hc
    · exact contains_pair_false '<' '>' T hTlt hTgt c hc
    · rw [List.mem_singleton.mp hc]
      decide
  have hsh : T ++ ltOpen ++ TE ++ ltClose
      = (T ++ [' ']) ++ '<' :: (TE ++ ['>']) := by
    rw [List.append_assoc, List.append_assoc,
      show ltOpen ++ (TE ++ ltClose) = [' '] ++ ('<' :: (TE ++ ['>'])) from rfl,
      ← List.append_assoc]
  rw [tokensRE, hsh, splitOnDelims_sep ['<', '>'] '<' (by decide) (T ++ [' '])
    (TE ++ ['>']) hTfree,
    show TE ++ ['>'] = TE ++ '>' :: ([] : Str) from rfl,
    splitOnDelims_sep ['<', '>'] '>' (by decide) TE []
      (contains_pair_false '<' '>' TE hTElt hTEgt),
    show splitOnDelims ['<', '>'] [] = [[]] from rfl,
    if_pos (show ((T ++ [' ']) :: TE :: [[]] : List Str).getLast?
      = some [] from rfl)]
  rfl

theorem parseDict_fields (h : HeaderData) (S : List Entry)
    (hfPIV : findEntry S kPIV = some ⟨kPIV, h.Project⟩)
    (hfPOT : findEntry S kPOT = some ⟨kPOT, h.CreationDate⟩)
    (hfPOR : findEntry S kPOR = some ⟨kPOR, h.RevisionDate⟩)
    (hfLTr : findEntry S kLTr
      = some ⟨kLTr, ltValue h.Translator h.TranslatorEmail⟩)
    (hfTeam : findEntry S kTeam = some ⟨kTeam, h.LanguageTeam⟩)
    (hfCT : findEntry S kCT = some ⟨kCT, ctPre ++ h.Charset⟩)
    (hfLang : findEntry S kLang
      = if h.Lang.Code = [] then none else some ⟨kLang, h.Lang.Code⟩)
    (hfXL : findEntry S kXLang = none)
    (hfXPL : findEntry S kXPL = none)
    (hfXPC : findEntry S kXPC = none)
    (hfSCC : findEntry S kSCC = if h.SourceCodeCharset = [] then none
      else some ⟨kSCC, h.SourceCodeCharset⟩)
    (hfKWL : findEntry S kKWL = if h.Keywords = [] then none
      else some ⟨kKWL, joinSC h.Keywords⟩)
    (hfKWold : findEntry S kKWold = none)
    (hfBP : findEntry S kBP = if h.BasePath = [] then none
      else some ⟨kBP, h.BasePath⟩)
    (hfSP : ∀ q : Nat, findEntry S (mkIdxKey spPfx q)
      = if q < h.SearchPaths.length
        then some ⟨mkIdxKey spPfx q, h.SearchPaths.getD q []⟩ else none)
    (hfSPE : ∀ q : Nat, findEntry S (mkIdxKey spePfx q)
      = if q < h.SearchPathsExcluded.length
        then some ⟨mkIdxKey spePfx q, h.SearchPathsExcluded.getD q []⟩
        else none)
    (hT : valOK h.Translator) (hTlt : '<' ∉ h.Translator)
    (hTgt : '>' ∉ h.Translator)
    (hTElt : '<' ∉ h.TranslatorEmail) (hTEgt : '>' ∉ h.TranslatorEmail)
    (hTne : h.TranslatorEmail ≠ [] → h.Translator ≠ [])
    (hCS : valOK h.Charset)
    (hBPf : fixBrokenSearchPathValue h.BasePath = h.BasePath)
    (hSPv : ∀ p ∈ h.SearchPaths, fixBrokenSearchPathValue p = p ∧ p ≠ [])
    (hSPEv : ∀ p ∈ h.SearchPathsExcluded,
      fixBrokenSearchPathValue p = p ∧ p ≠ [])
    (hKWv : ∀ k ∈ h.Keywords, k ≠ [] ∧ ';' ∉ k) :
    HeaderData.ParseDict { cleanHeader with entries := S }
      = { entries := deleteHeaderE (deleteHeaderE S kXPL) kXPC,
          Project := h.Project, CreationDate := h.CreationDate,
          RevisionDate := h.RevisionDate, Translator := h.Translator,
          TranslatorEmail := h.TranslatorEmail,
          LanguageTeam := h.LanguageTeam, Charset := h.Charset,
          SourceCodeCharset := h.SourceCodeCharset, Lang := h.Lang,
          BasePath := h.BasePath, SearchPaths := h.SearchPaths,
          SearchPathsExcluded := h.SearchPathsExcluded,
          Keywords := h.Keywords } := by
  have hes' : ∀ K : Str, K ≠ kXPL → K ≠ kXPC →
      findEntry (deleteHeaderE (deleteHeaderE S kXPL) kXPC) K
        = findEntry S K := by
    intro K h1 h2
    rw [findEntry_deleteHeaderE_ne K kXPC h2,
      findEntry_deleteHeaderE_ne K kXPL h1]
  have hdummy : getHeaderE S kLTr = ltValue h.Translator h.TranslatorEmail :=
    getHeaderE_some _ _ _ hfLTr
  have hctype : getHeaderE S kCT = ctPre ++ h.Charset :=
    getHeaderE_some _ _ _ hfCT
  have hkwlist : getHeaderE (deleteHeaderE (deleteHeaderE S kXPL) kXPC) kKWL
      = if h.Keywords = [] then [] else joinSC h.Keywords := by
    by_cases hk : h.Keywords = []
    · rw [if_pos hk]
      exact getHeaderE_none _ _
        (by rw [hes' kKWL (by decide) (by decide), hfKWL, if_pos hk])
    · rw [if_neg hk]
      exact getHeaderE_some _ _ _
        (by rw [hes' kKWL (by decide) (by decide), hfKWL, if_neg hk])
  have hkwold :
      getHeaderE (deleteHeaderE (deleteHeaderE S kXPL) kXPC) kKWold = [] :=
    getHeaderE_none _ _ (by rw [hes' kKWold (by decide) (by decide), hfKWold])
  have hcollectSP :
      collectSeries (deleteHeaderE (deleteHeaderE S kXPL) kXPC) spPfx
        = h.SearchPaths := by
    apply collectSeries_eq
    · intro q
      rw [hes' _ (chainKey_ne_spKey kXPL (by decide) q)
        (chainKey_ne_spKey kXPC (by decide) q)]
      exact hfSP q
    · exact hSPv
  have hcollectSPE :
      collectSeries (deleteHeaderE (deleteHeaderE S kXPL) kXPC) spePfx
        = h.SearchPathsExcluded := by
    apply collectSeries_eq
    · intro q
      rw [hes' _ (chainKey_ne_speKey kXPL (by decide) q)
        (chainKey_ne_speKey kXPC (by decide) q)]
      exact hfSPE q
    · exact hSPEv
  simp only [HeaderData.ParseDict, cleanHeader, HeaderData.mk.injEq]
  refine ⟨?_, ?_, ?_, ?_, ?_, ?_, ?_, ?_, ?_, ?_, ?_, ?_, ?_, ?_⟩
  · -- entries
    rw [hkwlist]
    by_cases hk : h.Keywords = []
    · rw [if_pos hk, if_neg (by simp), hkwold, if_neg (by simp)]
    · rw [if_neg hk,
        if_pos (joinSC_ne_nil _ hk (fun x hx => (hKWv x hx).1))]
  · -- Project
    exact getHeaderE_some _ _ _ hfPIV
  · -- CreationDate
    exact getHeaderE_some _ _ _ hfPOT
  · -- RevisionDate
    exact getHeaderE_some _ _ _ hfPOR
  · -- Translator
    rw [hdummy]
    by_cases h1 : h.TranslatorEmail = []
    · by_cases h2 : h.Translator = []
      · rw [show ltValue h.Translator h.TranslatorEmail = [] by
          rw [ltValue, if_pos h1, h2], if_pos rfl]
        exact h2.symm
      · rw [show ltValue h.Translator h.TranslatorEmail = h.Translator by
          rw [ltValue, if_pos h1], if_neg h2,
          tokensRE_single ['<', '>'] h.Translator h2
            (contains_pair_false '<' '>' h.Translator hTlt hTgt)]
    · have h2 := hTne h1
      rw [show ltValue h.Translator h.TranslatorEmail
          = h.Translator ++ ltOpen ++ h.TranslatorEmail ++ ltClose by
          rw [ltValue, if_neg h1, if_neg h2],
        if_neg (by simp [ltClose]),
        tokensRE_ltFull h.Translator h.TranslatorEmail hTlt hTgt hTElt hTEgt]
      show stripR (h.Translator ++ [' ']) = h.Translator
      rw [stripR_append_space, hT.2.2]
  · -- TranslatorEmail
    rw [hdummy]
    by_cases h1 : h.TranslatorEmail = []
    · by_cases h2 : h.Translator = []
      · rw [show ltValue h.Translator h.TranslatorEmail = [] by
          rw [ltValue, if_pos h1, h2], if_pos rfl]
        exact h1.symm
      · rw [show ltValue h.Translator h.TranslatorEmail = h.Translator by
          rw [ltValue, if_pos h1], if_neg h2,
          tokensRE_single ['<', '>'] h.Translator h2
            (contains_pair_false '<' '>' h.Translator hTlt hTgt)]
        exact h1.symm
    · have h2 := hTne h1
      rw [show ltValue h.Translator h.TranslatorEmail
          = h.Translator ++ ltOpen ++ h.TranslatorEmail ++ ltClose by
          rw [ltValue, if_neg h1, if_neg h2],
        if_neg (by simp [ltClose]),
        tokensRE_ltFull h.Translator h.TranslatorEmail hTlt hTgt hTElt hTEgt]
  · -- LanguageTeam
    exact getHeaderE_some _ _ _ hfTeam
  · -- Charset
    rw [hctype, findSubIdx_charset]
    show stripBoth ((ctPre ++ h.Charset).drop (10 + 10)) = h.Charset
    rw [List.drop_left' (by decide)]
    exact stripBoth_id _ hCS.2.1 hCS.2.2
  · -- SourceCodeCharset
    by_cases hscc : h.SourceCodeCharset = []
    · rw [getHeaderE_none _ _
        (by rw [hes' kSCC (by decide) (by decide), hfSCC, if_pos hscc])]
      exact hscc.symm
    · exact getHeaderE_some _ _ _
        (by rw [hes' kSCC (by decide) (by decide), hfSCC, if_neg hscc])
  · -- Lang
    by_cases hL : h.Lang.Code = []
    · rw [getHeaderE_none _ _ (by rw [hfLang, if_pos hL]),
        getHeaderE_none _ _ hfXL, getHeaderE_none _ _ hfXPL]
      show Language.invalid = h.Lang
      exact congrArg Language.mk hL.symm
    · rw [getHeaderE_some _ _ _ (by rw [hfLang, if_neg hL]), if_pos hL]
      have hvalgen : ∀ s : Str, s ≠ [] → (Language.TryParse s).IsValid = true := by
        intro s hs
        cases s
        · exact absurd rfl hs
        · rfl
      have hval := hvalgen h.Lang.Code hL
      have hno : ¬((Language.TryParse h.Lang.Code).IsValid = false) := by
        rw [hval]
        simp
      rw [if_neg hno, if_neg hno]
      rfl
  · -- BasePath
    by_cases hbp : h.BasePath = []
    · rw [getHeaderE_none _ _
        (by rw [hes' kBP (by decide) (by decide), hfBP, if_pos hbp]), hbp]
      rfl
    · rw [getHeaderE_some _ _ _
        (by rw [hes' kBP (by decide) (by decide), hfBP, if_neg hbp]), hBPf]
  · -- SearchPaths
    rw [hkwlist]
    by_cases hk : h.Keywords = []
    · rw [if_pos hk, if_neg (by simp), hkwold, if_neg (by simp)]
      exact hcollectSP
    · rw [if_neg hk,
        if_pos (joinSC_ne_nil _ hk (fun x hx => (hKWv x hx).1))]
      exact hcollectSP
  · -- SearchPathsExcluded
    rw [hkwlist]
    by_cases hk : h.Keywords = []
    · rw [if_pos hk, if_neg (by simp), hkwold, if_neg (by simp)]
      exact hcollectSPE
    · rw [if_neg hk,
        if_pos (joinSC_ne_nil _ hk (fun x hx => (hKWv x hx).1))]
      exact hcollectSPE
  · -- Keywords
    rw [hkwlist]
    by_cases hk : h.Keywords = []
    · rw [if_pos hk, if_neg (by simp), hkwold, if_neg (by simp)]
      exact hk.symm
    · rw [if_neg hk,
        if_pos (joinSC_ne_nil _ hk (fun x hx => (hKWv x hx).1))]
      exact tokensRE_joinSC h.Keywords hk (fun x hx => (hKWv x hx).1)
        (fun x hx => (hKWv x hx).2)

/-- C1 counterexample: composing ToString directly with FromString, as the
claim states it (with the real newline as the line delimiter and without the
PO-file unescaping step the reader performs in between), fails to reproduce
even a plain one-character project id: the serialized line carries a literal
backslash-n pair that comes back as part of the value. -/
theorem C1_counterexample :
    (cleanHeader.FromString (hRound.ToString ['\n'])).Project
      ≠ hRound.Project := by
  decide

/-- C1 (amended): the round trip holds through the C-string unescaping the PO
reader applies to the header text before FromString sees it. For a header
built over an empty raw store from wire-safe field values — values free of
newlines and surrounding whitespace, a bracket-free translator name/email
pair (with a name present whenever an email is), a base path fixed by
FixBrokenSearchPathValue, non-empty fixed search paths, and non-empty
semicolon-free keywords — serializing with ToString (which runs UpdateDict),
unescaping, and feeding the text to FromString (which runs ParseDict)
reproduces every first-class field value exactly; the raw entry store comes
back in canonical order with only the legacy X-Poedit-Language /
X-Poedit-Country keys removed. -/
theorem C1_header_roundtrip_amended
    (P CD RD T TE LT CS SCC L BP : Str) (SPs SPEs KWs : List Str)
    (hP : valOK P) (hCD : valOK CD) (hRD : valOK RD)
    (hT : valOK T) (hTlt : '<' ∉ T) (hTgt : '>' ∉ T)
    (hTE : valOK TE) (hTElt : '<' ∉ TE) (hTEgt : '>' ∉ TE)
    (hTne : TE ≠ [] → T ≠ [])
    (hLT : valOK LT) (hCS : valOK CS) (hSCC : valOK SCC) (hL : valOK L)
    (hBP : valOK BP) (hBPf : fixBrokenSearchPathValue BP = BP)
    (hSPs : ∀ p ∈ SPs, valOK p ∧ p ≠ [] ∧ fixBrokenSearchPathValue p = p)
    (hSPEs : ∀ p ∈ SPEs, valOK p ∧ p ≠ [] ∧ fixBrokenSearchPathValue p = p)
    (hKWs : ∀ k ∈ KWs, valOK k ∧ k ≠ [] ∧ ';' ∉ k) :
    HeaderData.FromString cleanHeader (unescapeCString
        (HeaderData.ToString (mkHeader P CD RD T TE LT CS SCC L BP SPs SPEs KWs) []))
      = { entries := deleteHeaderE (deleteHeaderE
            (classJoin (updateDictPre (mkHeader P CD RD T TE LT CS SCC L BP SPs SPEs KWs))) kXPL) kXPC,
          Project := P, CreationDate := CD, RevisionDate := RD,
          Translator := T, TranslatorEmail := TE, LanguageTeam := LT,
          Charset := CS, SourceCodeCharset := SCC, Lang := ⟨L⟩,
          BasePath := BP, SearchPaths := SPs, SearchPathsExcluded := SPEs,
          Keywords := KWs } := by
  have hsorted : (HeaderData.UpdateDict (mkHeader P CD RD T TE LT CS SCC L BP SPs SPEs KWs)).entries
      = classJoin (updateDictPre (mkHeader P CD RD T TE LT CS SCC L BP SPs SPEs KWs)) := by
    rw [HeaderData.UpdateDict]
    show normalizeHeaderOrder (updateDictPre (mkHeader P CD RD T TE LT CS SCC L BP SPs SPEs KWs))
      = classJoin (updateDictPre (mkHeader P CD RD T TE LT CS SCC L BP SPs SPEs KWs))
    exact sort_eq_classes _
  have hwire : ∀ e ∈ classJoin (updateDictPre (mkHeader P CD RD T TE LT CS SCC L BP SPs SPEs KWs)), entryWire e := by
    intro e hm
    rw [classJoin] at hm
    have hm2 := mem_joinClasses_sub _ 13 0 e hm
    rcases mem_pre_shapes (mkHeader P CD RD T TE LT CS SCC L BP SPs SPEs KWs) rfl e hm2 with
      rfl | rfl | rfl | rfl | rfl | rfl | rfl | rfl | rfl | rfl | rfl | rfl |
      rfl | ⟨j, v, hv, rfl⟩ | ⟨j, v, hv, rfl⟩
    · exact entryWire_of_const_key kPIV P (by decide) (by decide) (by decide)
        (by decide) (by decide) hP
    · exact entryWire_of_const_key kPOT CD (by decide) (by decide) (by decide)
        (by decide) (by decide) hCD
    · exact entryWire_of_const_key kPOR RD (by decide) (by decide) (by decide)
        (by decide) (by decide) hRD
    · exact entryWire_of_const_key kLTr (ltValue T TE) (by decide) (by decide)
        (by decide) (by decide) (by decide) (valOK_ltValue T TE hT hTE hTne)
    · exact entryWire_of_const_key kTeam LT (by decide) (by decide) (by decide)
        (by decide) (by decide) hLT
    · exact entryWire_of_const_key kMime mimeValue (by decide) (by decide)
        (by decide) (by decide) (by decide) (by decide)
    · exact entryWire_of_const_key kCT (ctPre ++ CS) (by decide) (by decide)
        (by decide) (by decide) (by decide) (valOK_ct CS hCS)
    · exact entryWire_of_const_key kCTE cteValue (by decide) (by decide)
        (by decide) (by decide) (by decide) (by decide)
    · exact entryWire_of_const_key kLang L (by decide) (by decide) (by decide)
        (by decide) (by decide) hL
    · exact entryWire_of_const_key kGen generatorValue (by decide) (by decide)
        (by decide) (by decide) (by decide) (by decide)
    · exact entryWire_of_const_key kSCC SCC (by decide) (by decide) (by decide)
        (by decide) (by decide) hSCC
    · exact entryWire_of_const_key kKWL (joinSC KWs) (by decide) (by decide)
        (by decide) (by decide) (by decide)
        (valOK_joinSC KWs (fun k hk => ⟨(hKWs k hk).1, (hKWs k hk).2.1⟩))
    · exact entryWire_of_const_key kBP BP (by decide) (by decide) (by decide)
        (by decide) (by decide) hBP
    · exact entryWire_idx spPfx j v (by decide) (by decide)
        ⟨'X', "-Poedit-SearchPath-".toList, rfl, by decide⟩ (hSPs v hv).1
    · exact entryWire_idx spePfx j v (by decide) (by decide)
        ⟨'X', "-Poedit-SearchPathExcluded-".toList, rfl, by decide⟩
        (hSPEs v hv).1
  have hraw : fromStringRaw (unescapeCString
      (HeaderData.ToString (mkHeader P CD RD T TE LT CS SCC L BP SPs SPEs KWs) []))
      = classJoin (updateDictPre (mkHeader P CD RD T TE LT CS SCC L BP SPs SPEs KWs)) := by
    rw [HeaderData.ToString, hsorted]
    exact fromString_roundtrip _ hwire
  rw [HeaderData.FromString, hraw]
  have hS : ∀ K : Str,
      findEntry (classJoin (updateDictPre (mkHeader P CD RD T TE LT CS SCC L BP SPs SPEs KWs))) K
        = findEntry (updateDictPre (mkHeader P CD RD T TE LT CS SCC L BP SPs SPEs KWs)) K :=
    fun K => findEntry_classJoin _ K
  have hfPIV : findEntry (classJoin (updateDictPre (mkHeader P CD RD T TE LT CS SCC L BP SPs SPEs KWs))) kPIV
      = some ⟨kPIV, P⟩ := by
    rw [hS kPIV, findEntry_pre_nonseries (mkHeader P CD RD T TE LT CS SCC L BP SPs SPEs KWs) kPIV (by decide)]
    exact findEntry_chain_kPIV (mkHeader P CD RD T TE LT CS SCC L BP SPs SPEs KWs)
  have hfPOT : findEntry (classJoin (updateDictPre (mkHeader P CD RD T TE LT CS SCC L BP SPs SPEs KWs))) kPOT
      = some ⟨kPOT, CD⟩ := by
    rw [hS kPOT, findEntry_pre_nonseries (mkHeader P CD RD T TE LT CS SCC L BP SPs SPEs KWs) kPOT (by decide)]
    exact findEntry_chain_kPOT (mkHeader P CD RD T TE LT CS SCC L BP SPs SPEs KWs)
  have hfPOR : findEntry (classJoin (updateDictPre (mkHeader P CD RD T TE LT CS SCC L BP SPs SPEs KWs))) kPOR
      = some ⟨kPOR, RD⟩ := by
    rw [hS kPOR, findEntry_pre_nonseries (mkHeader P CD RD T TE LT CS SCC L BP SPs SPEs KWs) kPOR (by decide)]
    exact findEntry_chain_kPOR (mkHeader P CD RD T TE LT CS SCC L BP SPs SPEs KWs)
  have hfLTr : findEntry (classJoin (updateDictPre (mkHeader P CD RD T TE LT CS SCC L BP SPs SPEs KWs))) kLTr
      = some ⟨kLTr, ltValue T TE⟩ := by
    rw [hS kLTr, findEntry_pre_nonseries (mkHeader P CD RD T TE LT CS SCC L BP SPs SPEs KWs) kLTr (by decide)]
    exact findEntry_chain_kLTr (mkHeader P CD RD T TE LT CS SCC L BP SPs SPEs KWs) rfl
  have hfTeam : findEntry (classJoin (updateDictPre (mkHeader P CD RD T TE LT CS SCC L BP SPs SPEs KWs))) kTeam
      = some ⟨kTeam, LT⟩ := by
    rw [hS kTeam, findEntry_pre_nonseries (mkHeader P CD RD T TE LT CS SCC L BP SPs SPEs KWs) kTeam (by decide)]
    exact findEntry_chain_kTeam (mkHeader P CD RD T TE LT CS SCC L BP SPs SPEs KWs)
  have hfCT : findEntry (classJoin (updateDictPre (mkHeader P CD RD T TE LT CS SCC L BP SPs SPEs KWs))) kCT
      = some ⟨kCT, ctPre ++ CS⟩ := by
    rw [hS kCT, findEntry_pre_nonseries (mkHeader P CD RD T TE LT CS SCC L BP SPs SPEs KWs) kCT (by decide)]
    exact findEntry_chain_kCT (mkHeader P CD RD T TE LT CS SCC L BP SPs SPEs KWs)
  have hfLang : findEntry (classJoin (updateDictPre (mkHeader P CD RD T TE LT CS SCC L BP SPs SPEs KWs))) kLang
      = if L = [] then none else some ⟨kLang, L⟩ := by
    rw [hS kLang, findEntry_pre_nonseries (mkHeader P CD RD T TE LT CS SCC L BP SPs SPEs KWs) kLang (by decide)]
    exact findEntry_chain_kLang (mkHeader P CD RD T TE LT CS SCC L BP SPs SPEs KWs)
  have hfXL : findEntry (classJoin (updateDictPre (mkHeader P CD RD T TE LT CS SCC L BP SPs SPEs KWs))) kXLang = none := by
    rw [hS kXLang, findEntry_pre_nonseries (mkHeader P CD RD T TE LT CS SCC L BP SPs SPEs KWs) kXLang (by decide)]
    exact findEntry_chain_other (mkHeader P CD RD T TE LT CS SCC L BP SPs SPEs KWs) rfl kXLang (by decide)
  have hfXPL : findEntry (classJoin (updateDictPre (mkHeader P CD RD T TE LT CS SCC L BP SPs SPEs KWs))) kXPL = none := by
    rw [hS kXPL, findEntry_pre_nonseries (mkHeader P CD RD T TE LT CS SCC L BP SPs SPEs KWs) kXPL (by decide)]
    exact findEntry_chain_other (mkHeader P CD RD T TE LT CS SCC L BP SPs SPEs KWs) rfl kXPL (by decide)
  have hfXPC : findEntry (classJoin (updateDictPre (mkHeader P CD RD T TE LT CS SCC L BP SPs SPEs KWs))) kXPC = none := by
    rw [hS kXPC, findEntry_pre_nonseries (mkHeader P CD RD T TE LT CS SCC L BP SPs SPEs KWs) kXPC (by decide)]
    exact findEntry_chain_other (mkHeader P CD RD T TE LT CS SCC L BP SPs SPEs KWs) rfl kXPC (by decide)
  have hfSCC : findEntry (classJoin (updateDictPre (mkHeader P CD RD T TE LT CS SCC L BP SPs SPEs KWs))) kSCC
      = if SCC = [] then none else some ⟨kSCC, SCC⟩ := by
    rw [hS kSCC, findEntry_pre_nonseries (mkHeader P CD RD T TE LT CS SCC L BP SPs SPEs KWs) kSCC (by decide)]
    exact findEntry_chain_kSCC (mkHeader P CD RD T TE LT CS SCC L BP SPs SPEs KWs)
  have hfKWL : findEntry (classJoin (updateDictPre (mkHeader P CD RD T TE LT CS SCC L BP SPs SPEs KWs))) kKWL
      = if KWs = [] then none else some ⟨kKWL, joinSC KWs⟩ := by
    rw [hS kKWL, findEntry_pre_nonseries (mkHeader P CD RD T TE LT CS SCC L BP SPs SPEs KWs) kKWL (by decide)]
    exact findEntry_chain_kKWL (mkHeader P CD RD T TE LT CS SCC L BP SPs SPEs KWs) rfl
  have hfKWold : findEntry (classJoin (updateDictPre (mkHeader P CD RD T TE LT CS SCC L BP SPs SPEs KWs))) kKWold = none := by
    rw [hS kKWold, findEntry_pre_nonseries (mkHeader P CD RD T TE LT CS SCC L BP SPs SPEs KWs) kKWold (by decide)]
    exact findEntry_chain_other (mkHeader P CD RD T TE LT CS SCC L BP SPs SPEs KWs) rfl kKWold (by decide)
  have hfBP : findEntry (classJoin (updateDictPre (mkHeader P CD RD T TE LT CS SCC L BP SPs SPEs KWs))) kBP
      = if BP = [] then none else some ⟨kBP, BP⟩ := by
    rw [hS kBP, findEntry_pre_nonseries (mkHeader P CD RD T TE LT CS SCC L BP SPs SPEs KWs) kBP (by decide)]
    exact findEntry_chain_kBP (mkHeader P CD RD T TE LT CS SCC L BP SPs SPEs KWs)
  have hfSP : ∀ q : Nat,
      findEntry (classJoin (updateDictPre (mkHeader P CD RD T TE LT CS SCC L BP SPs SPEs KWs))) (mkIdxKey spPfx q)
        = if q < SPs.length then some ⟨mkIdxKey spPfx q, SPs.getD q []⟩
          else none := by
    intro q
    rw [hS (mkIdxKey spPfx q)]
    exact findEntry_pre_spKey (mkHeader P CD RD T TE LT CS SCC L BP SPs SPEs KWs) rfl q
  have hfSPE : ∀ q : Nat,
      findEntry (classJoin (updateDictPre (mkHeader P CD RD T TE LT CS SCC L BP SPs SPEs KWs))) (mkIdxKey spePfx q)
        = if q < SPEs.length then some ⟨mkIdxKey spePfx q, SPEs.getD q []⟩
          else none := by
    intro q
    rw [hS (mkIdxKey spePfx q)]
    exact findEntry_pre_speKey (mkHeader P CD RD T TE LT CS SCC L BP SPs SPEs KWs) rfl q
  exact parseDict_fields (mkHeader P CD RD T TE LT CS SCC L BP SPs SPEs KWs)
    (classJoin (updateDictPre (mkHeader P CD RD T TE LT CS SCC L BP SPs SPEs KWs)))
    hfPIV hfPOT hfPOR hfLTr hfTeam hfCT hfLang hfXL hfXPL hfXPC hfSCC hfKWL
    hfKWold hfBP hfSP hfSPE hT hTlt hTgt hTElt hTEgt hTne hCS hBPf
    (fun p hp => ⟨(hSPs p hp).2.2, (hSPs p hp).2.1⟩)
    (fun p hp => ⟨(hSPEs p hp).2.2, (hSPEs p hp).2.1⟩)
    (fun k hk => ⟨(hKWs k hk).2.1, (hKWs k hk).2.2⟩)

/-- Witness for C1 on a small concrete header with every first-class field
set: the unescaped serialized text parses back to exactly those fields. -/
theorem C1_witness :
    HeaderData.FromString cleanHeader (unescapeCString
        (HeaderData.ToString hW1 []))
      = { entries := deleteHeaderE (deleteHeaderE
            (classJoin (updateDictPre hW1)) kXPL) kXPC,
          Project := "p".toList, CreationDate := "cd".toList,
          RevisionDate := "rd".toList, Translator := "t q".toList,
          TranslatorEmail := "e@x".toList, LanguageTeam := "lt".toList,
          Charset := "cs".toList, SourceCodeCharset := "scc".toList,
          Lang := ⟨"cz".toList⟩, BasePath := "b".toList,
          SearchPaths := ["a".toList], SearchPathsExcluded := ["x".toList],
          Keywords := ["k".toList] } :=
  C1_header_roundtrip_amended "p".toList "cd".toList "rd".toList "t q".toList
    "e@x".toList "lt".toList "cs".toList "scc".toList "cz".toList "b".toList
    ["a".toList] ["x".toList] ["k".toList]
    (by decide) (by decide) (by decide) (by decide) (by decide) (by decide)
    (by decide) (by decide) (by decide) (by decide) (by decide) (by decide)
    (by decide) (by decide) (by decide) (by decide) (by decide) (by decide)
    (by decide)

end Poedit
